import Mathlib

/-!
# Castor++ `Configuration`: tree model, parser and path queries

A shallow embedding of `Configuration.h` / `Configuration.cpp`.

* `std::string` is `String`; the scanner works on its character list.
* `boost::any` is `BoostAny`; a default-constructed `any` is `BoostAny.empty`.
* A `ConfigNode` owns its children; the `parent` back pointer is the position
  in the tree.  The parser cursor `currentNode` is `Option Nat`: `none` is the
  null pointer, `some d` is the node reached from the root by `d` steps to the
  last child (an open section is always the last child of its parent).
* `size_t` arithmetic that can wrap is taken modulo `2 ^ 64`, `int` is wrapped to
  32 bits.
* C++ exceptions are the error side of `Except`.  `ConfigException(message)` hands its
  message to `vasprintf` as the format, with no arguments: a message with a `%`
  conversion is undefined behaviour, the error `undefinedFormat`.
-/

namespace castor

/-! ## Tree model (`ConfigNode`) -/

/-- The enumeration `ConfigNode::Type`. -/
inductive NodeType
  | Node
  | Leaf
  | Comment
deriving DecidableEq, Repr

/-- The content of a `boost::any`: nothing, a `std::string`, or a value of some
other type (given by a printable form). -/
inductive BoostAny
  | empty
  | str (s : String)
  | other (repr : String)
deriving DecidableEq, Repr

/-- The class `ConfigNode` (fields `name`, `value`, `children`, `depth`, `type`). -/
inductive ConfigNode
  | mk (name : String) (value : BoostAny) (children : List ConfigNode) (depth : Nat)
      (type : NodeType)
deriving Repr

namespace ConfigNode

/-- Accessor `getName`. -/
def getName : ConfigNode → String
  | mk n _ _ _ _ => n

/-- Accessor `getValue`. -/
def getValue : ConfigNode → BoostAny
  | mk _ v _ _ _ => v

/-- Accessor `getChildren`. -/
def getChildren : ConfigNode → List ConfigNode
  | mk _ _ c _ _ => c

/-- Accessor `getDepth`. -/
def getDepth : ConfigNode → Nat
  | mk _ _ _ d _ => d

/-- Accessor `getType`. -/
def getType : ConfigNode → NodeType
  | mk _ _ _ _ t => t

/-- Constructor `ConfigNode(std::string name)`: a section without parent. -/
def newNode (name : String) : ConfigNode :=
  mk name BoostAny.empty [] 0 NodeType.Node

/-- Constructor `ConfigNode(Type type, std::string name)`. -/
def newTyped (type : NodeType) (name : String) : ConfigNode :=
  mk name BoostAny.empty [] 0 type

/-- Constructor `ConfigNode(std::string name, boost::any &value)`: a leaf. -/
def newLeaf (name : String) (value : BoostAny) : ConfigNode :=
  mk name value [] 0 NodeType.Leaf

/-- Method `setParent`, seen from the child: `depth = parent->depth + 1`. -/
def setParent (child parent : ConfigNode) : ConfigNode :=
  mk child.getName child.getValue child.getChildren (parent.getDepth + 1) child.getType

/-- Method `setValue`. -/
def setValue (node : ConfigNode) (value : BoostAny) : ConfigNode :=
  mk node.getName value node.getChildren node.getDepth node.getType

/-- Push `child` at the back of the children of `parent` and attach it. -/
def adopt (parent child : ConfigNode) : ConfigNode :=
  mk parent.getName parent.getValue (parent.getChildren ++ [child.setParent parent])
    parent.getDepth parent.getType

/-- Method `create(std::string name)`; the result is the receiver after the call, the
returned handle is its last child. -/
def create (parent : ConfigNode) (name : String) : ConfigNode :=
  parent.adopt (newNode name)

/-- Method `create(Type type, std::string name)`. -/
def createTyped (parent : ConfigNode) (type : NodeType) (name : String) : ConfigNode :=
  parent.adopt (newTyped type name)

/-- Method `create(std::string name, boost::any &value)`. -/
def createLeaf (parent : ConfigNode) (name : String) (value : BoostAny) : ConfigNode :=
  parent.adopt (newLeaf name value)

mutual
/-- Decidable equality of nodes. -/
def decEq : (a b : ConfigNode) → Decidable (a = b)
  | mk n1 v1 c1 d1 t1, mk n2 v2 c2 d2 t2 =>
    if hn : n1 = n2 then
      if hv : v1 = v2 then
        if hd : d1 = d2 then
          if ht : t1 = t2 then
            match decEqList c1 c2 with
            | isTrue hc => isTrue (by rw [hn, hv, hd, ht, hc])
            | isFalse hc => isFalse (fun h => hc (by injection h))
          else isFalse (fun h => ht (by injection h))
        else isFalse (fun h => hd (by injection h))
      else isFalse (fun h => hv (by injection h))
    else isFalse (fun h => hn (by injection h))
/-- Decidable equality of child lists. -/
def decEqList : (as bs : List ConfigNode) → Decidable (as = bs)
  | [], [] => isTrue rfl
  | [], _ :: _ => isFalse (fun h => by cases h)
  | _ :: _, [] => isFalse (fun h => by cases h)
  | a :: as, b :: bs =>
    match decEq a b with
    | isTrue h1 =>
      match decEqList as bs with
      | isTrue h2 => isTrue (by rw [h1, h2])
      | isFalse h2 => isFalse (fun h => h2 (by injection h))
    | isFalse h1 => isFalse (fun h => h1 (by injection h))
end

instance : DecidableEq ConfigNode := decEq

end ConfigNode

/-! ## Path arguments (`CONSUME_PARAMS`) -/

/-- The pieces of a text between occurrences of `sep`; empty pieces are kept, so a
text with `k` separators has `k + 1` pieces.  With `sep = '.'` this is `boost::split`
with `is_any_of(".")`; with the newline it is the sequence of lines that
`std::getline` yields while the stream is `good()`. -/
def splitChar (sep : Char) : List Char → List (List Char)
  | [] => [[]]
  | c :: cs =>
    if c = sep then [] :: splitChar sep cs
    else
      match splitChar sep cs with
      | [] => [[c]]
      | piece :: pieces => (c :: piece) :: pieces

/-- The macro `CONSUME_PARAMS`: the path arguments before the terminating `NULL`
are split at dots and the pieces are appended to `params`.  A `NULL` first argument
is the empty argument list. -/
def consumeParams (path : List String) : List String :=
  path.flatMap (fun arg => (splitChar '.' arg.data).map String.mk)

/-! ## Path query engine -/

/-- The `for j` loop of `collect` and `collectSections` for one segment: `visit` is
the recursive call, made for every child named `seg`, in child order. -/
def visitNamed (visit : ConfigNode → List ConfigNode) (seg : String) :
    List ConfigNode → List ConfigNode
  | [] => []
  | c :: cs =>
    if c.getName = seg then visit c ++ visitNamed visit seg cs
    else visitNamed visit seg cs

/-- The flag `found` after the `for j` loop: some child is named `seg`. -/
def foundNamed (seg : String) (children : List ConfigNode) : Bool :=
  children.any (fun c => decide (c.getName = seg))

/-- The `for i` loop of `collect` and `collectSections`; `segs` are the segments
`params[i]` for `i = offset, offset + 1, ...`.  The loop returns at the first
segment that names no child. -/
def segmentLoop (visit : ConfigNode → List ConfigNode) (children : List ConfigNode) :
    List String → List ConfigNode
  | [] => []
  | seg :: segs =>
    if foundNamed seg children then
      visitNamed visit seg children ++ segmentLoop visit children segs
    else []

/-- The recursion of `collect`, on the number `fuel` of segments left. -/
def collectAux : Nat → ConfigNode → List String → Nat → List ConfigNode
  | fuel, node, params, offset =>
    if offset = params.length then [node]
    else
      match fuel with
      | 0 => []
      | fuel + 1 =>
        segmentLoop (fun child => collectAux fuel child params (offset + 1))
          node.getChildren (params.drop offset)

/-- `Configuration::collect`; the result vector is returned. -/
def collect (node : ConfigNode) (params : List String) (offset : Nat) : List ConfigNode :=
  collectAux (params.length - offset) node params offset

/-- The recursion of `collectSections`, on the number `fuel` of segments left. -/
def collectSectionsAux : Nat → ConfigNode → List String → Nat → List ConfigNode
  | fuel, node, params, offset =>
    if offset = params.length then node.getChildren
    else
      match fuel with
      | 0 => []
      | fuel + 1 =>
        segmentLoop (fun child => collectSectionsAux fuel child params (offset + 1))
          node.getChildren (params.drop offset)

/-- `Configuration::collectSections`; the result vector is returned. -/
def collectSections (node : ConfigNode) (params : List String) (offset : Nat) :
    List ConfigNode :=
  collectSectionsAux (params.length - offset) node params offset

/-! ## The `Configuration` object and its accessors -/

/-- The class `Configuration`. -/
structure Configuration where
  filename : String
  configRoot : ConfigNode
deriving DecidableEq, Repr

/-- How a query can fail: the `ConfigException` for a path that is not found,
`boost::bad_any_cast`, `boost::bad_lexical_cast`, or the undefined behaviour of a
`ConfigException` whose message is not a format that `vasprintf` can print without
arguments. -/
inductive QueryError
  | notFound (params : List String)
  | badAnyCast
  | badLexicalCast
  | undefinedFormat
deriving DecidableEq, Repr

/-- The C string `what.c_str()` as `vasprintf` reads it: the characters before the
first NUL. -/
def cString (what : List Char) : List Char :=
  what.takeWhile (fun c => decide (c ≠ Char.ofNat 0))

/-- Whether `vasprintf(&result, format, args)` is defined when no argument was passed,
as in `Exception::setReason` behind `ConfigException(message)`: every `%` of the
format has to start the conversion `%%`; any other conversion reads an argument
that is not there. -/
def formatDefined : List Char → Bool
  | [] => true
  | c :: rest =>
    if c = '%' then
      match rest with
      | [] => false
      | c' :: rest' => if c' = '%' then formatDefined rest' else false
    else formatDefined rest

/-- `Configuration::pathNotFound`; `std::endl` is the newline. -/
def pathNotFound (filename : String) (params : List String) : List Char :=
  match params with
  | [] => "Empty path not found in ".data ++ filename.data ++ "!\n".data
  | p :: ps =>
    "Path '".data ++ p.data ++ ps.flatMap (fun q => '.' :: q.data)
      ++ "' not found in ".data ++ filename.data ++ "!\n".data

/-- The statement `throw ConfigException(pathNotFound(params.get()))`: the constructor
hands the message to `vasprintf` as the format. -/
def throwNotFound (filename : String) (params : List String) : QueryError :=
  if formatDefined (cString (pathNotFound filename params)) then QueryError.notFound params
  else QueryError.undefinedFormat

/-- The call `boost::any_cast<std::string>`. -/
def anyCastString : BoostAny → Except QueryError String
  | BoostAny.str s => Except.ok s
  | _ => Except.error QueryError.badAnyCast

namespace Configuration

/-- The default constructor `Configuration()`. -/
def new : Configuration :=
  { filename := "", configRoot := ConfigNode.newNode "root" }

/-- The names of the nodes of type `type`, in order (the copy loops of the name
accessors). -/
def namesOfType (type : NodeType) (nodes : List ConfigNode) : List String :=
  (nodes.filter (fun n => decide (n.getType = type))).map ConfigNode.getName

/-- `Configuration::getSections`. -/
def getSections (c : Configuration) (path : List String) : Except QueryError (List String) :=
  let params := consumeParams path
  let nodes := collectSections c.configRoot params 0
  if nodes.length = 0 then Except.error (throwNotFound c.filename params)
  else Except.ok (namesOfType NodeType.Node nodes)

/-- `Configuration::getNames`. -/
def getNames (c : Configuration) (path : List String) : Except QueryError (List String) :=
  let params := consumeParams path
  let nodes := collect c.configRoot params 0
  if nodes.length = 0 then Except.error (throwNotFound c.filename params)
  else Except.ok (namesOfType NodeType.Leaf nodes)

/-- `Configuration::tryGetSections`; `std::vector<std::string> result(1)` holds one
empty string before `push_back(d)`. -/
def tryGetSections (c : Configuration) (d : String) (path : List String) : List String :=
  let params := consumeParams path
  let nodes := collect c.configRoot params 0
  if nodes.length = 0 then List.replicate 1 "" ++ [d]
  else namesOfType NodeType.Node nodes

/-- `Configuration::tryGetNames`; `std::vector<std::string> result(1)` holds one
empty string before `push_back(d)`. -/
def tryGetNames (c : Configuration) (d : String) (path : List String) : List String :=
  let params := consumeParams path
  let nodes := collect c.configRoot params 0
  if nodes.length = 0 then List.replicate 1 "" ++ [d]
  else namesOfType NodeType.Leaf nodes

/-! ### Typed accessors -/

/-- What the template `convert<Target>` needs to know about `Target`: whether it is
`bool`, and the two `boost::lexical_cast<Target>` instances it calls. -/
structure Target (T : Type) where
  isBool : Bool
  castBool : Bool → Except QueryError T
  castString : String → Except QueryError T

/-- The call `boost::algorithm::to_lower`. -/
def toLower (value : String) : String :=
  String.mk (value.data.map Char.toLower)

/-- The template `Configuration::convert<Target>`. -/
def convert {T : Type} (target : Target T) (value : String) : Except QueryError T :=
  if target.isBool then
    let value := toLower value
    if "false" = value ∨ "no" = value ∨ "0" = value then target.castBool false
    else target.castBool true
  else target.castString value

/-- The target type `bool`. -/
def boolTarget : Target Bool :=
  { isBool := true
    castBool := fun b => Except.ok b
    castString := fun s =>
      if s = "1" then Except.ok true
      else if s = "0" then Except.ok false
      else Except.error QueryError.badLexicalCast }

/-- The target type `std::string`. -/
def stringTarget : Target String :=
  { isBool := false
    castBool := fun b => Except.ok (if b then "1" else "0")
    castString := fun s => Except.ok s }

/-- The expression `convert<T>(boost::any_cast<std::string>(node->getValue()))`. -/
def convertNode {T : Type} (target : Target T) (node : ConfigNode) : Except QueryError T :=
  match anyCastString node.getValue with
  | Except.error e => Except.error e
  | Except.ok s => convert target s

/-- The copy loop of `getAll` and `tryGetAll`: every node is converted, in order. -/
def convertAll {T : Type} (target : Target T) : List ConfigNode → Except QueryError (List T)
  | [] => Except.ok []
  | node :: nodes =>
    match convertNode target node with
    | Except.error e => Except.error e
    | Except.ok v =>
      match convertAll target nodes with
      | Except.error e => Except.error e
      | Except.ok vs => Except.ok (v :: vs)

/-- The template `Configuration::get<T>`. -/
def get {T : Type} (target : Target T) (c : Configuration) (path : List String) :
    Except QueryError T :=
  let params := consumeParams path
  match collect c.configRoot params 0 with
  | [] => Except.error (throwNotFound c.filename params)
  | node :: _ => convertNode target node

/-- The template `Configuration::getAll<T>`. -/
def getAll {T : Type} (target : Target T) (c : Configuration) (path : List String) :
    Except QueryError (List T) :=
  let params := consumeParams path
  match collect c.configRoot params 0 with
  | [] => Except.error (throwNotFound c.filename params)
  | node :: nodes => convertAll target (node :: nodes)

/-- The template `Configuration::tryGet<T>`. -/
def tryGet {T : Type} (target : Target T) (c : Configuration) (d : T) (path : List String) :
    Except QueryError T :=
  let params := consumeParams path
  match collect c.configRoot params 0 with
  | [] => Except.ok d
  | node :: _ => convertNode target node

/-- The template `Configuration::tryGetAll<T>`. -/
def tryGetAll {T : Type} (target : Target T) (c : Configuration) (d : T)
    (path : List String) : Except QueryError (List T) :=
  let params := consumeParams path
  match collect c.configRoot params 0 with
  | [] => Except.ok [d]
  | node :: nodes => convertAll target (node :: nodes)

end Configuration

/-! ## Parser (`Configuration::load`) -/

/-- The predicate `std::isspace` of the classic locale, used by `boost::trim`. -/
def isSpace (c : Char) : Bool :=
  c = ' ' || c = '\t' || c = '\n' || c = '\r' || c = Char.ofNat 11 || c = Char.ofNat 12

/-- The call `boost::algorithm::trim_left`. -/
def trimLeft : List Char → List Char
  | [] => []
  | c :: cs => if isSpace c then trimLeft cs else c :: cs

/-- The call `boost::algorithm::trim`. -/
def trim (s : List Char) : List Char :=
  (trimLeft (trimLeft s).reverse).reverse

/-- The call `std::string::find(char)`; `none` is `npos`. -/
def find (ch : Char) : List Char → Option Nat
  | [] => none
  | c :: cs => if c = ch then some 0 else (find ch cs).map (fun i => i + 1)

/-- Subtraction of `size_t` values. -/
def sizeSub (a b : Nat) : Nat :=
  (a + 18446744073709551616 - b) % 18446744073709551616

/-- Conversion to a 32-bit `int`. -/
def toInt (n : Int) : Int :=
  (n + 2147483648) % 4294967296 - 2147483648

/-- The causes of the parse errors thrown by `load`, in source order: "malformed tag!",
"malformed tag, tag name empty!", "no opening tag found!", "closing tag does not
match opening tag!", "no closing tag found!". -/
inductive ParseCause
  | malformedTag
  | tagNameEmpty
  | noOpeningTag
  | closingTagMismatch
  | noClosingTag
deriving DecidableEq, Repr

/-- How `load` can fail: a `ConfigException` with the line and character it reports,
a call through the null `currentNode`, the undefined behaviour of a `ConfigException`
whose message is not a format that `vasprintf` can print without arguments, or a
scan loop cut off by the fuel. -/
inductive LoadError
  | parseError (cause : ParseCause) (linePos chrPos : Int)
  | nullDereference
  | undefinedFormat
  | outOfFuel
deriving DecidableEq, Repr

/-- The end of the message of a parse error. -/
def causeText : ParseCause → List Char
  | ParseCause.malformedTag => "malformed tag!".data
  | ParseCause.tagNameEmpty => "malformed tag, tag name empty!".data
  | ParseCause.noOpeningTag => "no opening tag found!".data
  | ParseCause.closingTagMismatch => "closing tag does not match opening tag!".data
  | ParseCause.noClosingTag => "no closing tag found!".data

/-- The message that `load` builds for a parse error: the file name, the line and the
character in decimal, and the cause. -/
def parseErrorMessage (filename : String) (cause : ParseCause) (linePos chrPos : Int) :
    List Char :=
  "Parse error in ".data ++ filename.data ++ ", line ".data ++ (toString linePos).data
    ++ " character ".data ++ (toString chrPos).data ++ ": ".data ++ causeText cause

/-- The statement `throw ConfigException(ss.str())` of a parse error: the constructor
hands the message, which holds the file name, to `vasprintf` as the format. -/
def throwParseError (filename : String) (cause : ParseCause) (linePos chrPos : Int) :
    LoadError :=
  if formatDefined (cString (parseErrorMessage filename cause linePos chrPos)) then
    LoadError.parseError cause linePos chrPos
  else LoadError.undefinedFormat

/-- The local state of `load` inside the loops, with the parameter `filename` that the
messages of the parse errors quote. -/
structure Scanner where
  line : List Char
  chrPos : Int
  root : ConfigNode
  currentNode : Option Nat
  filename : String
deriving Repr

/-- Apply `f` to the last element of a list. -/
def modifyLast (f : ConfigNode → ConfigNode) : List ConfigNode → List ConfigNode
  | [] => []
  | [a] => [f a]
  | a :: b :: l => a :: modifyLast f (b :: l)

/-- Apply `f` to the node that the cursor `d` points to below `node`. -/
def atCursor : Nat → (ConfigNode → ConfigNode) → ConfigNode → ConfigNode
  | 0, f, node => f node
  | d + 1, f, node =>
    ConfigNode.mk node.getName node.getValue (modifyLast (atCursor d f) node.getChildren)
      node.getDepth node.getType

/-- The value of `currentNode->getName()` for the cursor `d` below `node`. -/
def cursorName : Nat → ConfigNode → String
  | 0, node => node.getName
  | d + 1, node =>
    match node.getChildren.getLast? with
    | none => ""
    | some child => cursorName d child

/-- The inner `while (curPos < line.size())` loop of a leaf assignment.  The arguments
are `inString`, the characters from `curPos` on, `curPos` and the buffer `ss`; the
result is the buffer and `curPos` after the loop. -/
def scanLeaf : Bool → List Char → Nat → List Char → List Char × Nat
  | _, [], curPos, ss => (ss, curPos)
  | inString, c :: rest, curPos, ss =>
    if !inString && (c = '[' || c = '<') then (ss, sizeSub curPos 1)
    else if c = '"' then
      match rest with
      | [] => (ss, curPos + 1)
      | c' :: rest' => scanLeaf (!inString) rest' (curPos + 2) (ss ++ [c'])
    else scanLeaf inString rest (curPos + 1) (ss ++ [c])

/-- The key and the value taken from the text `element` of a leaf assignment. -/
def splitElement (element : List Char) : List Char × List Char :=
  match find '=' element with
  | none => ([], [])
  | some eq => (trim (element.take (sizeSub eq 1)), trim (element.drop (eq + 1)))

/-- The position `end` of the closer of a tag: the first `]`, else the first `>`. -/
def findCloser (line : List Char) : Option Nat :=
  match find ']' line with
  | some e => some e
  | none => find '>' line

/-- The case `'#'` of the switch. -/
def commentCase (s : Scanner) : Except LoadError Scanner :=
  match s.currentNode with
  | none => Except.error LoadError.nullDereference
  | some d =>
    Except.ok
      { s with
        root := atCursor d
          (fun n => n.createTyped NodeType.Comment (String.mk (trim (s.line.drop 1)))) s.root
        chrPos := toInt (s.chrPos + (sizeSub s.line.length 1 : Nat)) }

/-- The cases `'<'` and `'['` of the switch. -/
def tagCase (linePos : Int) (s : Scanner) : Except LoadError Scanner :=
  match findCloser s.line with
  | none => Except.error (throwParseError s.filename ParseCause.malformedTag linePos s.chrPos)
  | some e =>
    if s.line.length < 2 then
      Except.error (throwParseError s.filename ParseCause.malformedTag linePos s.chrPos)
    else if sizeSub e 1 = 0 then
      Except.error (throwParseError s.filename ParseCause.tagNameEmpty linePos s.chrPos)
    else
      let name := (s.line.drop 1).take (sizeSub e 1)
      let rest := s.line.drop (e + 1)
      let chrPos := toInt (s.chrPos + ((e + 1 : Nat) : Int))
      if name.head? = some '/' ∨ name.head? = some '!' then
        match s.currentNode with
        | none =>
          Except.error (throwParseError s.filename ParseCause.noOpeningTag linePos s.chrPos)
        | some d =>
          if String.mk (name.drop 1) ≠ cursorName d s.root then
            Except.error
              (throwParseError s.filename ParseCause.closingTagMismatch linePos s.chrPos)
          else
            Except.ok
              { line := rest, chrPos := chrPos, root := s.root,
                currentNode := (match d with
                  | 0 => none
                  | d + 1 => some d),
                filename := s.filename }
      else
        match s.currentNode with
        | none => Except.error LoadError.nullDereference
        | some d =>
          Except.ok
            { line := rest, chrPos := chrPos,
              root := atCursor d (fun n => n.create (String.mk name)) s.root,
              currentNode := some (d + 1), filename := s.filename }

/-- The `default` case of the switch; `c` is `line[0]`. -/
def defaultCase (c : Char) (s : Scanner) : Except LoadError Scanner :=
  let chrPos := toInt (s.chrPos + 1)
  if c ≠ ' ' ∧ c ≠ '\t' then
    let scanned := scanLeaf false s.line 0 []
    let curPos := scanned.2
    let rest := if curPos ≥ sizeSub s.line.length 1 then [] else s.line.drop (curPos + 1)
    let chrPos := toInt (chrPos + (sizeSub curPos 1 : Nat))
    let element := splitElement scanned.1
    match s.currentNode with
    | none => Except.error LoadError.nullDereference
    | some d =>
      Except.ok
        { line := rest, chrPos := chrPos,
          root := atCursor d
            (fun n => n.createLeaf (String.mk element.1) (BoostAny.str (String.mk element.2)))
            s.root,
          currentNode := some d, filename := s.filename }
  else
    Except.ok { s with line := s.line.drop 1, chrPos := chrPos }

/-- One execution of `switch (line[0])`; `c` is `line[0]`. -/
def switchStep (linePos : Int) (c : Char) (s : Scanner) : Except LoadError Scanner :=
  if c = '#' then commentCase s
  else if c = '<' ∨ c = '[' then tagCase linePos s
  else defaultCase c s

/-- The loop `while (chrPos < lineLen - 1)` over one line, cut off after `fuel`
executions of the switch. -/
def lineLoop (linePos lineLen : Int) : Nat → Scanner → Except LoadError Scanner
  | fuel, s =>
    if s.chrPos < lineLen - 1 then
      match s.line with
      | [] => Except.ok s
      | c :: _ =>
        match fuel with
        | 0 => Except.error LoadError.outOfFuel
        | fuel + 1 =>
          match switchStep linePos c s with
          | Except.error e => Except.error e
          | Except.ok s' => lineLoop linePos lineLen fuel s'
    else Except.ok s

/-- The loop `while (content->good())` over the lines of the stream; the result is
`linePos` and the state after the last line. -/
def lineStream (fuel : Nat) : List (List Char) → Int → Scanner → Except LoadError (Int × Scanner)
  | [], linePos, s => Except.ok (linePos, s)
  | text :: texts, linePos, s =>
    let line := trimLeft text
    let linePos := toInt (linePos + 1)
    match lineLoop linePos (toInt line.length) fuel { s with line := line, chrPos := 1 } with
    | Except.error e => Except.error e
    | Except.ok s' => lineStream fuel texts linePos s'

namespace Configuration

/-- `Configuration::load(filename, content, create, replace)` on the text `content`
of the stream; each line may execute the switch at most `fuel` times. -/
def load (fuel : Nat) (c : Configuration) (filename : String) (content : String) :
    Except LoadError Configuration :=
  match lineStream fuel (splitChar '\n' content.data) 0
      { line := [], chrPos := 0, root := c.configRoot, currentNode := some 0,
        filename := filename } with
  | Except.error e => Except.error e
  | Except.ok (linePos, s) =>
    if s.currentNode ≠ some 0 then
      Except.error (throwParseError filename ParseCause.noClosingTag linePos s.line.length)
    else Except.ok { filename := filename, configRoot := s.root }

/-- The constructor `Configuration(filename, content)`. -/
def ofContent (fuel : Nat) (filename : String) (content : String) :
    Except LoadError Configuration :=
  load fuel { filename := filename, configRoot := ConfigNode.newNode "root" } filename content

end Configuration

/-- Decidable equality of results. -/
instance exceptDecidableEq {ε α : Type} [DecidableEq ε] [DecidableEq α] :
    DecidableEq (Except ε α)
  | Except.ok a, Except.ok b =>
    if h : a = b then isTrue (by rw [h]) else isFalse (fun h' => h (by injection h'))
  | Except.error a, Except.error b =>
    if h : a = b then isTrue (by rw [h]) else isFalse (fun h' => h (by injection h'))
  | Except.ok _, Except.error _ => isFalse (fun h => by cases h)
  | Except.error _, Except.ok _ => isFalse (fun h => by cases h)

/-! ## Reference semantics of a path, in the words of the specification -/

/-- The recursion of `refMatch`, on the number `fuel` of segments left. -/
def refMatchAux : Nat → ConfigNode → List String → Nat → List ConfigNode
  | fuel, node, segments, o =>
    if o = segments.length then [node]
    else
      match fuel with
      | 0 => []
      | fuel + 1 =>
        match segments[o]? with
        | none => []
        | some seg =>
          (node.getChildren.filter (fun c => decide (c.getName = seg))).flatMap
            (fun c => refMatchAux fuel c segments (o + 1))

/-- The reference path match of the specification: `ref(node, o) = [node]` if `o` is
the segment count, and otherwise the concatenation, over the children `c` of `node`
whose name equals `segments[o]`, in child order, of `ref(c, o + 1)`. -/
def refMatch (node : ConfigNode) (segments : List String) (o : Nat) : List ConfigNode :=
  refMatchAux (segments.length - o) node segments o

/-! ## Example inputs -/

/-- A section as the parser leaves it: no value. -/
def parsedSection (name : String) (depth : Nat) (children : List ConfigNode) : ConfigNode :=
  ConfigNode.mk name BoostAny.empty children depth NodeType.Node

/-- A leaf as the parser leaves it: a string value and no children. -/
def parsedLeaf (name value : String) (depth : Nat) : ConfigNode :=
  ConfigNode.mk name (BoostAny.str value) [] depth NodeType.Leaf

/-- The text of the end-to-end example of the specification. -/
def endToEndText : String :=
  "[ahoi]\n    [bhoi]\n        [choi]\n            bla = yes\n        [!choi]\n" ++
  "        [choi]\n            bla = no\n        [!choi]\n    [!bhoi]\n" ++
  "    [bhoi]\n        [choi]\n            bla = 1\n        [!choi]\n" ++
  "        [choi]\n            bla = ok\n        [!choi]\n    [!bhoi]\n[!ahoi]\n"

/-- The tree of the end-to-end example: `ahoi` holds two `bhoi`, each holds two
`choi`, each holds one leaf `bla`. -/
def endToEndTree : ConfigNode :=
  parsedSection "root" 0
    [parsedSection "ahoi" 1
      [parsedSection "bhoi" 2
        [parsedSection "choi" 3 [parsedLeaf "bla" "yes" 4],
         parsedSection "choi" 3 [parsedLeaf "bla" "no" 4]],
       parsedSection "bhoi" 2
        [parsedSection "choi" 3 [parsedLeaf "bla" "1" 4],
         parsedSection "choi" 3 [parsedLeaf "bla" "ok" 4]]]]

/-- The configuration holding the end-to-end tree. -/
def endToEndConfig (filename : String) : Configuration :=
  { filename := filename, configRoot := endToEndTree }

/-- A text with one section `a` holding the leaf `a = 1`. -/
def sameNameText : String := "[a]\n    a = 1\n[!a]\n"

/-- The tree of `sameNameText`. -/
def sameNameTree : ConfigNode :=
  parsedSection "root" 0 [parsedSection "a" 1 [parsedLeaf "a" "1" 2]]

/-- A text with two sibling sections `a`, each holding one leaf `a`. -/
def twinText : String := "[a]\n    a = 1\n[!a]\n[a]\n    a = 2\n[!a]\n"

/-- The tree of `twinText`. -/
def twinTree : ConfigNode :=
  parsedSection "root" 0
    [parsedSection "a" 1 [parsedLeaf "a" "1" 2], parsedSection "a" 1 [parsedLeaf "a" "2" 2]]

/-- A text in which the section `a` has a sibling section named `x`, the second
segment of the path `a.x`. -/
def skipText : String := "[a]\n    x = 1\n[!a]\n[x]\n    x = 2\n[!x]\n"

/-- The tree of `skipText`. -/
def skipTree : ConfigNode :=
  parsedSection "root" 0
    [parsedSection "a" 1 [parsedLeaf "x" "1" 2], parsedSection "x" 1 [parsedLeaf "x" "2" 2]]

/-- A text in which the section `a` holds an empty section `x` and has a sibling
section `x` with a leaf `x`. -/
def strayLeafText : String := "[a]\n[x]\n[!x]\n[!a]\n[x]\nx = 2\n[!x]\n"

/-- The tree of `strayLeafText`. -/
def strayLeafTree : ConfigNode :=
  parsedSection "root" 0
    [parsedSection "a" 1 [parsedSection "x" 2 []],
     parsedSection "x" 1 [parsedLeaf "x" "2" 2]]

/-- A text in which the section `a` holds an empty section `x` and has a sibling
section `x` that holds a section `x` with a leaf. -/
def strayChildText : String := "[a]\n[x]\n[!x]\n[!a]\n[x]\n[x]\nq = 1\n[!x]\n[!x]\n"

/-- The tree of `strayChildText`. -/
def strayChildTree : ConfigNode :=
  parsedSection "root" 0
    [parsedSection "a" 1 [parsedSection "x" 2 []],
     parsedSection "x" 1 [parsedSection "x" 2 [parsedLeaf "q" "1" 3]]]

/-- A text in which the section `a` is empty and has a sibling section `x` with a leaf
`x`. -/
def noChainText : String := "[a]\n[!a]\n[x]\nx = 2\n[!x]\n"

/-- The tree of `noChainText`. -/
def noChainTree : ConfigNode :=
  parsedSection "root" 0
    [parsedSection "a" 1 [], parsedSection "x" 1 [parsedLeaf "x" "2" 2]]

/-- A configuration whose only section `a` has no children (the text `[a]`, `[!a]`). -/
def emptySectionConfig : Configuration :=
  { filename := "", configRoot := parsedSection "root" 0 [parsedSection "a" 1 []] }

/-- The text that `serialize` gives for the end-to-end tree. -/
def endToEndSerialized : String :=
  "[root]\n    [ahoi]\n        [bhoi]\n            [choi]\n                bla = yes\n" ++
  "            [!choi]\n            [choi]\n                bla = no\n            [!choi]\n" ++
  "        [!bhoi]\n        [bhoi]\n            [choi]\n                bla = 1\n" ++
  "            [!choi]\n            [choi]\n                bla = ok\n            [!choi]\n" ++
  "        [!bhoi]\n    [!ahoi]\n[!root]\n"

/-- The tree that `load` builds from `endToEndSerialized`: the end-to-end tree one
level down, inside a section `root`. -/
def endToEndReloaded : ConfigNode :=
  parsedSection "root" 0
    [parsedSection "root" 1
      [parsedSection "ahoi" 2
        [parsedSection "bhoi" 3
          [parsedSection "choi" 4 [parsedLeaf "bla" "yes" 5],
           parsedSection "choi" 4 [parsedLeaf "bla" "no" 5]],
         parsedSection "bhoi" 3
          [parsedSection "choi" 4 [parsedLeaf "bla" "1" 5],
           parsedSection "choi" 4 [parsedLeaf "bla" "ok" 5]]]]]

/-! ## Serializer (`Configuration::serialize`) -/

/-- The indentation `std::string(4 * node->getDepth(), ' ')`. -/
def indentation (depth : Nat) : List Char :=
  List.replicate (4 * depth) ' '

mutual
/-- `Configuration::serialize_internal`; the text written to the stream is returned,
`std::endl` is the newline, and a failing `boost::any_cast` is the error. -/
def serialize_internal : ConfigNode → Except QueryError (List Char)
  | ConfigNode.mk name value children depth type =>
    match type with
    | NodeType.Node =>
      match serializeChildren children with
      | Except.error e => Except.error e
      | Except.ok body =>
        Except.ok (indentation depth ++ '[' :: name.data ++ ']' :: '\n' :: body ++
          indentation depth ++ '[' :: '!' :: name.data ++ [']', '\n'])
    | NodeType.Leaf =>
      match anyCastString value with
      | Except.error e => Except.error e
      | Except.ok v =>
        Except.ok (indentation depth ++ name.data ++ ' ' :: '=' :: ' ' :: v.data ++ ['\n'])
    | NodeType.Comment =>
      Except.ok (indentation depth ++ '#' :: ' ' :: name.data ++ ['\n'])
/-- The loop of `serialize_internal` over the children of a section. -/
def serializeChildren : List ConfigNode → Except QueryError (List Char)
  | [] => Except.ok []
  | child :: children =>
    match serialize_internal child with
    | Except.error e => Except.error e
    | Except.ok text =>
      match serializeChildren children with
      | Except.error e => Except.error e
      | Except.ok texts => Except.ok (text ++ texts)
end

namespace Configuration

/-- `Configuration::serialize`. -/
def serialize (c : Configuration) : Except QueryError String :=
  match serialize_internal c.configRoot with
  | Except.error e => Except.error e
  | Except.ok text => Except.ok (String.mk text)

end Configuration

mutual
/-- Two trees have the same structure: the same kinds, names, values and child order
at every position (the depth counters are not compared). -/
def sameStructure : ConfigNode → ConfigNode → Bool
  | ConfigNode.mk n1 v1 c1 _ t1, ConfigNode.mk n2 v2 c2 _ t2 =>
    decide (n1 = n2) && decide (v1 = v2) && decide (t1 = t2) && sameStructureList c1 c2
/-- Two child lists have the same structure, child by child. -/
def sameStructureList : List ConfigNode → List ConfigNode → Bool
  | [], [] => true
  | a :: as, b :: bs => sameStructure a b && sameStructureList as bs
  | _, _ => false
end

/-! ## Mutation (`Configuration::set`) -/

/-- The node at a position, given by the child indices on the way from `node`. -/
def nodeAt : ConfigNode → List Nat → Option ConfigNode
  | node, [] => some node
  | node, i :: rest =>
    match node.getChildren[i]? with
    | none => none
    | some child => nodeAt child rest

/-- Apply `f` to the element of index `i`. -/
def modifyNth (f : ConfigNode → ConfigNode) : Nat → List ConfigNode → List ConfigNode
  | _, [] => []
  | 0, c :: cs => f c :: cs
  | i + 1, c :: cs => c :: modifyNth f i cs

/-- Apply `f` to the node at a position below `node`. -/
def modifyAt : List Nat → (ConfigNode → ConfigNode) → ConfigNode → ConfigNode
  | [], f, node => f node
  | i :: rest, f, node =>
    ConfigNode.mk node.getName node.getValue (modifyNth (modifyAt rest f) i node.getChildren)
      node.getDepth node.getType

/-- The `for j` loop of `collect`, giving for each visited child `children[j]` the
positions that the recursive call `visit j` collects. -/
def visitNamedAt (visit : Nat → ConfigNode → List (List Nat)) (seg : String) :
    Nat → List ConfigNode → List (List Nat)
  | _, [] => []
  | j, c :: cs =>
    if c.getName = seg then visit j c ++ visitNamedAt visit seg (j + 1) cs
    else visitNamedAt visit seg (j + 1) cs

/-- The `for i` loop of `collect`, on positions. -/
def segmentLoopAt (visit : Nat → ConfigNode → List (List Nat)) (children : List ConfigNode) :
    List String → List (List Nat)
  | [] => []
  | seg :: segs =>
    if foundNamed seg children then
      visitNamedAt visit seg 0 children ++ segmentLoopAt visit children segs
    else []

/-- The recursion of `collect`, giving the pointers pushed to `result` as positions
below `node`. -/
def collectAtAux : Nat → ConfigNode → List String → Nat → List (List Nat)
  | fuel, node, params, offset =>
    if offset = params.length then [[]]
    else
      match fuel with
      | 0 => []
      | fuel + 1 =>
        segmentLoopAt
          (fun j child => (collectAtAux fuel child params (offset + 1)).map (fun p => j :: p))
          node.getChildren (params.drop offset)

/-- `Configuration::collect`, with the collected pointers as positions below `node`. -/
def collectAt (node : ConfigNode) (params : List String) (offset : Nat) : List (List Nat) :=
  collectAtAux (params.length - offset) node params offset

/-- The body of the loop of `set`: a leaf gets the value, any other node is left. -/
def setLeaf (value : BoostAny) (node : ConfigNode) : ConfigNode :=
  if node.getType = NodeType.Leaf then node.setValue value else node

namespace Configuration

/-- The template `Configuration::set<T>`; `value` is the `boost::any` that `setValue`
receives. -/
def set (c : Configuration) (value : BoostAny) (path : List String) : Configuration :=
  let params := consumeParams path
  let nodes := collectAt c.configRoot params 0
  { c with
    configRoot := nodes.foldl (fun root p => modifyAt p (setLeaf value) root) c.configRoot }

end Configuration

/-- The cursor after `currentNode = currentNode->getParent()`. -/
def cursorParent : Nat → Option Nat
  | 0 => none
  | d + 1 => some d

/-- A text without the characters `[` and `<` that start a tag. -/
def Tagless (text : List Char) : Prop :=
  ∀ c ∈ text, c ≠ '[' ∧ c ≠ '<'

/-- The state of `load` in which `[!a]` is met while the section `a` is open. -/
def closingExample : Scanner :=
  { line := ['[', '!', 'a', ']'], chrPos := 1,
    root := parsedSection "root" 0 [parsedSection "a" 1 []], currentNode := some 1,
    filename := "" }

/-! ## Inserting a node -/

/-- The node `node` with `c` put among its children, before the child of index `idx`
(at the end when there is no such child). -/
def insertChild (idx : Nat) (c : ConfigNode) (node : ConfigNode) : ConfigNode :=
  ConfigNode.mk node.getName node.getValue
    (node.getChildren.take idx ++ c :: node.getChildren.drop idx) node.getDepth node.getType

/-- The tree `root` with `c` inserted as a child of the node at the position `pos`. -/
def insertAt (pos : List Nat) (idx : Nat) (c : ConfigNode) (root : ConfigNode) : ConfigNode :=
  modifyAt pos (insertChild idx c) root

/-- The node `b` is the node `a` with `c` inserted somewhere below it, or `a` itself. -/
def Grown (c a b : ConfigNode) : Prop :=
  b = a ∨ ∃ pos idx, b = insertAt pos idx c a

/-- A comment as the parser leaves it. -/
def parsedComment (text : String) (depth : Nat) : ConfigNode :=
  ConfigNode.mk text BoostAny.empty [] depth NodeType.Comment

/-- A text whose comment has the text of the key that follows it. -/
def commentText : String := "# bla\nbla = 1\n"

/-- The tree of `commentText`. -/
def commentTree : ConfigNode :=
  parsedSection "root" 0 [parsedComment "bla" 1, parsedLeaf "bla" "1" 1]

/-- The tree of `commentText` without the comment. -/
def plainTree : ConfigNode :=
  parsedSection "root" 0 [parsedLeaf "bla" "1" 1]

/-- The tree of the text `[a]`, `x = 1`, `[!a]`. -/
def noteTree : ConfigNode :=
  parsedSection "root" 0 [parsedSection "a" 1 [parsedLeaf "x" "1" 2]]

/-! ## Matches of a path -/

/-- A chain from `node` along the segments: the position `i₀, i₁, …` names at each
level a child of the node reached so far, and that child has the name of the segment
of that level. -/
def isPathMatch : ConfigNode → List String → List Nat → Bool
  | _, [], [] => true
  | node, seg :: segs, i :: rest =>
    match node.getChildren[i]? with
    | none => false
    | some child => decide (child.getName = seg) && isPathMatch child segs rest
  | _, _, _ => false

/-- Child order on two positions of the same length: at the first level where they
part, the first one takes the earlier child. -/
def lexLt : List Nat → List Nat → Bool
  | i :: p, j :: q => decide (i < j) || (decide (i = j) && lexLt p q)
  | _, _ => false

/-- The element `p` occurs in `l` at a place before which `q` does not occur. -/
def Before (p q : List Nat) (l : List (List Nat)) : Prop :=
  ∃ l₁ l₂, l = l₁ ++ p :: l₂ ∧ q ∉ l₁

/-! ## Example for `set` -/

/-- A text with three sections `a`, each with a leaf `x`. -/
def threeLeafText : String := "[a]\nx = 1\n[!a]\n[a]\nx = 2\ny = 3\n[!a]\n[a]\nx = 4\n[!a]\n"

/-- The tree that `load` builds from `threeLeafText`. -/
def threeLeafTree : ConfigNode :=
  parsedSection "root" 0
    [parsedSection "a" 1 [parsedLeaf "x" "1" 2],
     parsedSection "a" 1 [parsedLeaf "x" "2" 2, parsedLeaf "y" "3" 2],
     parsedSection "a" 1 [parsedLeaf "x" "4" 2]]

/-- The tree `threeLeafTree` with the value `v` in the three leaves `x`. -/
def threeLeafTreeWith (v : BoostAny) : ConfigNode :=
  parsedSection "root" 0
    [parsedSection "a" 1 [ConfigNode.mk "x" v [] 2 NodeType.Leaf],
     parsedSection "a" 1 [ConfigNode.mk "x" v [] 2 NodeType.Leaf, parsedLeaf "y" "3" 2],
     parsedSection "a" 1 [ConfigNode.mk "x" v [] 2 NodeType.Leaf]]

/-! ## Rendering, as the specification words it -/

/-- The text of a leaf value: the string that the `boost::any` holds. -/
def valueText : BoostAny → List Char
  | BoostAny.str s => s.data
  | BoostAny.other repr => repr.data
  | BoostAny.empty => []

mutual
/-- The lines of `render`, following the words of the specification: the nodes are
visited depth-first in pre-order and child order, `depth` is the distance from the
root, every line starts with `4 * depth` spaces; a section writes `[name]`, its
children and `[!name]`, a leaf writes `name = value`, a comment writes `# text`. -/
def renderLines (depth : Nat) : ConfigNode → List (List Char)
  | ConfigNode.mk name value children _ type =>
    match type with
    | NodeType.Node =>
      (List.replicate (4 * depth) ' ' ++ ['['] ++ name.data ++ [']']) ::
        (renderChildren (depth + 1) children ++
          [List.replicate (4 * depth) ' ' ++ ['[', '!'] ++ name.data ++ [']']])
    | NodeType.Leaf =>
      [List.replicate (4 * depth) ' ' ++ name.data ++ [' ', '=', ' '] ++ valueText value]
    | NodeType.Comment =>
      [List.replicate (4 * depth) ' ' ++ ['#', ' '] ++ name.data]
/-- The lines of the children of a section, child after child. -/
def renderChildren (depth : Nat) : List ConfigNode → List (List Char)
  | [] => []
  | child :: children => renderLines depth child ++ renderChildren depth children
end

/-- The text `render(root)`: every line is ended by a newline. -/
def render (root : ConfigNode) : String :=
  String.mk ((renderLines 0 root).flatMap (fun line => line ++ ['\n']))

mutual
/-- A tree as `create` builds it below a node of depth `d - 1`: the depth counter of
every node is its distance from the root, a leaf holds a string, and leaves and
comments have no children. -/
def wellFormedFrom (d : Nat) : ConfigNode → Bool
  | ConfigNode.mk _ value children depth type =>
    decide (depth = d) &&
      (match type with
        | NodeType.Node => wellFormedChildren (d + 1) children
        | NodeType.Leaf =>
          (match value with
            | BoostAny.str _ => true
            | _ => false) && children.isEmpty
        | NodeType.Comment => children.isEmpty)
/-- The children of a node of depth `d - 1` are well-formed. -/
def wellFormedChildren (d : Nat) : List ConfigNode → Bool
  | [] => true
  | child :: children => wellFormedFrom d child && wellFormedChildren d children
end

mutual
/-- The number of nodes of kind `t` in a tree. -/
def countType (t : NodeType) : ConfigNode → Nat
  | ConfigNode.mk _ _ children _ type =>
    (if type = t then 1 else 0) + countTypeList t children
/-- The number of nodes of kind `t` in a list of trees. -/
def countTypeList (t : NodeType) : List ConfigNode → Nat
  | [] => 0
  | child :: children => countType t child + countTypeList t children
end

mutual
/-- No name and no leaf value of the tree holds a newline. -/
def plainText : ConfigNode → Bool
  | ConfigNode.mk name value children _ _ =>
    !name.data.contains '\n' && !(valueText value).contains '\n' && plainTextList children
/-- No name and no leaf value of the trees holds a newline. -/
def plainTextList : List ConfigNode → Bool
  | [] => true
  | child :: children => plainText child && plainTextList children
end

/-- The text `[a]`, `# note`, `x = 1`, `[!a]`. -/
def renderText : String := "[a]\n# note\nx = 1\n[!a]\n"

/-- The tree that `load` builds from `renderText`. -/
def renderTree : ConfigNode :=
  parsedSection "root" 0
    [parsedSection "a" 1 [parsedComment "note" 2, parsedLeaf "x" "1" 2]]

/-! ## Loading into a tree that holds nodes -/

/-- The node `r` with the nodes `pre` before its children. -/
def withEarlier (pre : List ConfigNode) (r : ConfigNode) : ConfigNode :=
  ConfigNode.mk r.getName r.getValue (pre ++ r.getChildren) r.getDepth r.getType

/-- The state of `load` when the root held the nodes `pre` before the call. -/
def Scanner.shift (pre : List ConfigNode) (s : Scanner) : Scanner :=
  { s with root := withEarlier pre s.root }

/-- The state of `load` when the call had the file name `f`. -/
def Scanner.rename (f : String) (s : Scanner) : Scanner :=
  { s with filename := f }

/-- A cursor below the root points into a child of the root. -/
def Scanner.Open (s : Scanner) : Prop :=
  ∀ d, s.currentNode = some (d + 1) → s.root.getChildren ≠ []

/-- The text `[a]`, `[!a]`. -/
def sectionText : String := "[a]\n[!a]\n"

/-- The tree that `load` builds from `sectionText`. -/
def sectionTree : ConfigNode :=
  parsedSection "root" 0 [parsedSection "a" 1 []]

/-- The tree after `sectionText` is loaded twice into one configuration. -/
def sectionTwiceTree : ConfigNode :=
  parsedSection "root" 0 [parsedSection "a" 1 [], parsedSection "a" 1 []]

/-- The nodes on the way from `r` to the cursor `d` are sections. -/
def sectionPath : Nat → ConfigNode → Prop
  | 0, r => r.getType = NodeType.Node
  | d + 1, r => r.getType = NodeType.Node ∧ ∀ c, r.getChildren.getLast? = some c → sectionPath d c

mutual
/-- The tree without its values: what is left are the names, kinds and depth counters
of the nodes and their order. -/
def eraseValues : ConfigNode → ConfigNode
  | ConfigNode.mk name _ children depth type =>
    ConfigNode.mk name BoostAny.empty (eraseValuesList children) depth type
/-- The trees without their values. -/
def eraseValuesList : List ConfigNode → List ConfigNode
  | [] => []
  | child :: children => eraseValues child :: eraseValuesList children
end

/-! ## Fuel of the scan loop -/

/-- A scan loop that finishes within `n` executions of the switch finishes with the
same state within any larger number. -/
theorem lineLoop_fuel_mono (linePos lineLen : Int) (n k : Nat) :
    ∀ (s r : Scanner), lineLoop linePos lineLen n s = Except.ok r →
      lineLoop linePos lineLen (n + k) s = Except.ok r := by
  induction n with
  | zero =>
    intro s r h
    unfold lineLoop at h ⊢
    by_cases hc : s.chrPos < lineLen - 1
    · rw [if_pos hc] at h ⊢
      cases hl : s.line with
      | nil => rw [hl] at h; simpa using h
      | cons c cs => rw [hl] at h; simp at h
    · rw [if_neg hc] at h ⊢
      exact h
  | succ n ih =>
    intro s r h
    rw [Nat.add_right_comm]
    unfold lineLoop at h ⊢
    by_cases hc : s.chrPos < lineLen - 1
    · rw [if_pos hc] at h ⊢
      cases hl : s.line with
      | nil => rw [hl] at h; simpa using h
      | cons c cs =>
        rw [hl] at h
        simp only at h ⊢
        cases hs : switchStep linePos c s with
        | error e => rw [hs] at h; simp at h
        | ok s' => rw [hs] at h; simp only at h ⊢; exact ih s' r h
    · rw [if_neg hc] at h ⊢
      exact h

/-- More fuel does not change the result of a successful pass over the lines. -/
theorem lineStream_fuel_mono (n k : Nat) (texts : List (List Char)) :
    ∀ (linePos : Int) (s : Scanner) (r : Int × Scanner),
      lineStream n texts linePos s = Except.ok r →
      lineStream (n + k) texts linePos s = Except.ok r := by
  induction texts with
  | nil => intro linePos s r h; simpa [lineStream] using h
  | cons text texts ih =>
    intro linePos s r h
    simp only [lineStream] at h ⊢
    cases hl : lineLoop (toInt (linePos + 1)) (toInt (trimLeft text).length) n
        { s with line := trimLeft text, chrPos := 1 } with
    | error e => rw [hl] at h; simp at h
    | ok s' =>
      rw [hl] at h
      rw [lineLoop_fuel_mono _ _ n k _ _ hl]
      simp only at h ⊢
      exact ih _ _ _ h

/-- More fuel does not change the result of a successful `load`. -/
theorem load_fuel_mono (n k : Nat) (c r : Configuration) (filename content : String)
    (h : Configuration.load n c filename content = Except.ok r) :
    Configuration.load (n + k) c filename content = Except.ok r := by
  unfold Configuration.load at h ⊢
  cases hs : lineStream n (splitChar '\n' content.data) 0
      { line := [], chrPos := 0, root := c.configRoot, currentNode := some 0,
        filename := filename } with
  | error e => rw [hs] at h; simp at h
  | ok p =>
    rw [hs] at h
    rw [lineStream_fuel_mono n k _ _ _ _ hs]
    exact h

/-! ## Messages of the exceptions -/

/-- The format check on a character that is not `%`. -/
theorem formatDefined_cons_ne (c : Char) (rest : List Char) (hc : c ≠ '%') :
    formatDefined (c :: rest) = formatDefined rest := by
  rw [formatDefined.eq_def]
  simp only [if_neg hc]

/-- The format check on a `%` at the end. -/
theorem formatDefined_percent_nil : formatDefined ['%'] = false := by
  decide

/-- The format check on a `%` in front of a character. -/
theorem formatDefined_percent_cons (c' : Char) (rest : List Char) :
    formatDefined ('%' :: c' :: rest) = if c' = '%' then formatDefined rest else false := by
  rw [formatDefined.eq_def]
  simp only [if_true]

/-- A format without `%` is defined. -/
theorem formatDefined_of_no_percent : ∀ (l : List Char), '%' ∉ l → formatDefined l = true := by
  intro l
  induction l with
  | nil => intro _; rfl
  | cons c l ih =>
    intro h
    have hc : c ≠ '%' := fun hc => h (by rw [hc]; exact List.mem_cons_self _ _)
    rw [formatDefined_cons_ne c l hc]
    exact ih (fun hm => h (List.mem_cons_of_mem _ hm))

/-- Text without `%` in front of a format does not change whether it is defined. -/
theorem formatDefined_append_left : ∀ (p x : List Char), '%' ∉ p →
    formatDefined (p ++ x) = formatDefined x := by
  intro p
  induction p with
  | nil => intro x _; rfl
  | cons c p ih =>
    intro x h
    have hc : c ≠ '%' := fun hc => h (by rw [hc]; exact List.mem_cons_self _ _)
    rw [List.cons_append, formatDefined_cons_ne _ _ hc]
    exact ih x (fun hm => h (List.mem_cons_of_mem _ hm))

/-- Text without `%` behind a format does not change whether it is defined: a `%` at
the end of the format stays without its second `%`. -/
theorem formatDefined_append_right (s : List Char) (hs : '%' ∉ s) :
    ∀ (n : Nat) (x : List Char), x.length ≤ n →
      formatDefined (x ++ s) = formatDefined x := by
  intro n
  induction n with
  | zero =>
    intro x hx
    have hnil : x = [] := List.length_eq_zero.mp (Nat.le_zero.mp hx)
    rw [hnil, List.nil_append, formatDefined_of_no_percent s hs]
    rfl
  | succ n ih =>
    intro x hx
    cases x with
    | nil =>
      rw [List.nil_append, formatDefined_of_no_percent s hs]
      rfl
    | cons c rest =>
      by_cases hc : c = '%'
      · subst hc
        cases rest with
        | nil =>
          cases s with
          | nil => rfl
          | cons c' s' =>
            have hc' : c' ≠ '%' := fun h => hs (by rw [h]; exact List.mem_cons_self _ _)
            rw [List.cons_append, List.nil_append, formatDefined_percent_cons, if_neg hc',
              formatDefined_percent_nil]
        | cons c' rest' =>
          rw [List.cons_append, List.cons_append, formatDefined_percent_cons,
            formatDefined_percent_cons]
          by_cases hc' : c' = '%'
          · rw [if_pos hc', if_pos hc']
            exact ih rest' (by simp only [List.length_cons] at hx; omega)
          · rw [if_neg hc', if_neg hc']
      · rw [List.cons_append, formatDefined_cons_ne _ _ hc, formatDefined_cons_ne _ _ hc]
        exact ih rest (by simp only [List.length_cons] at hx; omega)

/-- The C string of a text is a part of the text. -/
theorem mem_of_mem_cString (l : List Char) (c : Char) (h : c ∈ cString l) : c ∈ l :=
  (List.takeWhile_sublist _).subset h

/-- The C string of a text without NUL is the text. -/
theorem cString_of_no_nul : ∀ (x : List Char), Char.ofNat 0 ∉ x → cString x = x := by
  intro x
  induction x with
  | nil => intro _; rfl
  | cons c x ih =>
    intro h
    have hc : c ≠ Char.ofNat 0 := fun hc => h (by rw [hc]; exact List.mem_cons_self _ _)
    have := ih (fun hm => h (List.mem_cons_of_mem _ hm))
    unfold cString at this ⊢
    rw [List.takeWhile_cons, if_pos (by simpa using hc), this]

/-- The C string of a text behind a text without NUL. -/
theorem cString_append_left : ∀ (p x : List Char), Char.ofNat 0 ∉ p →
    cString (p ++ x) = p ++ cString x := by
  intro p
  induction p with
  | nil => intro x _; rfl
  | cons c p ih =>
    intro x h
    have hc : c ≠ Char.ofNat 0 := fun hc => h (by rw [hc]; exact List.mem_cons_self _ _)
    have := ih x (fun hm => h (List.mem_cons_of_mem _ hm))
    unfold cString at this ⊢
    rw [List.cons_append, List.takeWhile_cons, if_pos (by simpa using hc), this,
      List.cons_append]

/-- The C string of a text that holds a NUL does not reach what follows. -/
theorem cString_append_of_mem : ∀ (x s : List Char), Char.ofNat 0 ∈ x →
    cString (x ++ s) = cString x := by
  intro x
  induction x with
  | nil => intro s h; cases h
  | cons c x ih =>
    intro s h
    unfold cString
    rw [List.cons_append, List.takeWhile_cons, List.takeWhile_cons]
    by_cases hc : c = Char.ofNat 0
    · rw [if_neg (by simpa using hc), if_neg (by simpa using hc)]
    · rw [if_pos (by simpa using hc), if_pos (by simpa using hc)]
      have hx : Char.ofNat 0 ∈ x := by
        rcases List.mem_cons.mp h with h1 | h1
        · exact absurd h1.symm hc
        · exact h1
      have := ih s hx
      unfold cString at this
      rw [this]

/-- Whether a message is defined as a format, for a message made of a fixed text
without `%` and NUL, a variable text `x`, and a text without `%`: it is whether `x`
is. -/
theorem formatDefined_message (p x s : List Char) (hp : '%' ∉ p) (hp0 : Char.ofNat 0 ∉ p)
    (hs : '%' ∉ s) :
    formatDefined (cString (p ++ x ++ s)) = formatDefined (cString x) := by
  rw [List.append_assoc, cString_append_left p _ hp0, formatDefined_append_left p _ hp]
  by_cases hx : Char.ofNat 0 ∈ x
  · rw [cString_append_of_mem x s hx]
  · rw [cString_append_left x s hx, cString_of_no_nul x hx]
    exact formatDefined_append_right (cString s)
      (fun hm => hs (mem_of_mem_cString s _ hm)) x.length x (Nat.le_refl _)

/-- No decimal digit is `%`. -/
theorem digitChar_ne_percent (n : Nat) (hn : n < 10) : Nat.digitChar n ≠ '%' := by
  interval_cases n <;> decide

/-- The digits of a number hold no `%`. -/
theorem toDigitsCore_no_percent (fuel : Nat) :
    ∀ (n : Nat) (ds : List Char), '%' ∉ ds → '%' ∉ Nat.toDigitsCore 10 fuel n ds := by
  induction fuel with
  | zero => intro n ds h; exact h
  | succ fuel ih =>
    intro n ds h
    have hcons : '%' ∉ Nat.digitChar (n % 10) :: ds := by
      intro hm
      rcases List.mem_cons.mp hm with h1 | h1
      · exact digitChar_ne_percent _ (Nat.mod_lt _ (by decide)) h1.symm
      · exact h h1
    rw [Nat.toDigitsCore]
    split
    · exact hcons
    · exact ih _ _ hcons

/-- The decimal form of a natural number holds no `%`. -/
theorem nat_repr_no_percent (n : Nat) : '%' ∉ (Nat.repr n).data := by
  show '%' ∉ (Nat.toDigits 10 n).asString.data
  exact toDigitsCore_no_percent _ _ _ (List.not_mem_nil _)

/-- The decimal form of an integer holds no `%`. -/
theorem int_toString_no_percent (n : Int) : '%' ∉ (toString n).data := by
  cases n with
  | ofNat m => exact nat_repr_no_percent m
  | negSucc m =>
    show '%' ∉ ("-" ++ Nat.repr (Nat.succ m)).data
    rw [String.data_append]
    intro hm
    rcases List.mem_append.mp hm with h1 | h1
    · revert h1; decide
    · exact nat_repr_no_percent _ h1

/-- The text of a cause holds no `%`. -/
theorem causeText_no_percent (cause : ParseCause) : '%' ∉ causeText cause := by
  cases cause <;> decide

/-- A parse error is thrown as such when `vasprintf` is defined on the file name;
otherwise the construction of the exception is undefined. -/
theorem throwParseError_eq (filename : String) (cause : ParseCause) (linePos chrPos : Int) :
    throwParseError filename cause linePos chrPos
      = if formatDefined (cString filename.data) then LoadError.parseError cause linePos chrPos
        else LoadError.undefinedFormat := by
  have hmsg : parseErrorMessage filename cause linePos chrPos
      = "Parse error in ".data ++ filename.data
        ++ (", line ".data ++ (toString linePos).data ++ " character ".data
          ++ (toString chrPos).data ++ ": ".data ++ causeText cause) := by
    simp only [parseErrorMessage, List.append_assoc]
  unfold throwParseError
  rw [hmsg, formatDefined_message _ _ _ (by decide) (by decide)]
  intro hm
  simp only [List.mem_append] at hm
  rcases hm with (((h | h) | h) | h) | h
  · rcases h with h | h
    · revert h; decide
    · exact int_toString_no_percent _ h
  · revert h; decide
  · exact int_toString_no_percent _ h
  · revert h; decide
  · exact causeText_no_percent _ h

/-- A parse error on a file name on which `vasprintf` is defined. -/
theorem throwParseError_of_defined (filename : String) (cause : ParseCause)
    (linePos chrPos : Int) (h : formatDefined (cString filename.data) = true) :
    throwParseError filename cause linePos chrPos = LoadError.parseError cause linePos chrPos := by
  rw [throwParseError_eq, if_pos h]

/-- The not-found error is thrown as such when no segment and not the file name hold
a `%`. -/
theorem throwNotFound_of_no_percent (filename : String) (params : List String)
    (hf : '%' ∉ filename.data) (hp : ∀ p ∈ params, '%' ∉ p.data) :
    throwNotFound filename params = QueryError.notFound params := by
  have hmsg : '%' ∉ pathNotFound filename params := by
    unfold pathNotFound
    cases params with
    | nil =>
      simp only [List.mem_append, not_or]
      exact ⟨⟨by decide, hf⟩, by decide⟩
    | cons p ps =>
      simp only [List.mem_append, not_or, List.mem_flatMap, List.mem_cons, not_exists, not_and]
      refine ⟨⟨⟨⟨⟨by decide, hp p (List.mem_cons_self _ _)⟩, ?_⟩, by decide⟩, hf⟩, by decide⟩
      intro q hq
      exact ⟨by decide, hp q (List.mem_cons_of_mem _ hq)⟩
  unfold throwNotFound
  rw [if_pos (formatDefined_of_no_percent _ (fun hm => hmsg (mem_of_mem_cString _ _ hm)))]

/-! ## Path queries: traversal lemmas and the end-to-end example -/


/-- The loop over the children commutes with taking children of the results. -/
theorem visitNamed_flatMap (f g : ConfigNode → List ConfigNode)
    (h : ∀ c, g c = (f c).flatMap ConfigNode.getChildren) (seg : String)
    (cs : List ConfigNode) :
    visitNamed g seg cs = (visitNamed f seg cs).flatMap ConfigNode.getChildren := by
  induction cs with
  | nil => simp [visitNamed]
  | cons c cs ih =>
    by_cases hc : c.getName = seg
    · simp [visitNamed, hc, ih, h]
    · simp [visitNamed, hc, ih]

/-- The loop over the segments commutes with taking children of the results. -/
theorem segmentLoop_flatMap (f g : ConfigNode → List ConfigNode)
    (h : ∀ c, g c = (f c).flatMap ConfigNode.getChildren) (children : List ConfigNode)
    (segs : List String) :
    segmentLoop g children segs = (segmentLoop f children segs).flatMap ConfigNode.getChildren := by
  induction segs with
  | nil => simp [segmentLoop]
  | cons seg segs ih =>
    by_cases hf : foundNamed seg children = true
    · simp [segmentLoop, hf, ih, visitNamed_flatMap f g h]
    · simp [segmentLoop, hf]

/-- With the same fuel, `collectSectionsAux` gives the children of what `collectAux`
gives. -/
theorem collectSectionsAux_eq_flatMap (fuel : Nat) :
    ∀ (node : ConfigNode) (params : List String) (offset : Nat),
      collectSectionsAux fuel node params offset =
        (collectAux fuel node params offset).flatMap ConfigNode.getChildren := by
  induction fuel with
  | zero =>
    intro node params offset
    unfold collectSectionsAux collectAux
    by_cases ho : offset = params.length <;> simp [ho]
  | succ fuel ih =>
    intro node params offset
    unfold collectSectionsAux collectAux
    by_cases ho : offset = params.length
    · simp [ho]
    · simp only [ho, if_false]
      exact segmentLoop_flatMap _ _ (fun c => ih c params (offset + 1)) _ _

/-- The nodes of `collectSections` are the children of the nodes of `collect`, in order. -/
theorem collectSections_eq_flatMap (node : ConfigNode) (params : List String) (offset : Nat) :
    collectSections node params offset =
      (collect node params offset).flatMap ConfigNode.getChildren :=
  collectSectionsAux_eq_flatMap _ node params offset

/-- The loop over the children visits exactly the children named `seg`, in order. -/
theorem visitNamed_eq_flatMap_filter (visit : ConfigNode → List ConfigNode) (seg : String)
    (cs : List ConfigNode) :
    visitNamed visit seg cs =
      (cs.filter (fun c => decide (c.getName = seg))).flatMap visit := by
  induction cs with
  | nil => simp [visitNamed]
  | cons c cs ih =>
    by_cases hc : c.getName = seg
    · simp [visitNamed, hc, ih]
    · simp [visitNamed, hc, ih]

/-- Without a child named `seg` the loop over the children visits nothing. -/
theorem visitNamed_of_not_found (visit : ConfigNode → List ConfigNode) (seg : String)
    (cs : List ConfigNode) (h : foundNamed seg cs = false) :
    visitNamed visit seg cs = [] := by
  induction cs with
  | nil => simp [visitNamed]
  | cons c cs ih =>
    simp only [foundNamed, List.any_cons, Bool.or_eq_false_iff, decide_eq_false_iff_not] at h
    simp only [visitNamed, if_neg h.1]
    exact ih h.2

/-- On the last segment of a path (and past it) `collect` is the reference match. -/
theorem collect_eq_refMatch_of_last (node : ConfigNode) (params : List String) (offset : Nat)
    (h : params.length ≤ offset + 1) :
    collect node params offset = refMatch node params offset := by
  unfold collect refMatch
  by_cases h0 : offset = params.length
  · unfold collectAux refMatchAux
    simp [h0]
  · by_cases h1 : offset + 1 = params.length
    · have hf : params.length - offset = 1 := by omega
      have hlt : offset < params.length := by omega
      rw [hf]
      unfold collectAux refMatchAux
      simp only [h0, if_false]
      have hdrop : params.drop offset = [params[offset]] := by
        rw [List.drop_eq_getElem_cons hlt]
        have : params.drop (offset + 1) = [] := by
          apply List.drop_of_length_le; omega
        rw [this]
      rw [hdrop, List.getElem?_eq_getElem hlt]
      simp only [segmentLoop]
      by_cases hfound : foundNamed params[offset] node.getChildren = true
      · rw [if_pos hfound, List.append_nil, visitNamed_eq_flatMap_filter]
        unfold collectAux refMatchAux
        simp [h1]
      · rw [if_neg hfound]
        have hnil := visitNamed_of_not_found
          (fun c => refMatchAux 0 c params (offset + 1)) params[offset] node.getChildren
          (by simpa using hfound)
        rw [visitNamed_eq_flatMap_filter] at hnil
        rw [hnil]
    · have hf : params.length - offset = 0 := by omega
      rw [hf]
      unfold collectAux refMatchAux
      simp [h0]

/-- A successful execution of the switch does not depend on the file name. -/
theorem switchStep_rename (f : String) (linePos : Int) (c : Char) (s t : Scanner)
    (hstep : switchStep linePos c s = Except.ok t) :
    switchStep linePos c (s.rename f) = Except.ok (t.rename f) := by
  obtain ⟨line, chrPos, root, cur, fname⟩ := s
  unfold switchStep at hstep ⊢
  split at hstep
  · rename_i hc
    rw [if_pos hc]
    cases cur with
    | none => cases hstep
    | some d =>
      simp only [commentCase] at hstep
      rw [← Except.ok.inj hstep]
      rfl
  · rename_i hc
    rw [if_neg hc]
    split at hstep
    · rename_i hc2
      rw [if_pos hc2]
      simp only [tagCase, Scanner.rename] at hstep ⊢
      cases hfc : findCloser line with
      | none => rw [hfc] at hstep; cases hstep
      | some e =>
        rw [hfc] at hstep
        simp only [] at hstep ⊢
        split at hstep
        · cases hstep
        · rename_i h1
          rw [if_neg h1]
          split at hstep
          · cases hstep
          · rename_i h2
            rw [if_neg h2]
            split at hstep
            · rename_i h3
              rw [if_pos h3]
              cases cur with
              | none => cases hstep
              | some d =>
                simp only [] at hstep ⊢
                split at hstep
                · cases hstep
                · rename_i h4
                  rw [if_neg h4]
                  rw [← Except.ok.inj hstep]
            · rename_i h3
              rw [if_neg h3]
              cases cur with
              | none => cases hstep
              | some d =>
                simp only [] at hstep ⊢
                rw [← Except.ok.inj hstep]
    · rename_i hc2
      rw [if_neg hc2]
      simp only [defaultCase, Scanner.rename] at hstep ⊢
      split at hstep
      · rename_i h1
        rw [if_pos h1]
        cases cur with
        | none => cases hstep
        | some d =>
          simp only [] at hstep ⊢
          rw [← Except.ok.inj hstep]
      · rename_i h1
        rw [if_neg h1]
        rw [← Except.ok.inj hstep]

/-- A successful scan of a line does not depend on the file name. -/
theorem lineLoop_rename (f : String) (linePos lineLen : Int) (fuel : Nat) :
    ∀ (s t : Scanner), lineLoop linePos lineLen fuel s = Except.ok t →
      lineLoop linePos lineLen fuel (s.rename f) = Except.ok (t.rename f) := by
  induction fuel with
  | zero =>
    intro s t h
    have e1 : (s.rename f).chrPos = s.chrPos := rfl
    have e2 : (s.rename f).line = s.line := rfl
    rw [lineLoop] at h
    rw [lineLoop, e1, e2]
    by_cases hc : s.chrPos < lineLen - 1
    · rw [if_pos hc] at h ⊢
      cases hl : s.line with
      | nil =>
        rw [hl] at h
        have ht : s = t := Except.ok.inj h
        rw [← ht]
      | cons c cs =>
        rw [hl] at h
        cases h
    · rw [if_neg hc] at h ⊢
      have ht : s = t := Except.ok.inj h
      rw [← ht]
  | succ fuel ih =>
    intro s t h
    have e1 : (s.rename f).chrPos = s.chrPos := rfl
    have e2 : (s.rename f).line = s.line := rfl
    rw [lineLoop] at h
    rw [lineLoop, e1, e2]
    by_cases hc : s.chrPos < lineLen - 1
    · rw [if_pos hc] at h ⊢
      cases hl : s.line with
      | nil =>
        rw [hl] at h
        have ht : s = t := Except.ok.inj h
        rw [← ht]
      | cons c cs =>
        rw [hl] at h
        simp only [] at h ⊢
        cases hs : switchStep linePos c s with
        | error e => rw [hs] at h; cases h
        | ok s1 =>
          rw [hs] at h
          rw [switchStep_rename f linePos c s s1 hs]
          exact ih s1 t h
    · rw [if_neg hc] at h ⊢
      have ht : s = t := Except.ok.inj h
      rw [← ht]

/-- A successful pass over the lines does not depend on the file name. -/
theorem lineStream_rename (f : String) (fuel : Nat) (texts : List (List Char)) :
    ∀ (linePos : Int) (s : Scanner) (r : Int × Scanner),
      lineStream fuel texts linePos s = Except.ok r →
      lineStream fuel texts linePos (s.rename f) = Except.ok (r.1, r.2.rename f) := by
  induction texts with
  | nil =>
    intro linePos s r h
    rw [lineStream] at h ⊢
    have hr : (linePos, s) = r := Except.ok.inj h
    rw [← hr]
  | cons text texts ih =>
    intro linePos s r h
    cases hl : lineLoop (toInt (linePos + 1)) (toInt (trimLeft text).length) fuel
        { s with line := trimLeft text, chrPos := 1 } with
    | error e =>
      rw [lineStream] at h
      rw [hl] at h
      cases h
    | ok s1 =>
      rw [lineStream] at h
      rw [hl] at h
      have h1 := lineLoop_rename f (toInt (linePos + 1)) (toInt (trimLeft text).length) fuel
        _ s1 hl
      have h2 : lineLoop (toInt (linePos + 1)) (toInt (trimLeft text).length) fuel
          { s.rename f with line := trimLeft text, chrPos := 1 }
          = Except.ok (s1.rename f) := h1
      rw [lineStream]
      rw [h2]
      exact ih (toInt (linePos + 1)) s1 r h

/-- The file name given to `load` is only stored. -/
theorem load_ok_filename (n : Nat) (c r : Configuration) (f g content : String)
    (h : Configuration.load n c g content = Except.ok r) :
    Configuration.load n c f content = Except.ok { filename := f, configRoot := r.configRoot } := by
  unfold Configuration.load at h ⊢
  cases hs : lineStream n (splitChar '\n' content.data) 0
      { line := [], chrPos := 0, root := c.configRoot, currentNode := some 0,
        filename := g } with
  | error e => rw [hs] at h; cases h
  | ok p =>
    rw [hs] at h
    have h1 : lineStream n (splitChar '\n' content.data) 0
        { line := [], chrPos := 0, root := c.configRoot, currentNode := some 0,
          filename := f }
        = Except.ok (p.1, p.2.rename f) :=
      lineStream_rename f n _ 0 _ p hs
    rw [h1]
    obtain ⟨linePos, s⟩ := p
    simp only at h ⊢
    have hcur : (s.rename f).currentNode = s.currentNode := rfl
    rw [hcur]
    by_cases hc : s.currentNode ≠ some 0
    · rw [if_pos hc] at h; cases h
    · rw [if_neg hc] at h ⊢
      rw [← Except.ok.inj h]
      rfl

/-- The end-to-end text loads with one switch execution per line. -/
theorem load_endToEnd_one :
    Configuration.load 1 Configuration.new "" endToEndText = Except.ok (endToEndConfig "") := by
  decide!

/-- The end-to-end text loads to the end-to-end tree. -/
theorem load_endToEnd (extra : Nat) (filename : String) :
    Configuration.load (1 + extra) Configuration.new filename endToEndText
      = Except.ok (endToEndConfig filename) :=
  load_fuel_mono 1 extra _ _ _ _ (load_ok_filename 1 _ _ filename "" _ load_endToEnd_one)

/-- The result of `getAll` on a path that collects a node depends on the tree only. -/
theorem getAll_root {T : Type} (target : Configuration.Target T) (c c' : Configuration)
    (path : List String) (h : c.configRoot = c'.configRoot)
    (hne : collect c'.configRoot (consumeParams path) 0 ≠ []) :
    Configuration.getAll target c path = Configuration.getAll target c' path := by
  unfold Configuration.getAll
  rw [h]
  simp only []
  cases hcol : collect c'.configRoot (consumeParams path) 0 with
  | nil => exact absurd hcol hne
  | cons node nodes => rfl

/-- The result of `getSections` on a path that collects a node depends on the tree
only. -/
theorem getSections_root (c c' : Configuration) (path : List String)
    (h : c.configRoot = c'.configRoot)
    (hne : collectSections c'.configRoot (consumeParams path) 0 ≠ []) :
    Configuration.getSections c path = Configuration.getSections c' path := by
  unfold Configuration.getSections
  rw [h]
  have hlen : ¬ (collectSections c'.configRoot (consumeParams path) 0).length = 0 :=
    fun h0 => hne (List.length_eq_zero.mp h0)
  simp only [if_neg hlen]

/-- C1: loading the end-to-end text into a fresh `Configuration` succeeds, with any
fuel of at least one switch execution per line and any file name, and gives the
end-to-end tree; on it `getAll<bool>("ahoi", "bhoi.choi", "bla")` returns the four
values `true, false, true, true` in this order. -/
theorem endToEnd_getAll_bool (extra : Nat) (filename : String) :
    Configuration.load (1 + extra) Configuration.new filename endToEndText
        = Except.ok (endToEndConfig filename) ∧
    Configuration.getAll Configuration.boolTarget (endToEndConfig filename)
        ["ahoi", "bhoi.choi", "bla"] = Except.ok [true, false, true, true] := by
  refine ⟨load_endToEnd extra filename, ?_⟩
  rw [getAll_root _ (endToEndConfig filename) (endToEndConfig "") _ rfl (by decide)]
  decide


/-- C2, as stated, fails: the end-to-end text loads to the end-to-end tree, and on it
`getSections("ahoi", "bhoi")` does not return the two names `choi, choi`. -/
theorem endToEnd_getSections_not_two :
    Configuration.load 1 Configuration.new "test-configuration.conf" endToEndText
        = Except.ok (endToEndConfig "test-configuration.conf") ∧
    Configuration.getSections (endToEndConfig "test-configuration.conf") ["ahoi", "bhoi"]
        ≠ Except.ok ["choi", "choi"] := by
  refine ⟨load_endToEnd 0 _, ?_⟩
  decide

/-- C2, amended: on the tree loaded from the end-to-end text,
`getSections("ahoi", "bhoi")` returns four names, `choi` once for each of the two
children of each of the two sections `bhoi`. -/
theorem endToEnd_getSections_four (extra : Nat) (filename : String) :
    Configuration.load (1 + extra) Configuration.new filename endToEndText
        = Except.ok (endToEndConfig filename) ∧
    Configuration.getSections (endToEndConfig filename) ["ahoi", "bhoi"]
        = Except.ok ["choi", "choi", "choi", "choi"] := by
  refine ⟨load_endToEnd extra filename, ?_⟩
  rw [getSections_root (endToEndConfig filename) (endToEndConfig "") _ rfl (by decide)]
  decide

/-- The text `sameNameText` loads to `sameNameTree`. -/
theorem load_sameName_one :
    Configuration.load 1 Configuration.new "" sameNameText
      = Except.ok { filename := "", configRoot := sameNameTree } := by
  decide!

/-- The text `twinText` loads to `twinTree`. -/
theorem load_twin_one :
    Configuration.load 1 Configuration.new "" twinText
      = Except.ok { filename := "", configRoot := twinTree } := by
  decide!

/-- The text `skipText` loads to `skipTree`. -/
theorem load_skip_one :
    Configuration.load 1 Configuration.new "" skipText
      = Except.ok { filename := "", configRoot := skipTree } := by
  decide!

/-- C3, the code at two failing inputs.  With section `a` holding the single leaf `a`,
`collect` on the path `a.a` emits that leaf twice, the reference match once.  With
sections `a` and `x` side by side, `collect` on the path `a.x` also emits the leaf
under `x`, which is reached by the names `x`, `x` and not by `a`, `x`. -/
theorem collect_differs_from_refMatch :
    (Configuration.load 1 Configuration.new "" sameNameText
        = Except.ok { filename := "", configRoot := sameNameTree } ∧
      collect sameNameTree ["a", "a"] 0 = [parsedLeaf "a" "1" 2, parsedLeaf "a" "1" 2] ∧
      refMatch sameNameTree ["a", "a"] 0 = [parsedLeaf "a" "1" 2]) ∧
    (Configuration.load 1 Configuration.new "" skipText
        = Except.ok { filename := "", configRoot := skipTree } ∧
      collect skipTree ["a", "x"] 0 = [parsedLeaf "x" "1" 2, parsedLeaf "x" "2" 2] ∧
      refMatch skipTree ["a", "x"] 0 = [parsedLeaf "x" "1" 2]) := by
  refine ⟨⟨load_sameName_one, ?_, ?_⟩, ⟨load_skip_one, ?_, ?_⟩⟩ <;> decide

/-- Two sibling sections named `S` with one child named `K` each: when `S` and `K`
differ, `collect` on `[S, K]` gives the two children in sibling order. -/
theorem collect_twin_of_ne (S K : String) (hSK : S ≠ K) (root s1 s2 l1 l2 : ConfigNode)
    (hroot : root.getChildren = [s1, s2]) (hs1 : s1.getName = S) (hs2 : s2.getName = S)
    (hc1 : s1.getChildren = [l1]) (hc2 : s2.getChildren = [l2])
    (hl1 : l1.getName = K) (hl2 : l2.getName = K) :
    collect root [S, K] 0 = [l1, l2] := by
  simp [collect, collectAux, segmentLoop, visitNamed, foundNamed, hroot, hs1, hs2, hc1, hc2,
    hl1, hl2, hSK]

/-- C4, the code at the failing input `S = K = "a"`: with two sibling sections `a`,
each holding one leaf `a`, `collect` on `[a, a]` returns four nodes, the two leaves in
sibling order and then both once more. -/
theorem collect_twin_same_name :
    Configuration.load 1 Configuration.new "" twinText
        = Except.ok { filename := "", configRoot := twinTree } ∧
    collect twinTree ["a", "a"] 0 =
      [parsedLeaf "a" "1" 2, parsedLeaf "a" "2" 2, parsedLeaf "a" "1" 2, parsedLeaf "a" "2" 2] ∧
    (collect twinTree ["a", "a"] 0).length = 4 := by
  refine ⟨load_twin_one, ?_, ?_⟩ <;> decide

/-- With no node collected, `tryGetNames` returns an empty string and the default. -/
theorem tryGetNames_of_no_match (c : Configuration) (d : String) (path : List String)
    (h : collect c.configRoot (consumeParams path) 0 = []) :
    Configuration.tryGetNames c d path = ["", d] := by
  simp [Configuration.tryGetNames, h]

/-- With no node collected, `tryGetSections` returns an empty string and the default. -/
theorem tryGetSections_of_no_match (c : Configuration) (d : String) (path : List String)
    (h : collect c.configRoot (consumeParams path) 0 = []) :
    Configuration.tryGetSections c d path = ["", d] := by
  simp [Configuration.tryGetSections, h]

/-- C5, the code at the failing input: the path `missing.path` collects no node of
the end-to-end tree, and `tryGetNames` and `tryGetSections` with the default
`"default"` return the two-element list of the empty string and the default. -/
theorem tryGet_names_sections_default_two_elements :
    collect endToEndTree (consumeParams ["missing.path"]) 0 = [] ∧
    Configuration.tryGetNames (endToEndConfig "") "default" ["missing.path"]
      = ["", "default"] ∧
    Configuration.tryGetSections (endToEndConfig "") "default" ["missing.path"]
      = ["", "default"] ∧
    (Configuration.tryGetNames (endToEndConfig "") "default" ["missing.path"]).length = 2 := by
  refine ⟨by decide, ?_, ?_, ?_⟩
  · exact tryGetNames_of_no_match _ _ _ (by decide)
  · exact tryGetSections_of_no_match _ _ _ (by decide)
  · rw [tryGetNames_of_no_match _ _ _ (by decide)]; rfl


/-- No name is copied when no node has the wanted type. -/
theorem namesOfType_eq_nil (type : NodeType) (nodes : List ConfigNode)
    (h : ∀ n ∈ nodes, n.getType ≠ type) : Configuration.namesOfType type nodes = [] := by
  simp only [Configuration.namesOfType, List.map_eq_nil_iff, List.filter_eq_nil_iff]
  intro n hn
  simpa using h n hn

/-- C6, as stated, fails: on the end-to-end tree `getNames("ahoi", "bhoi", "choi")`
returns the empty list, while the leaf names among the results of `collectSections`
on that path are `bla` four times. -/
theorem endToEnd_getNames_not_children :
    Configuration.getNames (endToEndConfig "") ["ahoi", "bhoi", "choi"] = Except.ok [] ∧
    Configuration.namesOfType NodeType.Leaf
        (collectSections endToEndTree (consumeParams ["ahoi", "bhoi", "choi"]) 0)
      = ["bla", "bla", "bla", "bla"] ∧
    Configuration.getNames (endToEndConfig "") ["ahoi", "bhoi", "choi"] ≠
      Except.ok (Configuration.namesOfType NodeType.Leaf
        (collectSections endToEndTree (consumeParams ["ahoi", "bhoi", "choi"]) 0)) := by
  refine ⟨?_, ?_, ?_⟩ <;> decide

/-- C6, amended: when `collect` on the path gives a node, `getNames(path)` returns, in
collection order, the names of the `Leaf` nodes among the nodes that `collect` gives
(the matched nodes themselves, not their children); when it gives none and the
message of the exception is a format that `vasprintf` prints without arguments (no
`%` conversion in the path or the file name), it fails with the not-found error. -/
theorem getNames_eq_leaf_names_of_collect (c : Configuration) (path : List String) :
    (collect c.configRoot (consumeParams path) 0 ≠ [] →
      Configuration.getNames c path =
        Except.ok (((collect c.configRoot (consumeParams path) 0).filter
          (fun n => decide (n.getType = NodeType.Leaf))).map ConfigNode.getName)) ∧
    (collect c.configRoot (consumeParams path) 0 = [] →
      formatDefined (cString (pathNotFound c.filename (consumeParams path))) = true →
      Configuration.getNames c path
        = Except.error (QueryError.notFound (consumeParams path))) := by
  constructor
  · intro hne
    simp only [Configuration.getNames, Configuration.namesOfType, List.length_eq_zero,
      if_neg hne]
  · intro hnil hfmt
    simp only [Configuration.getNames, List.length_eq_zero, if_pos hnil, throwNotFound,
      if_pos hfmt]

/-- C6, amended, on the end-to-end tree: the path `ahoi.bhoi.choi.bla` gives the names
of the four leaves, the path `ahoi.bhoi.choi` gives no name, and the path `missing`
is not found. -/
theorem getNames_eq_leaf_names_of_collect_witness :
    collect (endToEndConfig "conf").configRoot (consumeParams ["ahoi.bhoi.choi.bla"]) 0 ≠ [] ∧
    Configuration.getNames (endToEndConfig "conf") ["ahoi.bhoi.choi.bla"] =
      Except.ok (((collect (endToEndConfig "conf").configRoot
        (consumeParams ["ahoi.bhoi.choi.bla"]) 0).filter
          (fun n => decide (n.getType = NodeType.Leaf))).map ConfigNode.getName) ∧
    Configuration.getNames (endToEndConfig "conf") ["ahoi.bhoi.choi.bla"]
      = Except.ok ["bla", "bla", "bla", "bla"] ∧
    Configuration.getNames (endToEndConfig "conf") ["ahoi.bhoi.choi"] = Except.ok [] ∧
    collect (endToEndConfig "conf").configRoot (consumeParams ["missing"]) 0 = [] ∧
    formatDefined (cString (pathNotFound (endToEndConfig "conf").filename
      (consumeParams ["missing"]))) = true ∧
    Configuration.getNames (endToEndConfig "conf") ["missing"]
      = Except.error (QueryError.notFound (consumeParams ["missing"])) :=
  ⟨by decide,
    (getNames_eq_leaf_names_of_collect (endToEndConfig "conf") ["ahoi.bhoi.choi.bla"]).1
      (by decide),
    by decide, by decide, by decide, by decide,
    (getNames_eq_leaf_names_of_collect (endToEndConfig "conf") ["missing"]).2
      (by decide) (by decide)⟩

/-- The text `strayLeafText` loads to `strayLeafTree`. -/
theorem load_strayLeaf_one :
    Configuration.load 1 Configuration.new "" strayLeafText
      = Except.ok { filename := "", configRoot := strayLeafTree } := by
  decide!

/-- The text `strayChildText` loads to `strayChildTree`. -/
theorem load_strayChild_one :
    Configuration.load 1 Configuration.new "" strayChildText
      = Except.ok { filename := "", configRoot := strayChildTree } := by
  decide!

/-- The text `noChainText` loads to `noChainTree`. -/
theorem load_noChain_one :
    Configuration.load 1 Configuration.new "" noChainText
      = Except.ok { filename := "", configRoot := noChainTree } := by
  decide!

/-- C7, the code at a failing input. In the tree of `strayLeafText` the path `a.x`
leads to one node, the empty section `x` below `a`, so every matched node is a
section; but the second pass of the `for i` loop of `collect` also pushes the leaf
`x` of the sibling section `x`, and `getNames("a.x")` returns its name instead of the
empty list. On the end-to-end tree `getNames("ahoi", "bhoi", "choi")` is empty, as
the test asserts. -/
theorem getNames_returns_stray_leaf :
    Configuration.load 1 Configuration.new "" strayLeafText
      = Except.ok { filename := "", configRoot := strayLeafTree } ∧
    refMatch strayLeafTree (consumeParams ["a.x"]) 0 = [parsedSection "x" 2 []] ∧
    (∀ n ∈ refMatch strayLeafTree (consumeParams ["a.x"]) 0, n.getType = NodeType.Node) ∧
    collect strayLeafTree (consumeParams ["a.x"]) 0
      = [parsedSection "x" 2 [], parsedLeaf "x" "2" 2] ∧
    Configuration.getNames { filename := "", configRoot := strayLeafTree } ["a.x"]
      = Except.ok ["x"] ∧
    Configuration.getNames { filename := "", configRoot := strayLeafTree } ["a.x"]
      ≠ Except.ok [] ∧
    Configuration.getNames (endToEndConfig "") ["ahoi", "bhoi", "choi"] = Except.ok [] := by
  refine ⟨load_strayLeaf_one, ?_, ?_, ?_, ?_, ?_, ?_⟩ <;> decide

/-- C8, the code at a failing input. In the tree of `strayChildText` the path `a.x`
leads to one node, a section without children, so the claim has `getSections("a.x")`
fail; but the second pass of the `for i` loop of `collectSections` pushes the leaf
below the sections `x`, `x`, the raw result is not empty, and `getSections` returns
the empty list. A section without children alone does make it fail, and a path with
a `%` conversion makes the construction of the exception undefined. -/
theorem getSections_stray_child_no_failure :
    Configuration.load 1 Configuration.new "" strayChildText
      = Except.ok { filename := "", configRoot := strayChildTree } ∧
    refMatch strayChildTree (consumeParams ["a.x"]) 0 = [parsedSection "x" 2 []] ∧
    (∀ n ∈ refMatch strayChildTree (consumeParams ["a.x"]) 0, n.getChildren = []) ∧
    collectSections strayChildTree (consumeParams ["a.x"]) 0 = [parsedLeaf "q" "1" 3] ∧
    Configuration.getSections { filename := "", configRoot := strayChildTree } ["a.x"]
      = Except.ok [] ∧
    Configuration.getSections emptySectionConfig ["a"]
      = Except.error (QueryError.notFound ["a"]) ∧
    Configuration.getSections emptySectionConfig ["%s"]
      = Except.error QueryError.undefinedFormat := by
  refine ⟨load_strayChild_one, ?_, ?_, ?_, ?_, ?_, ?_⟩ <;> decide

/-- C9, the code at a failing input. In the tree of `noChainText` no chain of children
named `a`, `x` exists (the section `a` is empty), so the path `a.x` matches no node
(the reference match is empty);
but the second pass of the `for i` loop of `collect` pushes the leaf `x` of the
sibling section `x`, and `get` and `getAll` return its value instead of failing. The
path of the test is not found on the end-to-end tree, and a path with a `%`
conversion makes the construction of the exception undefined. -/
theorem get_returns_stray_leaf :
    Configuration.load 1 Configuration.new "" noChainText
      = Except.ok { filename := "", configRoot := noChainTree } ∧
    refMatch noChainTree (consumeParams ["a.x"]) 0 = [] ∧
    Configuration.get Configuration.stringTarget
        { filename := "", configRoot := noChainTree } ["a.x"] = Except.ok "2" ∧
    Configuration.getAll Configuration.stringTarget
        { filename := "", configRoot := noChainTree } ["a.x"] = Except.ok ["2"] ∧
    Configuration.get Configuration.stringTarget (endToEndConfig "")
        ["bla", "blubb", "x", "y.z.h.j"]
      = Except.error (QueryError.notFound ["bla", "blubb", "x", "y", "z", "h", "j"]) ∧
    Configuration.get Configuration.stringTarget (endToEndConfig "") ["%s"]
      = Except.error QueryError.undefinedFormat ∧
    Configuration.getAll Configuration.stringTarget (endToEndConfig "") ["%s"]
      = Except.error QueryError.undefinedFormat := by
  refine ⟨load_noChain_one, ?_, ?_, ?_, ?_, ?_, ?_⟩ <;> decide

/-- C10, the code at the failing input: the path `ahoi` of the end-to-end tree matches
a section and no leaf, and `tryGet` and `tryGetAll` with the default `"d"` do not
return the default: they cast the value of the first collected node to a string
without looking at its kind, and the cast of the section's empty value fails. -/
theorem tryGet_section_path_not_default :
    (∀ n ∈ collect (endToEndConfig "").configRoot (consumeParams ["ahoi"]) 0,
      n.getType ≠ NodeType.Leaf) ∧
    Configuration.tryGet Configuration.stringTarget (endToEndConfig "") "d" ["ahoi"]
      = Except.error QueryError.badAnyCast ∧
    Configuration.tryGetAll Configuration.stringTarget (endToEndConfig "") "d" ["ahoi"]
      = Except.error QueryError.badAnyCast ∧
    Configuration.tryGet Configuration.stringTarget (endToEndConfig "") "d" ["ahoi"]
      ≠ Except.ok "d" ∧
    Configuration.tryGetAll Configuration.stringTarget (endToEndConfig "") "d" ["ahoi"]
      ≠ Except.ok ["d"] := by
  refine ⟨?_, ?_, ?_, ?_, ?_⟩ <;> decide

/-- With no node collected, `tryGet<T>(d, path)` returns `d` and `tryGetAll<T>(d, path)`
returns the one-element list of `d`. -/
theorem tryGet_default_of_nothing_collected (T : Type) (target : Configuration.Target T)
    (c : Configuration) (d : T) (path : List String)
    (h : collect c.configRoot (consumeParams path) 0 = []) :
    Configuration.tryGet target c d path = Except.ok d ∧
    Configuration.tryGetAll target c d path = Except.ok [d] := by
  simp only [Configuration.tryGet, Configuration.tryGetAll, h, and_self]

/-- What `tryGet` does when the first matched node holds no string. -/
theorem tryGet_badAnyCast_of_first_not_string (T : Type) (target : Configuration.Target T)
    (c : Configuration) (d : T) (path : List String) (node : ConfigNode)
    (nodes : List ConfigNode)
    (h : collect c.configRoot (consumeParams path) 0 = node :: nodes)
    (hv : ∀ s, node.getValue ≠ BoostAny.str s) :
    Configuration.tryGet target c d path = Except.error QueryError.badAnyCast ∧
    Configuration.tryGetAll target c d path = Except.error QueryError.badAnyCast := by
  have hc : Configuration.convertNode target node = Except.error QueryError.badAnyCast := by
    unfold Configuration.convertNode anyCastString
    cases hval : node.getValue with
    | empty => rfl
    | str s => exact absurd hval (hv s)
    | other r => rfl
  simp only [Configuration.tryGet, Configuration.tryGetAll, h, Configuration.convertAll, hc,
    and_self]

/-! ## Accessors with a default, conversion, and the round trip -/

/-- C11, the code at the failing input: on the end-to-end tree `getSections("ahoi",
"bhoi")` succeeds with the four names `choi`, while `tryGetSections` on the same path
returns the names `bhoi`, `bhoi` of the matched sections themselves. -/
theorem tryGetSections_differs_from_getSections :
    Configuration.getSections (endToEndConfig "") ["ahoi", "bhoi"]
      = Except.ok ["choi", "choi", "choi", "choi"] ∧
    Configuration.tryGetSections (endToEndConfig "") "d" ["ahoi", "bhoi"]
      = ["bhoi", "bhoi"] := by
  constructor <;> decide

/-- C12: `convert<bool>(v)` is `false` exactly when the lower-cased `v` is one of
`false`, `no`, `0`, it is `true` for every other string, and it never fails; `yes`,
`TRUE`, `1`, `garbage` and the empty string give `true`, and `false`, `No`, `0` give
`false`. -/
theorem convert_bool_denylist (v : String) :
    (Configuration.convert Configuration.boolTarget v = Except.ok false ↔
      (Configuration.toLower v = "false" ∨ Configuration.toLower v = "no" ∨
        Configuration.toLower v = "0")) ∧
    (Configuration.convert Configuration.boolTarget v = Except.ok true ↔
      ¬ (Configuration.toLower v = "false" ∨ Configuration.toLower v = "no" ∨
        Configuration.toLower v = "0")) ∧
    (∀ e, Configuration.convert Configuration.boolTarget v ≠ Except.error e) ∧
    (Configuration.convert Configuration.boolTarget "yes" = Except.ok true ∧
      Configuration.convert Configuration.boolTarget "TRUE" = Except.ok true ∧
      Configuration.convert Configuration.boolTarget "1" = Except.ok true ∧
      Configuration.convert Configuration.boolTarget "garbage" = Except.ok true ∧
      Configuration.convert Configuration.boolTarget "" = Except.ok true ∧
      Configuration.convert Configuration.boolTarget "false" = Except.ok false ∧
      Configuration.convert Configuration.boolTarget "No" = Except.ok false ∧
      Configuration.convert Configuration.boolTarget "0" = Except.ok false) := by
  refine ⟨?_, ?_, ?_, by decide⟩
  · by_cases h : "false" = Configuration.toLower v ∨ "no" = Configuration.toLower v ∨
        "0" = Configuration.toLower v
    · have h' : Configuration.toLower v = "false" ∨ Configuration.toLower v = "no" ∨
          Configuration.toLower v = "0" := by
        rcases h with h | h | h
        · exact Or.inl h.symm
        · exact Or.inr (Or.inl h.symm)
        · exact Or.inr (Or.inr h.symm)
      simp only [Configuration.convert, Configuration.boolTarget, if_true, if_pos h, h']
    · have h' : ¬ (Configuration.toLower v = "false" ∨ Configuration.toLower v = "no" ∨
          Configuration.toLower v = "0") := by
        intro h'
        apply h
        rcases h' with h' | h' | h'
        · exact Or.inl h'.symm
        · exact Or.inr (Or.inl h'.symm)
        · exact Or.inr (Or.inr h'.symm)
      simp only [Configuration.convert, Configuration.boolTarget, if_true, if_neg h, h',
        iff_false]
      intro hc
      cases hc
  · by_cases h : "false" = Configuration.toLower v ∨ "no" = Configuration.toLower v ∨
        "0" = Configuration.toLower v
    · have h' : Configuration.toLower v = "false" ∨ Configuration.toLower v = "no" ∨
          Configuration.toLower v = "0" := by
        rcases h with h | h | h
        · exact Or.inl h.symm
        · exact Or.inr (Or.inl h.symm)
        · exact Or.inr (Or.inr h.symm)
      simp only [Configuration.convert, Configuration.boolTarget, if_true, if_pos h, h',
        not_true, iff_false]
      intro hc
      cases hc
    · have h' : ¬ (Configuration.toLower v = "false" ∨ Configuration.toLower v = "no" ∨
          Configuration.toLower v = "0") := by
        intro h'
        apply h
        rcases h' with h' | h' | h'
        · exact Or.inl h'.symm
        · exact Or.inr (Or.inl h'.symm)
        · exact Or.inr (Or.inr h'.symm)
      simp only [Configuration.convert, Configuration.boolTarget, if_true, if_neg h, h',
        not_false_eq_true]
  · intro e
    simp only [Configuration.convert, Configuration.boolTarget, if_true]
    split <;> intro hc <;> cases hc

/-- C14, the code at two failing inputs.  The end-to-end text loads to the end-to-end
tree; `serialize` writes it inside `[root]` and `[!root]`; loading that text gives a
root whose only child is a section `root` holding the old content, which is not the
structure of the tree that was serialized.  The empty text behaves the same way. -/
theorem serialize_then_load_nests_root :
    (Configuration.load 1 Configuration.new "" endToEndText
        = Except.ok (endToEndConfig "") ∧
      Configuration.serialize (endToEndConfig "") = Except.ok endToEndSerialized ∧
      Configuration.load 1 Configuration.new "" endToEndSerialized
        = Except.ok { filename := "", configRoot := endToEndReloaded } ∧
      sameStructure endToEndTree endToEndReloaded = false) ∧
    (Configuration.load 1 Configuration.new "" "" = Except.ok Configuration.new ∧
      Configuration.serialize Configuration.new = Except.ok "[root]\n[!root]\n" ∧
      Configuration.load 1 Configuration.new "" "[root]\n[!root]\n"
        = Except.ok { filename := "", configRoot :=
            parsedSection "root" 0 [parsedSection "root" 1 []] } ∧
      sameStructure Configuration.new.configRoot
        (parsedSection "root" 0 [parsedSection "root" 1 []]) = false) := by
  refine ⟨⟨load_endToEnd_one, ?_, ?_, ?_⟩, ⟨?_, ?_, ?_, ?_⟩⟩ <;> decide!

/-- C18, the code at the failing input: the line `key=value` gives a leaf named `ke`
with the value `value`; with blanks around the `=` the name is `key`. -/
theorem load_key_value_drops_last_key_character :
    Configuration.load 1 Configuration.new "" "key=value"
      = Except.ok { filename := "", configRoot :=
          parsedSection "root" 0 [parsedLeaf "ke" "value" 1] } ∧
    Configuration.load 1 Configuration.new "" "key = value"
      = Except.ok { filename := "", configRoot :=
          parsedSection "root" 0 [parsedLeaf "key" "value" 1] } := by
  constructor <;> decide!

/-- C19, the code at the failing inputs: a `[` right after a quote character is copied
into the value, also when the number of quotes before it is even (two adjacent quotes,
or a closed quoted word), and no section is created; without quotes the `[` starts a
tag. -/
theorem load_bracket_after_quote_not_a_tag :
    Configuration.load 1 Configuration.new "" "k = \"\"[x]"
      = Except.ok { filename := "", configRoot :=
          parsedSection "root" 0 [parsedLeaf "k" "\"[x]" 1] } ∧
    Configuration.load 1 Configuration.new "" "k = \"v\"[x]"
      = Except.ok { filename := "", configRoot :=
          parsedSection "root" 0 [parsedLeaf "k" "v[x]" 1] } ∧
    Configuration.load 2 Configuration.new "" "k = v[x]\n[!x]"
      = Except.ok { filename := "", configRoot :=
          parsedSection "root" 0 [parsedLeaf "k" "v" 1, parsedSection "x" 1 []] } := by
  refine ⟨?_, ?_, ?_⟩ <;> decide!

/-! ## Closing tags -/

/-- Subtracting one from a positive `size_t` value does not wrap. -/
theorem sizeSub_one (n : Nat) (h : n < 18446744073709551616) (h0 : 0 < n) :
    sizeSub n 1 = n - 1 := by
  unfold sizeSub
  omega

/-- One execution of the switch on a closing tag `b m x cl` while a node is current:
the name `x` is compared with the name of the current node. -/
theorem switchStep_closing_tag (linePos : Int) (s : Scanner) (d : Nat) (b m cl : Char)
    (x tail : List Char)
    (hb : b = '[' ∨ b = '<') (hm : m = '!' ∨ m = '/')
    (hline : s.line = b :: m :: (x ++ cl :: tail))
    (hclose : findCloser s.line = some (x.length + 2))
    (hsize : x.length + 2 < 18446744073709551616)
    (hcur : s.currentNode = some d) :
    switchStep linePos b s =
      if String.mk x ≠ cursorName d s.root then
        Except.error
          (throwParseError s.filename ParseCause.closingTagMismatch linePos s.chrPos)
      else
        Except.ok
          { line := tail, chrPos := toInt (s.chrPos + ((x.length + 3 : Nat) : Int)),
            root := s.root, currentNode := cursorParent d, filename := s.filename } := by
  have hb1 : b ≠ '#' := by rcases hb with h | h <;> rw [h] <;> decide
  have hb2 : b = '<' ∨ b = '[' := hb.symm
  have hlen : ¬ s.line.length < 2 := by
    rw [hline]; simp
  have hsub : sizeSub (x.length + 2) 1 = x.length + 1 := by
    rw [sizeSub_one _ hsize (by omega)]; rfl
  have hname : (s.line.drop 1).take (x.length + 1) = m :: x := by
    rw [hline]; simp
  have hrest : s.line.drop (x.length + 2 + 1) = tail := by
    rw [hline]; simp
  have hhead : (m :: x).head? = some '/' ∨ (m :: x).head? = some '!' := by
    rcases hm with h | h <;> simp [h]
  unfold switchStep
  rw [if_neg hb1, if_pos hb2]
  unfold tagCase
  rw [hclose]
  simp only [if_neg hlen, hsub, Nat.succ_ne_zero, if_false, hname, hrest, if_pos hhead, hcur,
    List.drop_succ_cons, List.drop_zero]
  cases d <;> rfl

/-- The scan loop that meets a closing tag `b m x cl` while a node is current: it
throws when the name `x` is not the name of the current node and goes on from the
parent when it is. -/
theorem lineLoop_closing_tag (linePos : Int) (s : Scanner) (d : Nat) (b m cl : Char)
    (x tail : List Char)
    (hb : b = '[' ∨ b = '<') (hm : m = '!' ∨ m = '/')
    (hline : s.line = b :: m :: (x ++ cl :: tail))
    (hclose : findCloser s.line = some (x.length + 2))
    (hsize : x.length + 2 < 18446744073709551616)
    (hcur : s.currentNode = some d) (lineLen : Int) (fuel : Nat)
    (hcond : s.chrPos < lineLen - 1) :
    lineLoop linePos lineLen (fuel + 1) s =
      if String.mk x ≠ cursorName d s.root then
        Except.error
          (throwParseError s.filename ParseCause.closingTagMismatch linePos s.chrPos)
      else
        lineLoop linePos lineLen fuel
          { line := tail, chrPos := toInt (s.chrPos + ((x.length + 3 : Nat) : Int)),
            root := s.root, currentNode := cursorParent d, filename := s.filename } := by
  have hstep := switchStep_closing_tag linePos s d b m cl x tail hb hm hline hclose hsize hcur
  rw [lineLoop, if_pos hcond, hline]
  simp only []
  rw [hstep]
  by_cases h : String.mk x = cursorName d s.root
  · simp [h]
  · simp [h]

/-- C16: for a closing tag processed while a node named `n` is current (`d` steps
below the root), written as an opener `[` or `<`, the marker `!` or `/`, the text `x`
and the closer, in a `load` whose file name is a format that `vasprintf` prints
without arguments (no `%` conversion): the switch fails with the closing-tag-mismatch
error if and only if `x` is not exactly `n`; when `x` is `n` it raises no error,
leaves the tree as it is and moves the cursor to the parent; and the scan loop that
meets the tag fails with that error in the first case and goes on from the parent in
the second. -/
theorem closing_tag_mismatch_iff (linePos : Int) (s : Scanner) (d : Nat) (b m cl : Char)
    (x tail : List Char)
    (hb : b = '[' ∨ b = '<') (hm : m = '!' ∨ m = '/')
    (hline : s.line = b :: m :: (x ++ cl :: tail))
    (hclose : findCloser s.line = some (x.length + 2))
    (hsize : x.length + 2 < 18446744073709551616)
    (hcur : s.currentNode = some d)
    (hfmt : formatDefined (cString s.filename.data) = true) :
    (switchStep linePos b s
        = Except.error (LoadError.parseError ParseCause.closingTagMismatch linePos s.chrPos) ↔
      String.mk x ≠ cursorName d s.root) ∧
    (String.mk x = cursorName d s.root →
      switchStep linePos b s = Except.ok
        { line := tail, chrPos := toInt (s.chrPos + ((x.length + 3 : Nat) : Int)),
          root := s.root, currentNode := cursorParent d, filename := s.filename }) ∧
    (∀ (lineLen : Int) (fuel : Nat), s.chrPos < lineLen - 1 →
      lineLoop linePos lineLen (fuel + 1) s =
        if String.mk x ≠ cursorName d s.root then
          Except.error (LoadError.parseError ParseCause.closingTagMismatch linePos s.chrPos)
        else
          lineLoop linePos lineLen fuel
            { line := tail, chrPos := toInt (s.chrPos + ((x.length + 3 : Nat) : Int)),
              root := s.root, currentNode := cursorParent d, filename := s.filename }) := by
  have hstep := switchStep_closing_tag linePos s d b m cl x tail hb hm hline hclose hsize hcur
  have hthrow := throwParseError_of_defined s.filename ParseCause.closingTagMismatch linePos
    s.chrPos hfmt
  refine ⟨?_, ?_, ?_⟩
  · rw [hstep, hthrow]
    by_cases h : String.mk x = cursorName d s.root
    · simp [h]
    · simp [h]
  · intro h
    rw [hstep]
    simp [h]
  · intro lineLen fuel hcond
    rw [lineLoop_closing_tag linePos s d b m cl x tail hb hm hline hclose hsize hcur lineLen
      fuel hcond, hthrow]

/-- C16 at the tag `[!a]` met while the section `a` is open: no error, the tree is
unchanged and the cursor is back at the root. -/
theorem closing_tag_mismatch_iff_witness :
    formatDefined (cString closingExample.filename.data) = true ∧
    switchStep 2 '[' closingExample = Except.ok
      { line := [], chrPos := toInt (1 + 4), root := closingExample.root,
        currentNode := some 0, filename := closingExample.filename } :=
  ⟨by decide,
    (closing_tag_mismatch_iff 2 closingExample 1 '[' '!' ']' ['a'] [] (by decide) (by decide)
      (by decide) (by decide) (by decide) (by decide) (by decide)).2.1 (by decide)⟩

/-- Closing tags in whole texts: a different name, a name with a blank in front and a
prefix of the name are mismatches; the exact name closes the section. -/
theorem load_closing_tag_examples :
    Configuration.load 1 Configuration.new "" "[ab]\n[!cd]"
      = Except.error (LoadError.parseError ParseCause.closingTagMismatch 2 1) ∧
    Configuration.load 1 Configuration.new "" "[ab]\n[! ab]"
      = Except.error (LoadError.parseError ParseCause.closingTagMismatch 2 1) ∧
    Configuration.load 1 Configuration.new "" "[ab]\n[!a]"
      = Except.error (LoadError.parseError ParseCause.closingTagMismatch 2 1) ∧
    Configuration.load 1 Configuration.new "" "[ab]\n[/ab]"
      = Except.ok { filename := "", configRoot :=
          parsedSection "root" 0 [parsedSection "ab" 1 []] } ∧
    Configuration.load 1 Configuration.new "" "<ab>\n<!ab>"
      = Except.ok { filename := "", configRoot :=
          parsedSection "root" 0 [parsedSection "ab" 1 []] } := by
  refine ⟨?_, ?_, ?_, ?_, ?_⟩ <;> decide!

/-! ## Unclosed sections -/


/-- The column counter after a comment that fills the line. -/
theorem toInt_one_add_sizeSub (len : Nat) (h : 0 < len) :
    toInt (1 + ((sizeSub len 1 : Nat) : Int)) = toInt (len : Int) := by
  unfold toInt sizeSub
  omega

/-- A length below `2 ^ 31` fits an `int`. -/
theorem toInt_of_small (n : Nat) (h : n < 2147483648) : toInt (n : Int) = (n : Int) := by
  unfold toInt
  omega

/-- A length minus one, as `size_t`, is at most the length. -/
theorem sizeSub_one_le (len : Nat) (h : 0 < len) : sizeSub len 1 ≤ len := by
  unfold sizeSub
  omega

/-- On a text without tag openers the scan of a leaf runs to the end of the line. -/
theorem scanLeaf_tagless (n : Nat) :
    ∀ (inString : Bool) (text : List Char) (curPos : Nat) (ss : List Char),
      text.length ≤ n → Tagless text →
      (scanLeaf inString text curPos ss).2 = curPos + text.length := by
  induction n with
  | zero =>
    intro inString text curPos ss hlen _
    have : text = [] := List.length_eq_zero.mp (Nat.le_zero.mp hlen)
    subst this
    simp [scanLeaf]
  | succ n ih =>
    intro inString text curPos ss hlen htag
    cases text with
    | nil => simp [scanLeaf]
    | cons c rest =>
      have hc := htag c (List.mem_cons_self _ _)
      have hrest : Tagless rest := fun x hx => htag x (List.mem_cons_of_mem _ hx)
      have hnot : (!inString && (decide (c = '[') || decide (c = '<'))) = false := by
        simp [hc.1, hc.2]
      unfold scanLeaf
      simp only [hnot, Bool.false_eq_true, if_false]
      by_cases hq : c = '"'
      · simp only [hq, if_true]
        cases rest with
        | nil => simp
        | cons c' rest' =>
          simp only
          have hrest' : Tagless rest' := fun x hx => hrest x (List.mem_cons_of_mem _ hx)
          rw [ih _ rest' _ _ (by simp at hlen ⊢; omega) hrest']
          simp
          omega
      · simp only [hq, if_false]
        rw [ih _ rest _ _ (by simp at hlen ⊢; omega) hrest]
        simp
        omega


/-- A trimmed line does not start with white space. -/
theorem trimLeft_head (text : List Char) (c : Char) (cs : List Char)
    (h : trimLeft text = c :: cs) : isSpace c = false := by
  induction text with
  | nil => simp [trimLeft] at h
  | cons a rest ih =>
    unfold trimLeft at h
    by_cases ha : isSpace a = true
    · rw [if_pos ha] at h
      exact ih h
    · rw [if_neg ha] at h
      simp only [List.cons.injEq] at h
      rw [← h.1]
      simpa using ha

/-- Trimming only removes characters. -/
theorem trimLeft_mem (text : List Char) : ∀ c ∈ trimLeft text, c ∈ text := by
  induction text with
  | nil => intro c hc; simp [trimLeft] at hc
  | cons a rest ih =>
    intro c hc
    unfold trimLeft at hc
    by_cases ha : isSpace a = true
    · rw [if_pos ha] at hc
      exact List.mem_cons_of_mem _ (ih c hc)
    · rw [if_neg ha] at hc
      exact hc

/-- A character that is not white space is neither a blank nor a tab. -/
theorem not_space_tab (c : Char) (h : isSpace c = false) : c ≠ ' ' ∧ c ≠ '\t' := by
  unfold isSpace at h
  simp only [Bool.or_eq_false_iff, decide_eq_false_iff_not] at h
  exact ⟨h.1.1.1.1.1, h.1.1.1.1.2⟩

/-- A line without tag openers is scanned with at most one execution of the switch,
and leaves the cursor where it was. -/
theorem lineLoop_tagless (linePos : Int) (fuel : Nat) (s : Scanner) (text : List Char)
    (d : Nat) (htag : Tagless text) (hcur : s.currentNode = some d) :
    ∃ s', lineLoop linePos (toInt (trimLeft text).length) (fuel + 1)
        { s with line := trimLeft text, chrPos := 1 } = Except.ok s' ∧
      s'.currentNode = some d := by
  cases hline : trimLeft text with
  | nil =>
    unfold lineLoop
    by_cases hc : (1 : Int) < toInt (([] : List Char).length : Nat) - 1
    · exact ⟨{ s with line := [], chrPos := 1 }, by simp only [if_pos hc], hcur⟩
    · exact ⟨{ s with line := [], chrPos := 1 }, by simp only [if_neg hc], hcur⟩
  | cons c cs =>
    have hsp := not_space_tab c (trimLeft_head text c cs hline)
    have hct : c ≠ '[' ∧ c ≠ '<' :=
      htag c (trimLeft_mem text c (by rw [hline]; exact List.mem_cons_self _ _))
    have htl : Tagless (c :: cs) := fun x hx => htag x (trimLeft_mem text x (by rw [hline]; exact hx))
    unfold lineLoop
    by_cases hc : (1 : Int) < toInt ((c :: cs).length : Nat) - 1
    · simp only [if_pos hc]
      unfold switchStep
      by_cases hhash : c = '#'
      · rw [if_pos hhash]
        unfold commentCase
        simp only [hcur]
        unfold lineLoop
        have hpos : toInt (1 + ((sizeSub (c :: cs).length 1 : Nat) : Int))
            = toInt ((c :: cs).length : Nat) := toInt_one_add_sizeSub _ (by simp)
        simp only [hpos]
        have hneg : ¬ toInt ((c :: cs).length : Nat) < toInt ((c :: cs).length : Nat) - 1 := by
          omega
        simp only [if_neg hneg]
        exact ⟨_, rfl, rfl⟩
      · rw [if_neg hhash]
        have hnt : ¬ (c = '<' ∨ c = '[') := by
          intro h; rcases h with h | h
          · exact hct.2 h
          · exact hct.1 h
        rw [if_neg hnt]
        unfold defaultCase
        have hscan := scanLeaf_tagless (c :: cs).length false (c :: cs) 0 [] (Nat.le_refl _) htl
        simp only [if_pos hsp, hcur, hscan, Nat.zero_add]
        have hge : (c :: cs).length ≥ sizeSub (c :: cs).length 1 :=
          sizeSub_one_le _ (by simp)
        simp only [if_pos hge]
        unfold lineLoop
        split
        · exact ⟨_, rfl, rfl⟩
        · exact ⟨_, rfl, rfl⟩
    · simp only [if_neg hc]
      exact ⟨_, rfl, hcur⟩

/-- Lines without tag openers are scanned to the end of the stream and leave the cursor
where it was. -/
theorem lineStream_tagless (fuel : Nat) (texts : List (List Char)) :
    ∀ (linePos : Int) (s : Scanner) (d : Nat),
      (∀ text ∈ texts, Tagless text) → s.currentNode = some d →
      ∃ r, lineStream (fuel + 1) texts linePos s = Except.ok r ∧
        r.2.currentNode = some d := by
  induction texts with
  | nil =>
    intro linePos s d _ hcur
    refine ⟨(linePos, s), ?_, hcur⟩
    simp only [lineStream]
  | cons text texts ih =>
    intro linePos s d htag hcur
    obtain ⟨s', hs', hcur'⟩ := lineLoop_tagless (toInt (linePos + 1)) fuel s text d
      (htag text (List.mem_cons_self _ _)) hcur
    obtain ⟨r, hr, hrc⟩ := ih (toInt (linePos + 1)) s' d
      (fun t ht => htag t (List.mem_cons_of_mem _ ht)) hcur'
    refine ⟨r, ?_, hrc⟩
    rw [lineStream]
    rw [hs']
    simp only []
    rw [hr]


/-- The pieces of a text consist of characters of the text. -/
theorem splitChar_mem (sep : Char) (text : List Char) :
    ∀ piece ∈ splitChar sep text, ∀ c ∈ piece, c ∈ text := by
  induction text with
  | nil =>
    intro piece hp c hc
    simp only [splitChar, List.mem_singleton] at hp
    rw [hp] at hc
    exact hc
  | cons a rest ih =>
    intro piece hp c hc
    unfold splitChar at hp
    by_cases ha : a = sep
    · rw [if_pos ha] at hp
      rcases List.mem_cons.mp hp with h | h
      · rw [h] at hc; simp at hc
      · exact List.mem_cons_of_mem _ (ih piece h c hc)
    · rw [if_neg ha] at hp
      cases hsplit : splitChar sep rest with
      | nil =>
        rw [hsplit] at hp
        simp only [List.mem_singleton] at hp
        rw [hp] at hc
        simp only [List.mem_singleton] at hc
        rw [hc]
        exact List.mem_cons_self _ _
      | cons first pieces =>
        rw [hsplit] at hp
        rcases List.mem_cons.mp hp with h | h
        · rw [h] at hc
          rcases List.mem_cons.mp hc with h' | h'
          · rw [h']; exact List.mem_cons_self _ _
          · exact List.mem_cons_of_mem _ (ih first (by rw [hsplit]; exact List.mem_cons_self _ _) c h')
        · exact List.mem_cons_of_mem _
            (ih piece (by rw [hsplit]; exact List.mem_cons_of_mem _ h) c hc)

/-- A text without separator is one piece. -/
theorem splitChar_of_not_mem (sep : Char) (a : List Char) (h : sep ∉ a) :
    splitChar sep a = [a] := by
  induction a with
  | nil => rfl
  | cons x rest ih =>
    have hx : x ≠ sep := fun e => h (by rw [e]; exact List.mem_cons_self _ _)
    have hrest : sep ∉ rest := fun e => h (List.mem_cons_of_mem _ e)
    unfold splitChar
    rw [if_neg hx, ih hrest]

/-- The first piece of a text ends at the first separator. -/
theorem splitChar_append_sep (sep : Char) (a rest : List Char) (h : sep ∉ a) :
    splitChar sep (a ++ sep :: rest) = a :: splitChar sep rest := by
  induction a with
  | nil => simp [splitChar]
  | cons x as ih =>
    have hx : x ≠ sep := fun e => h (by rw [e]; exact List.mem_cons_self _ _)
    have hrest : sep ∉ as := fun e => h (List.mem_cons_of_mem _ e)
    rw [List.cons_append, splitChar, if_neg hx, ih hrest]

/-- The position found by `find` is that of the first occurrence. -/
theorem find_append_of_not_mem (ch : Char) (a rest : List Char) (h : ch ∉ a) :
    find ch (a ++ ch :: rest) = some a.length := by
  induction a with
  | nil => simp [find]
  | cons x as ih =>
    have hx : x ≠ ch := fun e => h (by rw [e]; exact List.mem_cons_self _ _)
    have hrest : ch ∉ as := fun e => h (List.mem_cons_of_mem _ e)
    rw [List.cons_append]
    unfold find
    rw [if_neg hx, ih hrest]
    rfl

/-! ## Fuel of the scan loop: errors -/

/-- A scan loop that ends within `n` executions of the switch, with a state or with an
error of the parser, ends the same way with more fuel. -/
theorem lineLoop_fuel_mono_settled (linePos lineLen : Int) (n k : Nat) :
    ∀ (s : Scanner) (r : Except LoadError Scanner),
      lineLoop linePos lineLen n s = r → r ≠ Except.error LoadError.outOfFuel →
      lineLoop linePos lineLen (n + k) s = r := by
  induction n with
  | zero =>
    intro s r h hr
    rw [lineLoop] at h
    rw [lineLoop]
    by_cases hc : s.chrPos < lineLen - 1
    · rw [if_pos hc] at h ⊢
      cases hl : s.line with
      | nil => rw [hl] at h; simpa using h
      | cons c cs =>
        rw [hl] at h
        simp only [] at h
        exact absurd h.symm hr
    · rw [if_neg hc] at h ⊢
      exact h
  | succ n ih =>
    intro s r h hr
    rw [Nat.add_right_comm]
    rw [lineLoop] at h
    rw [lineLoop]
    by_cases hc : s.chrPos < lineLen - 1
    · rw [if_pos hc] at h ⊢
      cases hl : s.line with
      | nil => rw [hl] at h; simpa using h
      | cons c cs =>
        rw [hl] at h
        simp only [] at h ⊢
        cases hs : switchStep linePos c s with
        | error e => rw [hs] at h; simp only [] at h ⊢; exact h
        | ok s' => rw [hs] at h; simp only [] at h ⊢; exact ih s' r h hr
    · rw [if_neg hc] at h ⊢
      exact h

/-- More fuel does not change a pass over the lines that did not run out of fuel. -/
theorem lineStream_fuel_mono_settled (n k : Nat) (texts : List (List Char)) :
    ∀ (linePos : Int) (s : Scanner) (r : Except LoadError (Int × Scanner)),
      lineStream n texts linePos s = r → r ≠ Except.error LoadError.outOfFuel →
      lineStream (n + k) texts linePos s = r := by
  induction texts with
  | nil =>
    intro linePos s r h _
    rw [lineStream] at h
    rw [lineStream]
    exact h
  | cons text texts ih =>
    intro linePos s r h hr
    rw [lineStream] at h
    rw [lineStream]
    cases hl : lineLoop (toInt (linePos + 1)) (toInt (trimLeft text).length) n
        { s with line := trimLeft text, chrPos := 1 } with
    | error e =>
      rw [hl] at h
      simp only [] at h
      have he : e ≠ LoadError.outOfFuel := by
        intro he
        apply hr
        rw [← h, he]
      rw [lineLoop_fuel_mono_settled _ _ n k _ _ hl (by
        intro hc
        apply he
        injection hc)]
      simp only []
      exact h
    | ok s' =>
      rw [hl] at h
      rw [lineLoop_fuel_mono_settled _ _ n k _ _ hl (by intro hc; cases hc)]
      simp only [] at h ⊢
      exact ih _ _ _ h hr

/-- More fuel does not change a `load` that did not run out of fuel. -/
theorem load_fuel_mono_settled (n k : Nat) (c : Configuration) (filename content : String)
    (r : Except LoadError Configuration)
    (h : Configuration.load n c filename content = r)
    (hr : r ≠ Except.error LoadError.outOfFuel) :
    Configuration.load (n + k) c filename content = r := by
  unfold Configuration.load at h ⊢
  cases hs : lineStream n (splitChar '\n' content.data) 0
      { line := [], chrPos := 0, root := c.configRoot, currentNode := some 0,
        filename := filename } with
  | error e =>
    rw [hs] at h
    simp only [] at h
    have he : e ≠ LoadError.outOfFuel := by
      intro he
      apply hr
      rw [← h, he]
    rw [lineStream_fuel_mono_settled n k _ _ _ _ hs (by
      intro hc
      apply he
      injection hc)]
    simp only []
    exact h
  | ok p =>
    rw [hs] at h
    rw [lineStream_fuel_mono_settled n k _ _ _ _ hs (by intro hc; cases hc)]
    exact h

/-- A line that holds only the opening tag `[n]` opens the section `n` below the
current node and moves the cursor into it. -/
theorem lineLoop_open_tag (linePos : Int) (fuel : Nat) (s : Scanner) (n : List Char) (d : Nat)
    (hne : n ≠ []) (hslash : n.head? ≠ some '/') (hbang : n.head? ≠ some '!')
    (hclose : ']' ∉ n) (hlen : n.length + 2 < 2147483648)
    (hcur : s.currentNode = some d) :
    lineLoop linePos (toInt (('[' :: (n ++ [']'])).length : Nat)) (fuel + 1)
        { s with line := '[' :: (n ++ [']']), chrPos := 1 } =
      Except.ok
        { line := [], chrPos := toInt (1 + ((n.length + 1 + 1 : Nat) : Int)),
          root := atCursor d (fun p => p.create (String.mk n)) s.root,
          currentNode := some (d + 1), filename := s.filename } := by
  have hpos : 0 < n.length := List.length_pos.mpr hne
  have hl : ('[' :: (n ++ [']'])).length = n.length + 2 := by simp
  have hcond : (1 : Int) < toInt (('[' :: (n ++ [']'])).length : Nat) - 1 := by
    rw [hl, toInt_of_small _ hlen]
    omega
  have hfind : findCloser ('[' :: (n ++ [']'])) = some (n.length + 1) := by
    unfold findCloser
    have h1 : find ']' ('[' :: (n ++ [']'])) = some (n.length + 1) := by
      rw [find, if_neg (by decide), find_append_of_not_mem ']' n [] hclose]
      rfl
    rw [h1]
  have hsub : sizeSub (n.length + 1) 1 = n.length := by
    rw [sizeSub_one _ (by omega) (by omega)]
    rfl
  have hname : (('[' :: (n ++ [']'])).drop 1).take n.length = n := by
    simp
  have hrest : ('[' :: (n ++ [']'])).drop (n.length + 1 + 1) = [] := by
    simp
  have hhead : ¬ (n.head? = some '/' ∨ n.head? = some '!') := by
    intro h; rcases h with h | h
    · exact hslash h
    · exact hbang h
  have hnlen : ¬ ('[' :: (n ++ [']'])).length < 2 := by
    rw [hl]; omega
  have hn0 : n.length ≠ 0 := by omega
  rw [lineLoop, if_pos hcond]
  simp only []
  rw [switchStep, if_neg (by decide), if_pos (Or.inr rfl), tagCase]
  simp only []
  rw [hfind]
  simp only [if_neg hnlen, hsub, if_neg hn0, hname, hrest, if_neg hhead, hcur]
  rw [lineLoop]
  split <;> rfl
/-- One round of the loop over the lines, when the line is scanned without error. -/
theorem lineStream_cons_ok (fuel : Nat) (text : List Char) (texts : List (List Char))
    (linePos : Int) (s s' : Scanner)
    (h : lineLoop (toInt (linePos + 1)) (toInt (trimLeft text).length) fuel
      { s with line := trimLeft text, chrPos := 1 } = Except.ok s') :
    lineStream fuel (text :: texts) linePos s
      = lineStream fuel texts (toInt (linePos + 1)) s' := by
  rw [lineStream]
  rw [h]

/-- The last statement of `load`: an error when the cursor is not at the root. -/
theorem load_of_lineStream_ok (fuel : Nat) (c : Configuration) (filename content : String)
    (r : Int × Scanner)
    (h : lineStream fuel (splitChar '\n' content.data) 0
      { line := [], chrPos := 0, root := c.configRoot, currentNode := some 0,
        filename := filename } = Except.ok r)
    (hcur : r.2.currentNode ≠ some 0) :
    Configuration.load fuel c filename content
      = Except.error (throwParseError filename ParseCause.noClosingTag r.1 r.2.line.length) := by
  unfold Configuration.load
  rw [h]
  simp only [if_pos hcur]

/-- The text `[n]` followed by lines without tag openers: the section `n` is opened and
never closed, and `load` fails with the error for the missing closing tag. -/
theorem load_open_tag_then_tagless (fuel : Nat) (c : Configuration) (filename : String)
    (n tailText : List Char)
    (hne : n ≠ []) (hslash : n.head? ≠ some '/') (hbang : n.head? ≠ some '!')
    (hclose : ']' ∉ n) (hnl : '\n' ∉ n) (hlen : n.length + 2 < 2147483648)
    (htail : tailText = [] ∨ ∃ rest, tailText = '\n' :: rest)
    (htag : Tagless tailText) (hfmt : formatDefined (cString filename.data) = true) :
    ∃ linePos chrPos,
      Configuration.load (fuel + 1) c filename (String.mk ('[' :: (n ++ ']' :: tailText)))
        = Except.error (LoadError.parseError ParseCause.noClosingTag linePos chrPos) := by
  have hfirst : '\n' ∉ ('[' :: (n ++ [']'])) := by
    intro h
    rcases List.mem_cons.mp h with h | h
    · exact absurd h (by decide)
    · rcases List.mem_append.mp h with h | h
      · exact hnl h
      · simp only [List.mem_singleton] at h
        exact absurd h (by decide)
  have hsplit : ∃ others, splitChar '\n' ('[' :: (n ++ ']' :: tailText))
      = ('[' :: (n ++ [']'])) :: others ∧ ∀ text ∈ others, Tagless text := by
    rcases htail with h | ⟨rest, h⟩
    · refine ⟨[], ?_, by simp⟩
      rw [h]
      exact splitChar_of_not_mem '\n' _ hfirst
    · refine ⟨splitChar '\n' rest, ?_, ?_⟩
      · rw [h]
        have := splitChar_append_sep '\n' ('[' :: (n ++ [']'])) rest hfirst
        simpa using this
      · intro text ht x hx
        apply htag
        rw [h]
        exact List.mem_cons_of_mem _ (splitChar_mem '\n' rest text ht x hx)
  obtain ⟨others, hsp, hothers⟩ := hsplit
  have htrim : trimLeft ('[' :: (n ++ [']'])) = '[' :: (n ++ [']']) := by
    rw [trimLeft, if_neg (by decide)]
  have hopen := lineLoop_open_tag (toInt (0 + 1)) fuel
    { line := [], chrPos := 0, root := c.configRoot, currentNode := some 0,
      filename := filename } n 0
    hne hslash hbang hclose hlen rfl
  obtain ⟨r, hr, hrc⟩ := lineStream_tagless fuel others (toInt (0 + 1))
    { line := [], chrPos := toInt (1 + ((n.length + 1 + 1 : Nat) : Int)),
      root := atCursor 0 (fun p => p.create (String.mk n)) c.configRoot,
      currentNode := some (0 + 1), filename := filename } 1 hothers rfl
  have hstream : lineStream (fuel + 1) (('[' :: (n ++ [']'])) :: others) 0
      { line := [], chrPos := 0, root := c.configRoot, currentNode := some 0,
        filename := filename }
      = Except.ok r := by
    rw [lineStream_cons_ok (fuel + 1) ('[' :: (n ++ [']'])) others 0 _ _
      (by rw [htrim]; exact hopen)]
    rw [hr]
  have hcur : r.2.currentNode ≠ some 0 := by
    rw [hrc]
    intro h
    cases h
  refine ⟨r.1, r.2.line.length, ?_⟩
  rw [← throwParseError_of_defined filename ParseCause.noClosingTag r.1 r.2.line.length hfmt]
  apply load_of_lineStream_ok
  · rw [String.data, hsp]
    exact hstream
  · exact hcur

/-- C15: in a `load` whose file name is a format that `vasprintf` prints without
arguments (no `%` conversion), when the lines have been scanned without error and the
cursor is not back at the root, `load` fails with the error for the missing closing
tag; in particular the text `[n]`, for a section name `n` (not empty, not starting
with `/` or `!`, without `]` and line break), followed by nothing or by lines without
tag openers, fails so; and so does the text `[a]`, `key = 1` with any fuel. -/
theorem load_unclosed_section_fails :
    (∀ (fuel : Nat) (c : Configuration) (filename content : String) (linePos : Int)
        (s : Scanner),
      formatDefined (cString filename.data) = true →
      lineStream fuel (splitChar '\n' content.data) 0
          { line := [], chrPos := 0, root := c.configRoot, currentNode := some 0,
            filename := filename }
        = Except.ok (linePos, s) →
      s.currentNode ≠ some 0 →
      Configuration.load fuel c filename content
        = Except.error (LoadError.parseError ParseCause.noClosingTag linePos s.line.length)) ∧
    (∀ (fuel : Nat) (c : Configuration) (filename : String) (n tailText : List Char),
      formatDefined (cString filename.data) = true →
      n ≠ [] → n.head? ≠ some '/' → n.head? ≠ some '!' → ']' ∉ n → '\n' ∉ n →
      n.length + 2 < 2147483648 →
      (tailText = [] ∨ ∃ rest, tailText = '\n' :: rest) → Tagless tailText →
      ∃ linePos chrPos,
        Configuration.load (fuel + 1) c filename (String.mk ('[' :: (n ++ ']' :: tailText)))
          = Except.error (LoadError.parseError ParseCause.noClosingTag linePos chrPos)) ∧
    (∀ fuel : Nat, Configuration.load (1 + fuel) Configuration.new "" "[a]\nkey = 1\n"
      = Except.error (LoadError.parseError ParseCause.noClosingTag 3 0)) := by
  refine ⟨?_, ?_, ?_⟩
  · intro fuel c filename content linePos s hfmt hs hcur
    rw [load_of_lineStream_ok fuel c filename content (linePos, s) hs hcur,
      throwParseError_of_defined filename ParseCause.noClosingTag linePos s.line.length hfmt]
  · intro fuel c filename n tailText hfmt hne hslash hbang hclose hnl hlen htail htag
    exact load_open_tag_then_tagless fuel c filename n tailText hne hslash hbang hclose hnl
      hlen htail htag hfmt
  · intro fuel
    exact load_fuel_mono_settled 1 fuel _ _ _ _ (by decide!) (by intro h; cases h)

/-- C15 at the text `[a]`, `key = 1` of the specification, loaded under the file name
`test.conf`. -/
theorem load_unclosed_section_fails_witness :
    formatDefined (cString "test.conf".data) = true ∧
    ∃ linePos chrPos,
      Configuration.load 1 Configuration.new "test.conf" "[a]\nkey = 1\n"
        = Except.error (LoadError.parseError ParseCause.noClosingTag linePos chrPos) :=
  ⟨by decide,
    load_unclosed_section_fails.2.1 0 Configuration.new "test.conf" ['a'] "\nkey = 1\n".data
      (by decide) (by decide) (by decide) (by decide) (by decide) (by decide) (by decide)
      (Or.inr ⟨"key = 1\n".data, rfl⟩) (by unfold Tagless; decide)⟩

/-! ## Children of the matched nodes -/

/-- C23: `collectSections` gives, for the nodes that `collect` gives and in the same
order, all their children in child order; with an empty segment list `collect` gives
the node itself and `collectSections` its children. -/
theorem collectSections_eq_children_of_collect (node : ConfigNode) (params : List String)
    (offset : Nat) :
    collectSections node params offset
      = (collect node params offset).flatMap ConfigNode.getChildren ∧
    collect node [] 0 = [node] ∧
    collectSections node [] 0 = node.getChildren := by
  refine ⟨collectSections_eq_flatMap node params offset, ?_, ?_⟩
  · simp [collect, collectAux]
  · simp [collectSections, collectSectionsAux]

/-! ## A closing tag at the root -/

/-- C17, the code at the failing input: after `[!root]` the cursor is the null
pointer, and the leaf line `key = 1` calls `create` through it; with any fuel the
result is this null dereference and not a parse error. -/
theorem load_closing_root_then_leaf_dereferences_null (fuel : Nat) :
    Configuration.load (1 + fuel) Configuration.new "" "[!root]\nkey = 1\n"
      = Except.error LoadError.nullDereference :=
  load_fuel_mono_settled 1 fuel _ _ _ _ (by decide!) (by intro h; cases h)
/-- With the null cursor the switch can only drop a blank: every other case fails, and
the cursor stays null. -/
theorem switchStep_null (linePos : Int) (c : Char) (s s' : Scanner)
    (hcur : s.currentNode = none) (h : switchStep linePos c s = Except.ok s') :
    s'.currentNode = none := by
  unfold switchStep at h
  split at h
  · unfold commentCase at h
    rw [hcur] at h
    cases h
  · split at h
    · unfold tagCase at h
      rw [hcur] at h
      split at h
      · cases h
      · split at h
        · cases h
        · split at h
          · cases h
          · simp only [] at h
            split at h <;> cases h
    · unfold defaultCase at h
      rw [hcur] at h
      split at h
      · cases h
      · cases h
        rfl

/-- The scan loop keeps a null cursor. -/
theorem lineLoop_null (linePos lineLen : Int) (fuel : Nat) :
    ∀ (s s' : Scanner), s.currentNode = none →
      lineLoop linePos lineLen fuel s = Except.ok s' → s'.currentNode = none := by
  induction fuel with
  | zero =>
    intro s s' hcur h
    rw [lineLoop] at h
    split at h
    · split at h
      · cases h; exact hcur
      · cases h
    · cases h; exact hcur
  | succ fuel ih =>
    intro s s' hcur h
    rw [lineLoop] at h
    split at h
    · split at h
      · cases h; exact hcur
      · rename_i c cs hline
        cases hs : switchStep linePos c s with
        | error e => rw [hs] at h; cases h
        | ok s1 =>
          rw [hs] at h
          exact ih s1 s' (switchStep_null linePos c s s1 hcur hs) h
    · cases h; exact hcur

/-- The loop over the lines keeps a null cursor. -/
theorem lineStream_null (fuel : Nat) (texts : List (List Char)) :
    ∀ (linePos : Int) (s : Scanner) (r : Int × Scanner), s.currentNode = none →
      lineStream fuel texts linePos s = Except.ok r → r.2.currentNode = none := by
  induction texts with
  | nil =>
    intro linePos s r hcur h
    rw [lineStream] at h
    cases h
    exact hcur
  | cons text texts ih =>
    intro linePos s r hcur h
    rw [lineStream] at h
    cases hl : lineLoop (toInt (linePos + 1)) (toInt (trimLeft text).length) fuel
        { s with line := trimLeft text, chrPos := 1 } with
    | error e => rw [hl] at h; cases h
    | ok s1 =>
      rw [hl] at h
      exact ih _ s1 r (lineLoop_null _ _ fuel
        { s with line := trimLeft text, chrPos := 1 } s1 hcur hl) h

/-- A closing tag that the scan loop meets while the cursor is at the root: either the
loop fails, or the cursor is null from then on, so that the check at the end of `load`
cannot pass. -/
theorem closing_tag_at_root_never_loads (linePos lineLen : Int) (fuel : Nat) (s : Scanner)
    (b m cl : Char) (x tail : List Char) (texts : List (List Char))
    (hb : b = '[' ∨ b = '<') (hm : m = '!' ∨ m = '/')
    (hline : s.line = b :: m :: (x ++ cl :: tail))
    (hclose : findCloser s.line = some (x.length + 2))
    (hsize : x.length + 2 < 18446744073709551616)
    (hcur : s.currentNode = some 0)
    (hcond : s.chrPos < lineLen - 1) :
    ∀ s', lineLoop linePos lineLen fuel s = Except.ok s' →
      s'.currentNode = none ∧
      ∀ linePos' r, lineStream fuel texts linePos' s' = Except.ok r →
        r.2.currentNode ≠ some 0 := by
  intro s' h
  have hnull : s'.currentNode = none := by
    cases fuel with
    | zero =>
      rw [lineLoop, if_pos hcond, hline] at h
      cases h
    | succ fuel =>
      rw [lineLoop_closing_tag linePos s 0 b m cl x tail hb hm hline hclose hsize
        hcur lineLen fuel hcond] at h
      split at h
      · cases h
      · exact lineLoop_null _ _ fuel _ s' rfl h
  refine ⟨hnull, ?_⟩
  intro linePos' r hr
  rw [lineStream_null fuel texts linePos' s' r hnull hr]
  intro hc
  cases hc

/-! ## Comments and queries -/

/-- C22, the code at the failing input: the comment `# bla` is a child named `bla`, so
`collect` on the path `bla` returns it before the leaf, and `get`, `getAll`, `tryGet`
and `tryGetAll`, which cast the value of a collected node to a string without looking
at its kind, fail on its empty value, while without the comment they give the value
of the leaf. -/
theorem comment_matches_segment :
    Configuration.load 1 Configuration.new "" commentText
      = Except.ok { filename := "", configRoot := commentTree } ∧
    commentTree = insertAt [] 0 (parsedComment "bla" 1) plainTree ∧
    collect plainTree ["bla"] 0 = [parsedLeaf "bla" "1" 1] ∧
    collect commentTree ["bla"] 0 = [parsedComment "bla" 1, parsedLeaf "bla" "1" 1] ∧
    Configuration.get Configuration.stringTarget { filename := "", configRoot := plainTree }
      ["bla"] = Except.ok "1" ∧
    Configuration.get Configuration.stringTarget { filename := "", configRoot := commentTree }
      ["bla"] = Except.error QueryError.badAnyCast ∧
    Configuration.getAll Configuration.stringTarget
      { filename := "", configRoot := commentTree } ["bla"]
      = Except.error QueryError.badAnyCast ∧
    Configuration.tryGet Configuration.stringTarget
      { filename := "", configRoot := commentTree } "d" ["bla"]
      = Except.error QueryError.badAnyCast ∧
    Configuration.tryGetAll Configuration.stringTarget
      { filename := "", configRoot := commentTree } "d" ["bla"]
      = Except.error QueryError.badAnyCast := by
  refine ⟨by decide!, ?_, ?_, ?_, ?_, ?_, ?_, ?_, ?_⟩ <;> decide
/-- A node is given by its five fields. -/
theorem mk_getters (a : ConfigNode) :
    ConfigNode.mk a.getName a.getValue a.getChildren a.getDepth a.getType = a := by
  cases a
  rfl

/-- An insertion below a node leaves its name. -/
theorem insertAt_getName (pos : List Nat) (idx : Nat) (c a : ConfigNode) :
    (insertAt pos idx c a).getName = a.getName := by
  cases pos <;> rfl

/-- An insertion below a node leaves its value. -/
theorem insertAt_getValue (pos : List Nat) (idx : Nat) (c a : ConfigNode) :
    (insertAt pos idx c a).getValue = a.getValue := by
  cases pos <;> rfl

/-- An insertion below a node leaves its kind. -/
theorem insertAt_getType (pos : List Nat) (idx : Nat) (c a : ConfigNode) :
    (insertAt pos idx c a).getType = a.getType := by
  cases pos <;> rfl

/-- A grown node has the name, the value and the kind of the old one. -/
theorem Grown.fields {c a b : ConfigNode} (h : Grown c a b) :
    b.getName = a.getName ∧ b.getValue = a.getValue ∧ b.getType = a.getType := by
  rcases h with h | ⟨pos, idx, h⟩
  · rw [h]; exact ⟨rfl, rfl, rfl⟩
  · rw [h]
    exact ⟨insertAt_getName pos idx c a, insertAt_getValue pos idx c a,
      insertAt_getType pos idx c a⟩

/-- The loop over the children, on a concatenation. -/
theorem visitNamed_append (v : ConfigNode → List ConfigNode) (seg : String)
    (xs ys : List ConfigNode) :
    visitNamed v seg (xs ++ ys) = visitNamed v seg xs ++ visitNamed v seg ys := by
  induction xs with
  | nil => rfl
  | cons x xs ih =>
    by_cases hx : x.getName = seg
    · simp [visitNamed, hx, ih]
    · simp [visitNamed, hx, ih]

/-- A child inserted among the children is not visited by the loops of `collect` when
its name is none of the segments. -/
theorem segmentLoop_insert (v : ConfigNode → List ConfigNode) (c : ConfigNode) (idx : Nat)
    (children : List ConfigNode) (segs : List String) (h : ∀ seg ∈ segs, c.getName ≠ seg) :
    segmentLoop v (children.take idx ++ c :: children.drop idx) segs
      = segmentLoop v children segs := by
  induction segs with
  | nil => rfl
  | cons seg segs ih =>
    have hc : c.getName ≠ seg := h seg (List.mem_cons_self _ _)
    have hfound : foundNamed seg (children.take idx ++ c :: children.drop idx)
        = foundNamed seg children := by
      have h1 : foundNamed seg (children.take idx ++ c :: children.drop idx)
          = foundNamed seg (children.take idx ++ children.drop idx) := by
        simp only [foundNamed, List.any_append, List.any_cons, decide_eq_false hc,
          Bool.false_or]
      rw [h1, List.take_append_drop]
    have hvisit : visitNamed v seg (children.take idx ++ c :: children.drop idx)
        = visitNamed v seg children := by
      conv_rhs => rw [← List.take_append_drop idx children]
      rw [visitNamed_append, visitNamed_append]
      simp [visitNamed, hc]
    rw [segmentLoop, segmentLoop, hfound, hvisit,
      ih (fun s hs => h s (List.mem_cons_of_mem _ hs))]

/-- Changing one element of a list: every element is kept or changed. -/
theorem forall2_modifyNth (f : ConfigNode → ConfigNode) (cs : List ConfigNode) :
    ∀ i, List.Forall₂ (fun a b => b = a ∨ b = f a) cs (modifyNth f i cs) := by
  induction cs with
  | nil => intro i; cases i <;> exact List.Forall₂.nil
  | cons x xs ih =>
    intro i
    cases i with
    | zero =>
      exact List.Forall₂.cons (Or.inr rfl) (List.forall₂_same.mpr (fun _ _ => Or.inl rfl))
    | succ i =>
      exact List.Forall₂.cons (Or.inl rfl) (ih i)

/-- The loop over the children, on two child lists that agree in names and whose
visits are related. -/
theorem visitNamed_forall2 (G : ConfigNode → ConfigNode → Prop)
    (v v' : ConfigNode → List ConfigNode) (seg : String) (cs cs' : List ConfigNode)
    (h : List.Forall₂ (fun a b => b.getName = a.getName ∧ List.Forall₂ G (v a) (v' b)) cs cs') :
    List.Forall₂ G (visitNamed v seg cs) (visitNamed v' seg cs') := by
  induction h with
  | nil => exact List.Forall₂.nil
  | @cons a b as bs hab _ ih =>
    by_cases ha : a.getName = seg
    · have hb : b.getName = seg := by rw [hab.1]; exact ha
      rw [visitNamed, visitNamed, if_pos ha, if_pos hb]
      exact List.rel_append hab.2 ih
    · have hb : ¬ b.getName = seg := by rw [hab.1]; exact ha
      rw [visitNamed, visitNamed, if_neg ha, if_neg hb]
      exact ih

/-- The flag `found` depends on the names of the children only. -/
theorem foundNamed_forall2 (seg : String) (cs cs' : List ConfigNode)
    (h : List.Forall₂ (fun a b => b.getName = a.getName) cs cs') :
    foundNamed seg cs' = foundNamed seg cs := by
  induction h with
  | nil => rfl
  | cons hab _ ih =>
    simp only [foundNamed, List.any_cons] at ih ⊢
    rw [hab, ih]

/-- The loop over the segments, on two child lists that agree in names and whose
visits are related. -/
theorem segmentLoop_forall2 (G : ConfigNode → ConfigNode → Prop)
    (v v' : ConfigNode → List ConfigNode) (cs cs' : List ConfigNode)
    (h : List.Forall₂ (fun a b => b.getName = a.getName ∧ List.Forall₂ G (v a) (v' b)) cs cs')
    (segs : List String) :
    List.Forall₂ G (segmentLoop v cs segs) (segmentLoop v' cs' segs) := by
  have hnames : List.Forall₂ (fun a b => b.getName = a.getName) cs cs' :=
    h.imp (fun _ _ hab => hab.1)
  induction segs with
  | nil => exact List.Forall₂.nil
  | cons seg segs ih =>
    rw [segmentLoop, segmentLoop, foundNamed_forall2 seg cs cs' hnames]
    by_cases hf : foundNamed seg cs = true
    · rw [if_pos hf, if_pos hf]
      exact List.rel_append (visitNamed_forall2 G v v' seg cs cs' h) ih
    · rw [if_neg hf, if_neg hf]
      exact List.Forall₂.nil

/-- Inserting a node whose name is none of the segments: `collect` gives the same
nodes, each with at most the insertion below it. -/
theorem collectAux_grown (c : ConfigNode) (params : List String) (hc : c.getName ∉ params)
    (fuel : Nat) :
    ∀ (node : ConfigNode) (pos : List Nat) (idx offset : Nat),
      List.Forall₂ (Grown c) (collectAux fuel node params offset)
        (collectAux fuel (insertAt pos idx c node) params offset) := by
  induction fuel with
  | zero =>
    intro node pos idx offset
    unfold collectAux
    by_cases ho : offset = params.length
    · rw [if_pos ho, if_pos ho]
      exact List.Forall₂.cons (Or.inr ⟨pos, idx, rfl⟩) List.Forall₂.nil
    · rw [if_neg ho, if_neg ho]
      exact List.Forall₂.nil
  | succ fuel ih =>
    intro node pos idx offset
    unfold collectAux
    by_cases ho : offset = params.length
    · rw [if_pos ho, if_pos ho]
      exact List.Forall₂.cons (Or.inr ⟨pos, idx, rfl⟩) List.Forall₂.nil
    · rw [if_neg ho, if_neg ho]
      simp only []
      cases pos with
      | nil =>
        have hch : (insertAt [] idx c node).getChildren
            = node.getChildren.take idx ++ c :: node.getChildren.drop idx := rfl
        rw [hch, segmentLoop_insert _ c idx _ _
          (fun seg hs hcs => hc (by rw [hcs]; exact List.mem_of_mem_drop hs))]
        exact List.forall₂_same.mpr (fun _ _ => Or.inl rfl)
      | cons i rest =>
        have hch : (insertAt (i :: rest) idx c node).getChildren
            = modifyNth (insertAt rest idx c) i node.getChildren := rfl
        rw [hch]
        apply segmentLoop_forall2
        refine (forall2_modifyNth (insertAt rest idx c) node.getChildren i).imp ?_
        intro a b hab
        rcases hab with hab | hab
        · rw [hab]
          exact ⟨rfl, List.forall₂_same.mpr (fun _ _ => Or.inl rfl)⟩
        · rw [hab]
          exact ⟨insertAt_getName rest idx c a, ih a rest idx (offset + 1)⟩

/-- The conversion of a node reads its value only. -/
theorem convertNode_of_value {T : Type} (target : Configuration.Target T) (a b : ConfigNode)
    (h : b.getValue = a.getValue) :
    Configuration.convertNode target b = Configuration.convertNode target a := by
  unfold Configuration.convertNode
  rw [h]

/-- The copy loop of `getAll` reads the values only. -/
theorem convertAll_of_values {T : Type} (target : Configuration.Target T)
    (as bs : List ConfigNode) (h : List.Forall₂ (fun a b => b.getValue = a.getValue) as bs) :
    Configuration.convertAll target bs = Configuration.convertAll target as := by
  induction h with
  | nil => rfl
  | @cons a b as bs hab _ ih =>
    rw [Configuration.convertAll, Configuration.convertAll,
      convertNode_of_value target a b hab, ih]

/-- The end of `get` and `tryGet`, on two node lists with the same values. -/
theorem first_of_values {T : Type} (target : Configuration.Target T)
    (as bs : List ConfigNode) (e : Except QueryError T) :
    List.Forall₂ (fun a b => b.getValue = a.getValue) as bs →
    (match bs with
      | [] => e
      | node :: _ => Configuration.convertNode target node)
      = (match as with
      | [] => e
      | node :: _ => Configuration.convertNode target node) := by
  intro h
  cases h with
  | nil => rfl
  | cons hab _ => exact convertNode_of_value target _ _ hab

/-- The end of `getAll` and `tryGetAll`, on two node lists with the same values. -/
theorem all_of_values {T : Type} (target : Configuration.Target T)
    (as bs : List ConfigNode) (e : Except QueryError (List T)) :
    List.Forall₂ (fun a b => b.getValue = a.getValue) as bs →
    (match bs with
      | [] => e
      | node :: nodes => Configuration.convertAll target (node :: nodes))
      = (match as with
      | [] => e
      | node :: nodes => Configuration.convertAll target (node :: nodes)) := by
  intro h
  have hall := convertAll_of_values target _ _ h
  cases h with
  | nil => rfl
  | cons hab htl => exact hall

/-- A node whose name is none of the segments of the path (so every comment whose text
is none of them) is not seen by the queries. Inserting it at any place of the tree,
`collect` returns the same nodes in the same order, each with its name, value and
kind and with at most the insertion below it, and `get`, `getAll`, `tryGet` and
`tryGetAll` give the same value or error. -/
theorem queries_ignore_unmatched_insert {T : Type} (target : Configuration.Target T)
    (c : Configuration) (d : T) (path : List String) (cm : ConfigNode) (pos : List Nat)
    (idx : Nat) (h : cm.getName ∉ consumeParams path) :
    List.Forall₂
        (fun a b => Grown cm a b ∧ b.getName = a.getName ∧ b.getValue = a.getValue ∧
          b.getType = a.getType)
        (collect c.configRoot (consumeParams path) 0)
        (collect (insertAt pos idx cm c.configRoot) (consumeParams path) 0) ∧
      Configuration.get target
          { filename := c.filename, configRoot := insertAt pos idx cm c.configRoot } path
        = Configuration.get target c path ∧
      Configuration.getAll target
          { filename := c.filename, configRoot := insertAt pos idx cm c.configRoot } path
        = Configuration.getAll target c path ∧
      Configuration.tryGet target
          { filename := c.filename, configRoot := insertAt pos idx cm c.configRoot } d path
        = Configuration.tryGet target c d path ∧
      Configuration.tryGetAll target
          { filename := c.filename, configRoot := insertAt pos idx cm c.configRoot } d path
        = Configuration.tryGetAll target c d path := by
  have hg : List.Forall₂ (Grown cm) (collect c.configRoot (consumeParams path) 0)
      (collect (insertAt pos idx cm c.configRoot) (consumeParams path) 0) :=
    collectAux_grown cm (consumeParams path) h _ c.configRoot pos idx 0
  have hv : List.Forall₂ (fun a b => b.getValue = a.getValue)
      (collect c.configRoot (consumeParams path) 0)
      (collect (insertAt pos idx cm c.configRoot) (consumeParams path) 0) :=
    hg.imp (fun _ _ hab => hab.fields.2.1)
  exact ⟨hg.imp (fun _ _ hab => ⟨hab, hab.fields⟩),
    first_of_values target _ _ _ hv, all_of_values target _ _ _ hv,
    first_of_values target _ _ _ hv, all_of_values target _ _ _ hv⟩

/-- On the tree of `[a]`, `x = 1`, `[!a]` with the comment `# note` inserted as the
first child of the section `a`: the path `a.x` gives the same leaf and the same
value. -/
theorem queries_ignore_unmatched_insert_witness :
    (parsedComment "note" 2).getName ∉ consumeParams ["a.x"] ∧
    (List.Forall₂
        (fun a b => Grown (parsedComment "note" 2) a b ∧ b.getName = a.getName ∧
          b.getValue = a.getValue ∧ b.getType = a.getType)
        (collect (Configuration.mk "" noteTree).configRoot (consumeParams ["a.x"]) 0)
        (collect (insertAt [0] 0 (parsedComment "note" 2)
          (Configuration.mk "" noteTree).configRoot) (consumeParams ["a.x"]) 0) ∧
      Configuration.get Configuration.stringTarget
          { filename := (Configuration.mk "" noteTree).filename,
            configRoot := insertAt [0] 0 (parsedComment "note" 2)
              (Configuration.mk "" noteTree).configRoot } ["a.x"]
        = Configuration.get Configuration.stringTarget (Configuration.mk "" noteTree) ["a.x"] ∧
      Configuration.getAll Configuration.stringTarget
          { filename := (Configuration.mk "" noteTree).filename,
            configRoot := insertAt [0] 0 (parsedComment "note" 2)
              (Configuration.mk "" noteTree).configRoot } ["a.x"]
        = Configuration.getAll Configuration.stringTarget (Configuration.mk "" noteTree)
            ["a.x"] ∧
      Configuration.tryGet Configuration.stringTarget
          { filename := (Configuration.mk "" noteTree).filename,
            configRoot := insertAt [0] 0 (parsedComment "note" 2)
              (Configuration.mk "" noteTree).configRoot } "none" ["a.x"]
        = Configuration.tryGet Configuration.stringTarget (Configuration.mk "" noteTree)
            "none" ["a.x"] ∧
      Configuration.tryGetAll Configuration.stringTarget
          { filename := (Configuration.mk "" noteTree).filename,
            configRoot := insertAt [0] 0 (parsedComment "note" 2)
              (Configuration.mk "" noteTree).configRoot } "none" ["a.x"]
        = Configuration.tryGetAll Configuration.stringTarget (Configuration.mk "" noteTree)
            "none" ["a.x"]) ∧
    Configuration.get Configuration.stringTarget (Configuration.mk "" noteTree) ["a.x"]
      = Except.ok "1" :=
  ⟨by decide,
    queries_ignore_unmatched_insert Configuration.stringTarget (Configuration.mk "" noteTree)
      "none" ["a.x"] (parsedComment "note" 2) [0] 0 (by decide),
    by decide⟩

/-! ## `collect` misses no match -/

/-- A visited child with the segment's name contributes what its visit gives. -/
theorem mem_visitNamedAt (visit : Nat → ConfigNode → List (List Nat)) (seg : String)
    (x : List Nat) :
    ∀ (cs : List ConfigNode) (j i : Nat) (c : ConfigNode), cs[i]? = some c → c.getName = seg →
      x ∈ visit (j + i) c → x ∈ visitNamedAt visit seg j cs := by
  intro cs
  induction cs with
  | nil => intro j i c h; simp at h
  | cons c0 cs ih =>
    intro j i c h hname hx
    cases i with
    | zero =>
      simp only [List.getElem?_cons_zero, Option.some.injEq] at h
      subst h
      rw [visitNamedAt, if_pos hname]
      exact List.mem_append_left _ hx
    | succ i =>
      simp only [List.getElem?_cons_succ] at h
      have hx' : x ∈ visit (j + 1 + i) c := by
        have : j + 1 + i = j + (i + 1) := by omega
        rw [this]; exact hx
      have := ih (j + 1) i c h hname hx'
      rw [visitNamedAt]
      split
      · exact List.mem_append_right _ this
      · exact this

/-- A child with the segment's name sets the flag `found`. -/
theorem foundNamed_of_getElem (seg : String) (cs : List ConfigNode) (i : Nat) (c : ConfigNode)
    (h : cs[i]? = some c) (hname : c.getName = seg) : foundNamed seg cs = true := by
  simp only [foundNamed, List.any_eq_true, decide_eq_true_eq]
  exact ⟨c, List.getElem?_mem h, hname⟩

/-- A chain along no segment is the empty position. -/
theorem isPathMatch_nil (node : ConfigNode) (p : List Nat) (h : isPathMatch node [] p = true) :
    p = [] := by
  cases p with
  | nil => rfl
  | cons i rest => simp [isPathMatch] at h

/-- A chain along `seg :: segs` starts with a child named `seg` and goes on below it. -/
theorem isPathMatch_cons (node : ConfigNode) (seg : String) (segs : List String) (p : List Nat)
    (h : isPathMatch node (seg :: segs) p = true) :
    ∃ i rest child, p = i :: rest ∧ node.getChildren[i]? = some child ∧ child.getName = seg ∧
      isPathMatch child segs rest = true := by
  cases p with
  | nil => simp [isPathMatch] at h
  | cons i rest =>
    rw [isPathMatch] at h
    cases hc : node.getChildren[i]? with
    | none => rw [hc] at h; simp at h
    | some child =>
      rw [hc] at h
      simp only [Bool.and_eq_true, decide_eq_true_eq] at h
      exact ⟨i, rest, child, rfl, hc, h.1, h.2⟩

/-- The segments from `offset` on, when `offset` is not the end. -/
theorem drop_eq_cons_of_lt (params : List String) (offset : Nat) (h : offset < params.length) :
    params.drop offset = params[offset] :: params.drop (offset + 1) :=
  List.drop_eq_getElem_cons h

/-- Every chain along the segments left is among the positions that `collect` pushes. -/
theorem mem_collectAtAux (params : List String) (fuel : Nat) :
    ∀ (node : ConfigNode) (offset : Nat) (p : List Nat), offset + fuel = params.length →
      isPathMatch node (params.drop offset) p = true →
      p ∈ collectAtAux fuel node params offset := by
  induction fuel with
  | zero =>
    intro node offset p hlen hp
    have ho : offset = params.length := by omega
    unfold collectAtAux
    rw [if_pos ho]
    rw [ho, List.drop_length] at hp
    rw [isPathMatch_nil node p hp]
    exact List.mem_singleton.mpr rfl
  | succ fuel ih =>
    intro node offset p hlen hp
    have ho : offset < params.length := by omega
    unfold collectAtAux
    rw [if_neg (Nat.ne_of_lt ho)]
    simp only []
    rw [drop_eq_cons_of_lt params offset ho] at hp ⊢
    obtain ⟨i, rest, child, hpe, hchild, hname, hrest⟩ := isPathMatch_cons _ _ _ _ hp
    rw [segmentLoopAt, if_pos (foundNamed_of_getElem _ _ i child hchild hname)]
    apply List.mem_append_left
    apply mem_visitNamedAt _ _ _ _ 0 i child hchild hname
    rw [hpe, Nat.zero_add]
    exact List.mem_map.mpr ⟨rest, ih child (offset + 1) rest (by omega) hrest, rfl⟩

/-- What is before `q` in a list is before `q` in the list with more at its end. -/
theorem Before.append_left {p q : List Nat} {l : List (List Nat)} (h : Before p q l)
    (m : List (List Nat)) : Before p q (l ++ m) := by
  obtain ⟨l₁, l₂, hl, hq⟩ := h
  exact ⟨l₁, l₂ ++ m, by rw [hl, List.append_assoc, List.cons_append], hq⟩

/-- What is before `q` in a list is before `q` behind a list without `q`. -/
theorem Before.append_right {p q : List Nat} {l : List (List Nat)} (h : Before p q l)
    (k : List (List Nat)) (hk : q ∉ k) : Before p q (k ++ l) := by
  obtain ⟨l₁, l₂, hl, hq⟩ := h
  refine ⟨k ++ l₁, l₂, by rw [hl, List.append_assoc], ?_⟩
  intro hmem
  rcases List.mem_append.mp hmem with h1 | h1
  · exact hk h1
  · exact hq h1

/-- An element of a list without `q` is before `q`. -/
theorem Before.of_mem {p q : List Nat} {l : List (List Nat)} (hp : p ∈ l) (hq : q ∉ l) :
    Before p q l := by
  obtain ⟨l₁, l₂, hl⟩ := List.append_of_mem hp
  refine ⟨l₁, l₂, hl, ?_⟩
  intro hmem
  apply hq
  rw [hl]
  exact List.mem_append_left _ hmem

/-- Putting the child index in front keeps the order. -/
theorem Before.map_cons {p q : List Nat} {l : List (List Nat)} (h : Before p q l) (j : Nat) :
    Before (j :: p) (j :: q) (l.map (fun x => j :: x)) := by
  obtain ⟨l₁, l₂, hl, hq⟩ := h
  refine ⟨l₁.map (fun x => j :: x), l₂.map (fun x => j :: x), by rw [hl]; simp, ?_⟩
  intro hmem
  obtain ⟨x, hx, hjx⟩ := List.mem_map.mp hmem
  have : x = q := (List.cons.inj hjx).2
  rw [this] at hx
  exact hq hx

/-- The first place of `p` is before the first place of `q`. -/
theorem Before.indexOf_lt {p q : List Nat} {l : List (List Nat)} (h : Before p q l)
    (hne : p ≠ q) : l.indexOf p < l.indexOf q := by
  obtain ⟨l₁, l₂, hl, hq⟩ := h
  subst hl
  induction l₁ with
  | nil =>
    have hb : (p == q) = false := beq_false_of_ne hne
    rw [List.nil_append, List.indexOf_cons, List.indexOf_cons, beq_self_eq_true, hb]
    exact Nat.succ_pos _
  | cons x l₁ ih =>
    have hx : (x == q) = false :=
      beq_false_of_ne (fun hxq => hq (by rw [hxq]; exact List.mem_cons_self _ _))
    have hq' : q ∉ l₁ := fun hmem => hq (List.mem_cons_of_mem _ hmem)
    rw [List.cons_append, List.indexOf_cons, List.indexOf_cons, hx]
    cases hxp : (x == p) with
    | true => exact Nat.succ_pos _
    | false => exact Nat.succ_lt_succ (ih hq')

/-- Child order is strict. -/
theorem lexLt_ne : ∀ (p q : List Nat), lexLt p q = true → p ≠ q := by
  intro p
  induction p with
  | nil => intro q h; simp [lexLt] at h
  | cons i p ih =>
    intro q h
    cases q with
    | nil => simp [lexLt] at h
    | cons j q =>
      simp only [lexLt, Bool.or_eq_true, Bool.and_eq_true, decide_eq_true_eq] at h
      intro heq
      obtain ⟨hij, hpq⟩ := List.cons.inj heq
      rcases h with h | ⟨_, h⟩
      · omega
      · exact ih q h hpq

/-- The positions of one visit of the `for j` loop start with child indices from `j`
on. -/
theorem head_of_mem_visitNamedAt (X : ConfigNode → List (List Nat)) (seg : String)
    (x : List Nat) :
    ∀ (cs : List ConfigNode) (j : Nat),
      x ∈ visitNamedAt (fun j child => (X child).map (fun p => j :: p)) seg j cs →
      ∃ k rest, x = k :: rest ∧ j ≤ k := by
  intro cs
  induction cs with
  | nil => intro j h; simp [visitNamedAt] at h
  | cons c cs ih =>
    intro j h
    rw [visitNamedAt] at h
    have htail : x ∈ visitNamedAt (fun j child => (X child).map (fun p => j :: p)) seg (j + 1) cs →
        ∃ k rest, x = k :: rest ∧ j ≤ k := by
      intro h'
      obtain ⟨k, rest, hx, hk⟩ := ih (j + 1) h'
      exact ⟨k, rest, hx, by omega⟩
    split at h
    · rcases List.mem_append.mp h with h1 | h1
      · obtain ⟨r, _, hr⟩ := List.mem_map.mp h1
        exact ⟨j, r, hr.symm, Nat.le_refl _⟩
      · exact htail h1
    · exact htail h

/-- The `for j` loop gives the positions below an earlier child first, and those below
one child in the order of its visit. -/
theorem before_visitNamedAt (X : ConfigNode → List (List Nat)) (seg : String)
    (rp rq : List Nat) :
    ∀ (cs : List ConfigNode) (j i i' : Nat) (c c' : ConfigNode),
      cs[i]? = some c → c.getName = seg → cs[i']? = some c' → rp ∈ X c →
      (i < i' ∨ (i = i' ∧ Before rp rq (X c))) →
      Before ((j + i) :: rp) ((j + i') :: rq)
        (visitNamedAt (fun j child => (X child).map (fun p => j :: p)) seg j cs) := by
  intro cs
  induction cs with
  | nil => intro j i i' c c' h; simp at h
  | cons c0 cs ih =>
    intro j i i' c c' hc hname hc' hrp hord
    cases i with
    | zero =>
      simp only [List.getElem?_cons_zero, Option.some.injEq] at hc
      subst hc
      rw [visitNamedAt, if_pos hname]
      apply Before.append_left
      rcases hord with hlt | ⟨heq, hb⟩
      · apply Before.of_mem
        · exact List.mem_map.mpr ⟨rp, hrp, rfl⟩
        · intro hmem
          obtain ⟨r, _, hr⟩ := List.mem_map.mp hmem
          have := (List.cons.inj hr).1
          omega
      · rw [← heq]
        exact hb.map_cons (j + 0)
    | succ i =>
      cases i' with
      | zero => omega
      | succ i' =>
        simp only [List.getElem?_cons_succ] at hc hc'
        have hord' : i < i' ∨ (i = i' ∧ Before rp rq (X c)) := by
          rcases hord with hlt | ⟨heq, hb⟩
          · exact Or.inl (by omega)
          · exact Or.inr ⟨by omega, hb⟩
        have hrec := ih (j + 1) i i' c c' hc hname hc' hrp hord'
        have e1 : j + 1 + i = j + (i + 1) := by omega
        have e2 : j + 1 + i' = j + (i' + 1) := by omega
        rw [e1, e2] at hrec
        rw [visitNamedAt]
        split
        · apply hrec.append_right
          intro hmem
          obtain ⟨r, _, hr⟩ := List.mem_map.mp hmem
          have := (List.cons.inj hr).1
          omega
        · exact hrec

/-- Of two chains along the segments left, the one earlier in child order is pushed
at a place before which the other one is not pushed. -/
theorem before_collectAtAux (params : List String) (fuel : Nat) :
    ∀ (node : ConfigNode) (offset : Nat) (p q : List Nat), offset + fuel = params.length →
      isPathMatch node (params.drop offset) p = true →
      isPathMatch node (params.drop offset) q = true → lexLt p q = true →
      Before p q (collectAtAux fuel node params offset) := by
  induction fuel with
  | zero =>
    intro node offset p q hlen hp hq hlt
    have ho : offset = params.length := by omega
    rw [ho, List.drop_length] at hp
    rw [isPathMatch_nil node p hp] at hlt
    simp [lexLt] at hlt
  | succ fuel ih =>
    intro node offset p q hlen hp hq hlt
    have ho : offset < params.length := by omega
    unfold collectAtAux
    rw [if_neg (Nat.ne_of_lt ho)]
    simp only []
    rw [drop_eq_cons_of_lt params offset ho] at hp hq ⊢
    obtain ⟨i, rp, c, hpe, hc, hname, hrp⟩ := isPathMatch_cons _ _ _ _ hp
    obtain ⟨i', rq, c', hqe, hc', hname', hrq⟩ := isPathMatch_cons _ _ _ _ hq
    rw [segmentLoopAt, if_pos (foundNamed_of_getElem _ _ i c hc hname)]
    apply Before.append_left
    have hmem : rp ∈ collectAtAux fuel c params (offset + 1) :=
      mem_collectAtAux params fuel c (offset + 1) rp (by omega) hrp
    rw [hpe, hqe] at hlt
    simp only [lexLt, Bool.or_eq_true, Bool.and_eq_true, decide_eq_true_eq] at hlt
    have hord : i < i' ∨ (i = i' ∧ Before rp rq (collectAtAux fuel c params (offset + 1))) := by
      rcases hlt with h | ⟨heq, h⟩
      · exact Or.inl h
      · refine Or.inr ⟨heq, ih c (offset + 1) rp rq (by omega) hrp ?_ h⟩
        rw [← heq, hc] at hc'
        rw [Option.some.inj hc']
        exact hrq
    have := before_visitNamedAt (fun child => collectAtAux fuel child params (offset + 1))
      params[offset] rp rq node.getChildren 0 i i' c c' hc hname hc' hmem hord
    rw [Nat.zero_add, Nat.zero_add] at this
    rw [hpe, hqe]
    exact this

/-- The position `j :: p` below a node is the position `p` below its child `j`. -/
theorem nodeAt_cons (node child : ConfigNode) (j : Nat) (p : List Nat)
    (h : node.getChildren[j]? = some child) : nodeAt node (j :: p) = nodeAt child p := by
  rw [nodeAt, h]

/-- The `for j` loop on positions gives the positions of the nodes that the loop on
nodes gives. -/
theorem visitNamedAt_nodes (node : ConfigNode) (X : ConfigNode → List (List Nat))
    (v : ConfigNode → List ConfigNode) (seg : String)
    (hX : ∀ child, (X child).filterMap (nodeAt child) = v child) :
    ∀ (cs pre : List ConfigNode), node.getChildren = pre ++ cs →
      (visitNamedAt (fun j child => (X child).map (fun p => j :: p)) seg pre.length
        cs).filterMap (nodeAt node) = visitNamed v seg cs := by
  intro cs
  induction cs with
  | nil => intro pre _; rfl
  | cons c cs ih =>
    intro pre hpre
    have hc : node.getChildren[pre.length]? = some c := by
      rw [hpre, List.getElem?_append_right (Nat.le_refl _), Nat.sub_self,
        List.getElem?_cons_zero]
    have htail := ih (pre ++ [c]) (by rw [hpre, List.append_assoc]; rfl)
    rw [List.length_append, List.length_singleton] at htail
    rw [visitNamedAt, visitNamed]
    by_cases hname : c.getName = seg
    · rw [if_pos hname, if_pos hname, List.filterMap_append, htail, List.filterMap_map]
      have : (List.filterMap (nodeAt node ∘ fun p => pre.length :: p) (X c))
          = List.filterMap (nodeAt c) (X c) :=
        List.filterMap_congr (fun p _ => nodeAt_cons node c pre.length p hc)
      rw [this, hX c]
    · rw [if_neg hname, if_neg hname, htail]

/-- The `for i` loop on positions gives the positions of the nodes that the loop on
nodes gives. -/
theorem segmentLoopAt_nodes (node : ConfigNode) (X : ConfigNode → List (List Nat))
    (v : ConfigNode → List ConfigNode)
    (hX : ∀ child, (X child).filterMap (nodeAt child) = v child) (segs : List String) :
    (segmentLoopAt (fun j child => (X child).map (fun p => j :: p)) node.getChildren
      segs).filterMap (nodeAt node) = segmentLoop v node.getChildren segs := by
  induction segs with
  | nil => rfl
  | cons seg segs ih =>
    rw [segmentLoopAt, segmentLoop]
    by_cases hf : foundNamed seg node.getChildren = true
    · rw [if_pos hf, if_pos hf, List.filterMap_append, ih]
      have := visitNamedAt_nodes node X v seg hX node.getChildren [] rfl
      rw [List.length_nil] at this
      rw [this]
    · rw [if_neg hf, if_neg hf]
      rfl

/-- The nodes that `collect` pushes are the nodes at the positions of `collectAt`, in
the same order. -/
theorem collectAux_eq_nodes (params : List String) (fuel : Nat) :
    ∀ (node : ConfigNode) (offset : Nat),
      collectAux fuel node params offset
        = (collectAtAux fuel node params offset).filterMap (nodeAt node) := by
  induction fuel with
  | zero =>
    intro node offset
    unfold collectAux collectAtAux
    by_cases ho : offset = params.length
    · rw [if_pos ho, if_pos ho]; rfl
    · rw [if_neg ho, if_neg ho]; rfl
  | succ fuel ih =>
    intro node offset
    unfold collectAux collectAtAux
    by_cases ho : offset = params.length
    · rw [if_pos ho, if_pos ho]; rfl
    · rw [if_neg ho, if_neg ho]
      simp only []
      exact (segmentLoopAt_nodes node (fun child => collectAtAux fuel child params (offset + 1))
        _ (fun child => (ih child (offset + 1)).symm) _).symm

/-- A chain ends at a node. -/
theorem nodeAt_of_isPathMatch : ∀ (segs : List String) (node : ConfigNode) (p : List Nat),
    isPathMatch node segs p = true → ∃ n, nodeAt node p = some n := by
  intro segs
  induction segs with
  | nil =>
    intro node p h
    rw [isPathMatch_nil node p h]
    exact ⟨node, rfl⟩
  | cons seg segs ih =>
    intro node p h
    obtain ⟨i, rest, child, hp, hchild, _, hrest⟩ := isPathMatch_cons _ _ _ _ h
    obtain ⟨n, hn⟩ := ih child rest hrest
    exact ⟨n, by rw [hp, nodeAt_cons node child i rest hchild]; exact hn⟩

/-- C24: `collect` misses no match. The nodes that `collect` returns are the nodes at
the positions of `collectAt`, in that order. For every tree and segment list, every
chain `p` from the root along children named by the segments ends at a node that is
in the result, whatever else the tree holds; and of two such chains the one that is
earlier in child order is first emitted earlier. -/
theorem collect_misses_no_match (root : ConfigNode) (segs : List String) (p : List Nat)
    (hp : isPathMatch root segs p = true) :
    collect root segs 0 = (collectAt root segs 0).filterMap (nodeAt root) ∧
    p ∈ collectAt root segs 0 ∧
    (∃ n, nodeAt root p = some n ∧ n ∈ collect root segs 0) ∧
    ∀ q, isPathMatch root segs q = true → lexLt p q = true →
      (collectAt root segs 0).indexOf p < (collectAt root segs 0).indexOf q := by
  have hnodes : collect root segs 0 = (collectAt root segs 0).filterMap (nodeAt root) :=
    collectAux_eq_nodes segs _ root 0
  have hmem : p ∈ collectAt root segs 0 :=
    mem_collectAtAux segs _ root 0 p (by omega) hp
  refine ⟨hnodes, hmem, ?_, ?_⟩
  · obtain ⟨n, hn⟩ := nodeAt_of_isPathMatch segs root p hp
    exact ⟨n, hn, by rw [hnodes]; exact List.mem_filterMap.mpr ⟨p, hmem, hn⟩⟩
  · intro q hq hlt
    exact (before_collectAtAux segs _ root 0 p q (by omega) hp hq hlt).indexOf_lt
      (lexLt_ne p q hlt)

/-- C24 on the tree of the end-to-end example: the chain to the first leaf `bla` of the
first section `choi` is a match of `ahoi.bhoi.choi.bla`, it is collected, and it is emitted
before the chain to the leaf of the second section `choi`. -/
theorem collect_misses_no_match_witness :
    isPathMatch endToEndTree ["ahoi", "bhoi", "choi", "bla"] [0, 0, 0, 0] = true ∧
    (collect endToEndTree ["ahoi", "bhoi", "choi", "bla"] 0
        = (collectAt endToEndTree ["ahoi", "bhoi", "choi", "bla"] 0).filterMap (nodeAt endToEndTree) ∧
      [0, 0, 0, 0] ∈ collectAt endToEndTree ["ahoi", "bhoi", "choi", "bla"] 0 ∧
      (∃ n, nodeAt endToEndTree [0, 0, 0, 0] = some n ∧
        n ∈ collect endToEndTree ["ahoi", "bhoi", "choi", "bla"] 0) ∧
      ∀ q, isPathMatch endToEndTree ["ahoi", "bhoi", "choi", "bla"] q = true →
        lexLt [0, 0, 0, 0] q = true →
        (collectAt endToEndTree ["ahoi", "bhoi", "choi", "bla"] 0).indexOf [0, 0, 0, 0]
          < (collectAt endToEndTree ["ahoi", "bhoi", "choi", "bla"] 0).indexOf q) ∧
    isPathMatch endToEndTree ["ahoi", "bhoi", "choi", "bla"] [0, 0, 1, 0] = true ∧
    lexLt [0, 0, 0, 0] [0, 0, 1, 0] = true :=
  ⟨by decide, collect_misses_no_match endToEndTree ["ahoi", "bhoi", "choi", "bla"] [0, 0, 0, 0] (by decide),
    by decide, by decide⟩

/-! ## `set` -/

/-- C13, the code at the failing input: `set` hands the `boost::any` it is given to
`setValue` as it is, without a conversion to a string. On the tree of `threeLeafText`,
`set(boost::any(5), "a.x")` updates the three leaves `x` and creates no node, but the
leaves then hold the number, not the string `5`: `get` and `serialize`, which read a
leaf with `any_cast<std::string>`, fail, while a string value is stored and read
back. -/
theorem set_stores_value_unconverted :
    Configuration.load 1 Configuration.new "" threeLeafText
      = Except.ok { filename := "", configRoot := threeLeafTree } ∧
    collectAt threeLeafTree (consumeParams ["a.x"]) 0 = [[0, 0], [1, 0], [2, 0]] ∧
    Configuration.set { filename := "", configRoot := threeLeafTree } (BoostAny.other "5") ["a.x"]
      = { filename := "", configRoot := threeLeafTreeWith (BoostAny.other "5") } ∧
    threeLeafTreeWith (BoostAny.other "5") ≠ threeLeafTreeWith (BoostAny.str "5") ∧
    Configuration.get Configuration.stringTarget
        (Configuration.set { filename := "", configRoot := threeLeafTree } (BoostAny.other "5")
          ["a.x"]) ["a.x"]
      = Except.error QueryError.badAnyCast ∧
    Configuration.serialize
        (Configuration.set { filename := "", configRoot := threeLeafTree } (BoostAny.other "5")
          ["a.x"])
      = Except.error QueryError.badAnyCast ∧
    Configuration.set { filename := "", configRoot := threeLeafTree } (BoostAny.str "5") ["a.x"]
      = { filename := "", configRoot := threeLeafTreeWith (BoostAny.str "5") } ∧
    Configuration.get Configuration.stringTarget
        (Configuration.set { filename := "", configRoot := threeLeafTree } (BoostAny.str "5")
          ["a.x"]) ["a.x"]
      = Except.ok "5" ∧
    Configuration.set { filename := "", configRoot := threeLeafTree } (BoostAny.other "5") ["a.z"]
      = { filename := "", configRoot := threeLeafTree } := by
  refine ⟨by decide!, ?_, ?_, ?_, ?_, ?_, ?_, ?_, ?_⟩ <;> decide

/-! ## `serialize` and `render` -/

mutual
/-- On a well-formed tree `serialize_internal` writes the lines of `render`. -/
theorem serialize_internal_eq_render (d : Nat) :
    ∀ (node : ConfigNode), wellFormedFrom d node = true →
      serialize_internal node
        = Except.ok ((renderLines d node).flatMap (fun line => line ++ ['\n']))
  | ConfigNode.mk name value children depth type => by
    intro h
    unfold wellFormedFrom at h
    simp only [Bool.and_eq_true, decide_eq_true_eq] at h
    obtain ⟨hd, ht⟩ := h
    subst hd
    cases type with
    | Node =>
      rw [serialize_internal, renderLines]
      rw [serializeChildren_eq_render (depth + 1) children ht]
      simp [indentation, List.flatMap_append]
    | Leaf =>
      rw [serialize_internal, renderLines]
      cases value with
      | str s => simp [anyCastString, indentation, valueText]
      | other r => simp at ht
      | empty => simp at ht
    | Comment =>
      rw [serialize_internal, renderLines]
      simp [indentation]
/-- On well-formed children the loop of `serialize_internal` writes their lines. -/
theorem serializeChildren_eq_render (d : Nat) :
    ∀ (children : List ConfigNode), wellFormedChildren d children = true →
      serializeChildren children
        = Except.ok ((renderChildren d children).flatMap (fun line => line ++ ['\n']))
  | [] => by
    intro _
    rw [serializeChildren, renderChildren]
    rfl
  | child :: children => by
    intro h
    rw [wellFormedChildren] at h
    simp only [Bool.and_eq_true] at h
    rw [serializeChildren, renderChildren, serialize_internal_eq_render d child h.1]
    simp only []
    rw [serializeChildren_eq_render d children h.2]
    simp [List.flatMap_append]
end

mutual
/-- The lines of `render` on a well-formed tree: one for a leaf, one for a comment,
two for a section. -/
theorem renderLines_length (d : Nat) :
    ∀ (node : ConfigNode), wellFormedFrom d node = true →
      (renderLines d node).length
        = countType NodeType.Leaf node + countType NodeType.Comment node
          + 2 * countType NodeType.Node node
  | ConfigNode.mk name value children depth type => by
    intro h
    unfold wellFormedFrom at h
    simp only [Bool.and_eq_true, decide_eq_true_eq] at h
    obtain ⟨_, ht⟩ := h
    cases type with
    | Node =>
      have := renderChildren_length (d + 1) children ht
      rw [renderLines, countType, countType, countType]
      simp only [List.length_cons, List.length_append, List.length_nil, this]
      simp
      omega
    | Leaf =>
      simp only [Bool.and_eq_true] at ht
      have hc : children = [] := List.isEmpty_iff.mp ht.2
      subst hc
      simp [renderLines, countType, countTypeList]
    | Comment =>
      have hc : children = [] := List.isEmpty_iff.mp ht
      subst hc
      simp [renderLines, countType, countTypeList]
/-- The lines of `render` on well-formed children. -/
theorem renderChildren_length (d : Nat) :
    ∀ (children : List ConfigNode), wellFormedChildren d children = true →
      (renderChildren d children).length
        = countTypeList NodeType.Leaf children + countTypeList NodeType.Comment children
          + 2 * countTypeList NodeType.Node children
  | [] => by
    intro _
    simp [renderChildren, countTypeList]
  | child :: children => by
    intro h
    rw [wellFormedChildren] at h
    simp only [Bool.and_eq_true] at h
    rw [renderChildren, List.length_append, renderLines_length d child h.1,
      renderChildren_length d children h.2, countTypeList, countTypeList, countTypeList]
    omega
end

mutual
/-- No line of `render` holds a newline when no name and no value does. -/
theorem renderLines_plain (d : Nat) :
    ∀ (node : ConfigNode), plainText node = true →
      ∀ line ∈ renderLines d node, '\n' ∉ line
  | ConfigNode.mk name value children depth type => by
    intro h line hline
    unfold plainText at h
    simp at h
    obtain ⟨⟨hname, hvalue⟩, hchildren⟩ := h
    cases type with
    | Node =>
      rw [renderLines] at hline
      simp only [List.mem_cons, List.mem_append, List.mem_singleton, List.not_mem_nil,
        or_false] at hline
      rcases hline with h1 | h1 | h1
      · rw [h1]; simp [hname]
      · exact renderChildren_plain (d + 1) children hchildren line h1
      · rw [h1]; simp [hname]
    | Leaf =>
      rw [renderLines] at hline
      rw [List.mem_singleton.mp hline]
      simp [hname, hvalue]
    | Comment =>
      rw [renderLines] at hline
      rw [List.mem_singleton.mp hline]
      simp [hname]
/-- No line of the children holds a newline. -/
theorem renderChildren_plain (d : Nat) :
    ∀ (children : List ConfigNode), plainTextList children = true →
      ∀ line ∈ renderChildren d children, '\n' ∉ line
  | [] => by
    intro _ line hline
    simp [renderChildren] at hline
  | child :: children => by
    intro h line hline
    rw [plainTextList] at h
    simp only [Bool.and_eq_true] at h
    rw [renderChildren] at hline
    rcases List.mem_append.mp hline with h1 | h1
    · exact renderLines_plain d child h.1 line h1
    · exact renderChildren_plain d children h.2 line h1
end

/-- Lines without a newline, each ended by one: the text holds one newline per line. -/
theorem count_newline_lines (lines : List (List Char)) (h : ∀ line ∈ lines, '\n' ∉ line) :
    (lines.flatMap (fun line => line ++ ['\n'])).count '\n' = lines.length := by
  induction lines with
  | nil => rfl
  | cons line lines ih =>
    rw [List.flatMap_cons, List.count_append, List.count_append,
      ih (fun l hl => h l (List.mem_cons_of_mem _ hl)),
      List.count_eq_zero_of_not_mem (h line (List.mem_cons_self _ _)), List.length_cons]
    simp
    omega

/-- C21: on every tree as `load` and `create` build it (the depth counter of a node is
its distance from the root, a leaf holds a string, leaves and comments are terminal)
`serialize()` returns `render(root)`, the root being written as `[root]` … `[!root]`
at depth 0. Its lines are one per leaf, one per comment and two per section, and when
no name or value holds a newline these are the lines of the output text. -/
theorem serialize_eq_render (c : Configuration) (h : wellFormedFrom 0 c.configRoot = true) :
    c.serialize = Except.ok (render c.configRoot) ∧
    (renderLines 0 c.configRoot).length
      = countType NodeType.Leaf c.configRoot + countType NodeType.Comment c.configRoot
        + 2 * countType NodeType.Node c.configRoot ∧
    (plainText c.configRoot = true →
      (render c.configRoot).data.count '\n'
        = countType NodeType.Leaf c.configRoot + countType NodeType.Comment c.configRoot
          + 2 * countType NodeType.Node c.configRoot) := by
  refine ⟨?_, renderLines_length 0 c.configRoot h, ?_⟩
  · rw [Configuration.serialize, serialize_internal_eq_render 0 c.configRoot h]
    rfl
  · intro hp
    rw [← renderLines_length 0 c.configRoot h]
    exact count_newline_lines _ (renderLines_plain 0 c.configRoot hp)

/-- C21 on the tree of `renderText`, which holds a section, a comment and a leaf below
the root: six lines, indented by four spaces per level. -/
theorem serialize_eq_render_witness :
    wellFormedFrom 0 (Configuration.mk "" renderTree).configRoot = true ∧
    ((Configuration.mk "" renderTree).serialize
        = Except.ok (render (Configuration.mk "" renderTree).configRoot) ∧
      (renderLines 0 (Configuration.mk "" renderTree).configRoot).length
        = countType NodeType.Leaf (Configuration.mk "" renderTree).configRoot
          + countType NodeType.Comment (Configuration.mk "" renderTree).configRoot
          + 2 * countType NodeType.Node (Configuration.mk "" renderTree).configRoot ∧
      (plainText (Configuration.mk "" renderTree).configRoot = true →
        (render (Configuration.mk "" renderTree).configRoot).data.count '\n'
          = countType NodeType.Leaf (Configuration.mk "" renderTree).configRoot
            + countType NodeType.Comment (Configuration.mk "" renderTree).configRoot
            + 2 * countType NodeType.Node (Configuration.mk "" renderTree).configRoot)) ∧
    Configuration.load 1 Configuration.new "" renderText
      = Except.ok { filename := "", configRoot := renderTree } ∧
    render renderTree
      = "[root]\n    [a]\n        # note\n        x = 1\n    [!a]\n[!root]\n" ∧
    plainText renderTree = true ∧
    countType NodeType.Leaf renderTree + countType NodeType.Comment renderTree
      + 2 * countType NodeType.Node renderTree = 6 :=
  ⟨by decide, serialize_eq_render (Configuration.mk "" renderTree) (by decide), by decide!,
    by decide, by decide, by decide⟩

/-! ## `load` keeps the nodes that the tree holds -/

/-- Changing the last element of a list that follows other elements. -/
theorem modifyLast_append (g : ConfigNode → ConfigNode) (pre cs : List ConfigNode)
    (h : cs ≠ []) : modifyLast g (pre ++ cs) = pre ++ modifyLast g cs := by
  induction pre with
  | nil => rfl
  | cons a pre ih =>
    cases hl : pre ++ cs with
    | nil =>
      exfalso
      exact h (List.append_eq_nil.mp hl).2
    | cons b l =>
      rw [List.cons_append, hl, modifyLast, ← hl, ih, List.cons_append]

/-- Changing the last element keeps a list non-empty. -/
theorem modifyLast_ne_nil (g : ConfigNode → ConfigNode) :
    ∀ (cs : List ConfigNode), cs ≠ [] → modifyLast g cs ≠ [] := by
  intro cs h
  cases cs with
  | nil => exact absurd rfl h
  | cons a l =>
    cases l with
    | nil => simp [modifyLast]
    | cons b l => simp [modifyLast]

/-- Attaching a child commutes with the earlier nodes. -/
theorem adopt_withEarlier (pre : List ConfigNode) (n child : ConfigNode) :
    (withEarlier pre n).adopt child = withEarlier pre (n.adopt child) := by
  simp [withEarlier, ConfigNode.adopt, ConfigNode.setParent, ConfigNode.getName,
    ConfigNode.getValue, ConfigNode.getChildren, ConfigNode.getDepth, ConfigNode.getType]

/-- A change at the cursor commutes with the earlier nodes. -/
theorem atCursor_withEarlier (pre : List ConfigNode) (f : ConfigNode → ConfigNode)
    (hf : ∀ n, f (withEarlier pre n) = withEarlier pre (f n)) (r : ConfigNode) (d : Nat)
    (h : d ≠ 0 → r.getChildren ≠ []) :
    atCursor d f (withEarlier pre r) = withEarlier pre (atCursor d f r) := by
  cases d with
  | zero => exact hf r
  | succ d =>
    have hne := h (Nat.succ_ne_zero d)
    show ConfigNode.mk r.getName r.getValue (modifyLast (atCursor d f) (pre ++ r.getChildren))
        r.getDepth r.getType
      = ConfigNode.mk r.getName r.getValue (pre ++ modifyLast (atCursor d f) r.getChildren)
        r.getDepth r.getType
    rw [modifyLast_append _ pre _ hne]

/-- The name at the cursor does not depend on the earlier nodes. -/
theorem cursorName_withEarlier (pre : List ConfigNode) (r : ConfigNode) (d : Nat)
    (h : d ≠ 0 → r.getChildren ≠ []) :
    cursorName d (withEarlier pre r) = cursorName d r := by
  cases d with
  | zero => rfl
  | succ d =>
    have hne := h (Nat.succ_ne_zero d)
    show (match (pre ++ r.getChildren).getLast? with
        | none => ""
        | some child => cursorName d child)
      = (match r.getChildren.getLast? with
        | none => ""
        | some child => cursorName d child)
    rw [List.getLast?_append_of_ne_nil pre hne]

/-- A change at the cursor below the root keeps the children of the root non-empty,
and attaching a child at the root makes them non-empty. -/
theorem atCursor_children_ne_nil (child : ConfigNode) (r : ConfigNode) (d : Nat)
    (h : d ≠ 0 → r.getChildren ≠ []) :
    (atCursor d (fun n => n.adopt child) r).getChildren ≠ [] := by
  cases d with
  | zero => simp [atCursor, ConfigNode.adopt, ConfigNode.getChildren]
  | succ d =>
    exact modifyLast_ne_nil _ _ (h (Nat.succ_ne_zero d))

/-- What `Open` says for a cursor `d`. -/
theorem open_some (line : List Char) (chrPos : Int) (root : ConfigNode) (d : Nat)
    (fname : String)
    (h : Scanner.Open
      { line := line, chrPos := chrPos, root := root, currentNode := some d,
        filename := fname }) :
    d ≠ 0 → root.getChildren ≠ [] := by
  intro hd
  cases d with
  | zero => exact absurd rfl hd
  | succ d => exact h d rfl

/-- The case `'#'` does the same on a root with earlier nodes. -/
theorem commentCase_shift (pre : List ConfigNode) (s : Scanner) (h : s.Open) :
    commentCase (s.shift pre) = Except.map (Scanner.shift pre) (commentCase s) := by
  obtain ⟨line, chrPos, root, cur, fname⟩ := s
  cases cur with
  | none => rfl
  | some d =>
    have hd := open_some line chrPos root d fname h
    simp only [commentCase, Scanner.shift, Except.map]
    rw [atCursor_withEarlier pre _ (fun n => adopt_withEarlier pre n _) root d hd]

/-- The tag cases do the same on a root with earlier nodes. -/
theorem tagCase_shift (pre : List ConfigNode) (linePos : Int) (s : Scanner) (h : s.Open) :
    tagCase linePos (s.shift pre) = Except.map (Scanner.shift pre) (tagCase linePos s) := by
  obtain ⟨line, chrPos, root, cur, fname⟩ := s
  cases cur with
  | none =>
    simp only [tagCase, Scanner.shift]
    repeat' split
    all_goals rfl
  | some d =>
    have hd := open_some line chrPos root d fname h
    simp only [tagCase, Scanner.shift]
    rw [cursorName_withEarlier pre root d hd]
    cases findCloser line with
    | none => rfl
    | some e =>
      simp only []
      rw [atCursor_withEarlier pre (fun n => n.create _)
        (fun n => adopt_withEarlier pre n _) root d hd]
      repeat' split
      all_goals rfl

/-- The default case does the same on a root with earlier nodes. -/
theorem defaultCase_shift (pre : List ConfigNode) (c : Char) (s : Scanner) (h : s.Open) :
    defaultCase c (s.shift pre) = Except.map (Scanner.shift pre) (defaultCase c s) := by
  obtain ⟨line, chrPos, root, cur, fname⟩ := s
  cases cur with
  | none =>
    simp only [defaultCase, Scanner.shift]
    repeat' split
    all_goals rfl
  | some d =>
    have hd := open_some line chrPos root d fname h
    simp only [defaultCase, Scanner.shift]
    rw [atCursor_withEarlier pre (fun n => n.createLeaf _ _)
      (fun n => adopt_withEarlier pre n _) root d hd]
    repeat' split
    all_goals rfl

/-- One execution of the switch does the same on a root with earlier nodes. -/
theorem switchStep_shift (pre : List ConfigNode) (linePos : Int) (c : Char) (s : Scanner)
    (h : s.Open) :
    switchStep linePos c (s.shift pre)
      = Except.map (Scanner.shift pre) (switchStep linePos c s) := by
  unfold switchStep
  split
  · exact commentCase_shift pre s h
  · split
    · exact tagCase_shift pre linePos s h
    · exact defaultCase_shift pre c s h

/-- One execution of the switch keeps the cursor in a child of the root. -/
theorem switchStep_open (linePos : Int) (c : Char) (s t : Scanner) (h : s.Open)
    (hstep : switchStep linePos c s = Except.ok t) : t.Open := by
  obtain ⟨line, chrPos, root, cur, fname⟩ := s
  cases cur with
  | none =>
    unfold switchStep at hstep
    split at hstep
    · cases hstep
    · split at hstep
      · simp only [tagCase] at hstep
        repeat' split at hstep
        all_goals cases hstep
      · simp only [defaultCase] at hstep
        split at hstep
        · cases hstep
        · cases hstep
          intro d hd
          cases hd
  | some d =>
    have hd := open_some line chrPos root d fname h
    unfold switchStep at hstep
    split at hstep
    · simp only [commentCase] at hstep
      cases hstep
      intro e _
      exact atCursor_children_ne_nil (ConfigNode.newTyped _ _) root d hd
    · split at hstep
      · simp only [tagCase] at hstep
        cases hfc : findCloser line with
        | none => rw [hfc] at hstep; cases hstep
        | some e =>
          rw [hfc] at hstep
          simp only [] at hstep
          split at hstep
          · cases hstep
          · split at hstep
            · cases hstep
            · split at hstep
              · split at hstep
                · cases hstep
                · cases hstep
                  intro e' he'
                  cases d with
                  | zero => cases he'
                  | succ d => exact hd (Nat.succ_ne_zero d)
              · cases hstep
                intro e' _
                exact atCursor_children_ne_nil (ConfigNode.newNode _) root d hd
      · simp only [defaultCase] at hstep
        split at hstep
        · rw [← Except.ok.inj hstep]
          intro e' _
          exact atCursor_children_ne_nil (ConfigNode.newLeaf _ _) root d hd
        · rw [← Except.ok.inj hstep]
          exact h

/-- The result of `Except.map` on a value. -/
theorem except_map_ok {ε α β : Type} (f : α → β) (a : α) :
    Except.map f (Except.ok a : Except ε α) = Except.ok (f a) := rfl

/-- The scan loop over one line does the same on a root with earlier nodes. -/
theorem lineLoop_shift (pre : List ConfigNode) (linePos lineLen : Int) (fuel : Nat) :
    ∀ (s t : Scanner), s.Open → lineLoop linePos lineLen fuel s = Except.ok t →
      lineLoop linePos lineLen fuel (s.shift pre) = Except.ok (t.shift pre) ∧ t.Open := by
  induction fuel with
  | zero =>
    intro s t ho h
    have e1 : (s.shift pre).chrPos = s.chrPos := rfl
    have e2 : (s.shift pre).line = s.line := rfl
    rw [lineLoop] at h
    rw [lineLoop, e1, e2]
    by_cases hc : s.chrPos < lineLen - 1
    · rw [if_pos hc] at h ⊢
      cases hl : s.line with
      | nil =>
        rw [hl] at h
        have ht : s = t := Except.ok.inj h
        rw [← ht]
        exact ⟨rfl, ho⟩
      | cons c cs =>
        rw [hl] at h
        cases h
    · rw [if_neg hc] at h ⊢
      have ht : s = t := Except.ok.inj h
      rw [← ht]
      exact ⟨rfl, ho⟩
  | succ fuel ih =>
    intro s t ho h
    have e1 : (s.shift pre).chrPos = s.chrPos := rfl
    have e2 : (s.shift pre).line = s.line := rfl
    rw [lineLoop] at h
    rw [lineLoop, e1, e2]
    by_cases hc : s.chrPos < lineLen - 1
    · rw [if_pos hc] at h ⊢
      cases hl : s.line with
      | nil =>
        rw [hl] at h
        have ht : s = t := Except.ok.inj h
        rw [← ht]
        exact ⟨rfl, ho⟩
      | cons c cs =>
        rw [hl] at h
        simp only [] at h ⊢
        cases hs : switchStep linePos c s with
        | error e => rw [hs] at h; cases h
        | ok s1 =>
          rw [hs] at h
          obtain ⟨ih1, ih2⟩ := ih s1 t (switchStep_open linePos c s s1 ho hs) h
          refine ⟨?_, ih2⟩
          rw [switchStep_shift pre linePos c s ho, hs, except_map_ok]
          exact ih1
    · rw [if_neg hc] at h ⊢
      have ht : s = t := Except.ok.inj h
      rw [← ht]
      exact ⟨rfl, ho⟩

/-- The loop over the lines does the same on a root with earlier nodes. -/
theorem lineStream_shift (pre : List ConfigNode) (fuel : Nat) (texts : List (List Char)) :
    ∀ (linePos : Int) (s : Scanner) (r : Int × Scanner), s.Open →
      lineStream fuel texts linePos s = Except.ok r →
      lineStream fuel texts linePos (s.shift pre) = Except.ok (r.1, r.2.shift pre)
        ∧ r.2.Open := by
  induction texts with
  | nil =>
    intro linePos s r ho h
    rw [lineStream] at h ⊢
    have hr : (linePos, s) = r := Except.ok.inj h
    rw [← hr]
    exact ⟨rfl, ho⟩
  | cons text texts ih =>
    intro linePos s r ho h
    cases hl : lineLoop (toInt (linePos + 1)) (toInt (trimLeft text).length) fuel
        { s with line := trimLeft text, chrPos := 1 } with
    | error e =>
      rw [lineStream] at h
      rw [hl] at h
      cases h
    | ok s1 =>
      rw [lineStream_cons_ok fuel text texts linePos s s1 hl] at h
      have hopen : Scanner.Open { s with line := trimLeft text, chrPos := 1 } := ho
      obtain ⟨h1, h2⟩ := lineLoop_shift pre (toInt (linePos + 1))
        (toInt (trimLeft text).length) fuel _ s1 hopen hl
      obtain ⟨ih1, ih2⟩ := ih (toInt (linePos + 1)) s1 r h2 h
      refine ⟨?_, ih2⟩
      rw [lineStream_cons_ok fuel text texts linePos (s.shift pre) (s1.shift pre) h1]
      exact ih1

/-- What one execution of the switch does to the tree: nothing, or it attaches one new
node without children at the cursor, and a new leaf holds a string. -/
theorem switchStep_root (linePos : Int) (c : Char) (s t : Scanner)
    (hstep : switchStep linePos c s = Except.ok t) :
    (t.root = s.root ∧
        (t.currentNode = s.currentNode ∨
          ∃ d, s.currentNode = some d ∧ t.currentNode = cursorParent d)) ∨
      ∃ d child, s.currentNode = some d ∧
        t.root = atCursor d (fun n => n.adopt child) s.root ∧
        child.getChildren = [] ∧
        (child.getType = NodeType.Leaf → ∃ v, child.getValue = BoostAny.str v) ∧
        (t.currentNode = some d ∨ (t.currentNode = some (d + 1) ∧ child.getType = NodeType.Node))
      := by
  obtain ⟨line, chrPos, root, cur, fname⟩ := s
  cases cur with
  | none =>
    unfold switchStep at hstep
    split at hstep
    · cases hstep
    · split at hstep
      · simp only [tagCase] at hstep
        repeat' split at hstep
        all_goals cases hstep
      · simp only [defaultCase] at hstep
        split at hstep
        · cases hstep
        · rw [← Except.ok.inj hstep]
          exact Or.inl ⟨rfl, Or.inl rfl⟩
  | some d =>
    unfold switchStep at hstep
    split at hstep
    · simp only [commentCase] at hstep
      rw [← Except.ok.inj hstep]
      exact Or.inr ⟨d, ConfigNode.newTyped NodeType.Comment _, rfl, rfl, rfl,
        (fun h => by cases h), Or.inl rfl⟩
    · split at hstep
      · simp only [tagCase] at hstep
        cases hfc : findCloser line with
        | none => rw [hfc] at hstep; cases hstep
        | some e =>
          rw [hfc] at hstep
          simp only [] at hstep
          split at hstep
          · cases hstep
          · split at hstep
            · cases hstep
            · split at hstep
              · split at hstep
                · cases hstep
                · rw [← Except.ok.inj hstep]
                  refine Or.inl ⟨rfl, Or.inr ⟨d, rfl, ?_⟩⟩
                  cases d <;> rfl
              · rw [← Except.ok.inj hstep]
                exact Or.inr ⟨d, ConfigNode.newNode _, rfl, rfl, rfl, (fun h => by cases h),
                  Or.inr ⟨rfl, rfl⟩⟩
      · simp only [defaultCase] at hstep
        split at hstep
        · rw [← Except.ok.inj hstep]
          exact Or.inr ⟨d, ConfigNode.newLeaf _ (BoostAny.str _), rfl, rfl, rfl,
            fun _ => ⟨_, rfl⟩, Or.inl rfl⟩
        · rw [← Except.ok.inj hstep]
          exact Or.inl ⟨rfl, Or.inl rfl⟩

/-- A property of the tree and the cursor that every execution of the switch keeps is
kept by the scan loop over one line. -/
theorem lineLoop_invariant (Q : ConfigNode → Option Nat → Prop)
    (hQ : ∀ (linePos : Int) (c : Char) (s t : Scanner), Q s.root s.currentNode →
      switchStep linePos c s = Except.ok t → Q t.root t.currentNode)
    (linePos lineLen : Int) (fuel : Nat) :
    ∀ (s t : Scanner), Q s.root s.currentNode →
      lineLoop linePos lineLen fuel s = Except.ok t → Q t.root t.currentNode := by
  induction fuel with
  | zero =>
    intro s t hq h
    rw [lineLoop] at h
    split at h
    · split at h
      · rw [← Except.ok.inj h]; exact hq
      · cases h
    · rw [← Except.ok.inj h]; exact hq
  | succ fuel ih =>
    intro s t hq h
    rw [lineLoop] at h
    split at h
    · split at h
      · rw [← Except.ok.inj h]; exact hq
      · rename_i c cs hline
        cases hs : switchStep linePos c s with
        | error e => rw [hs] at h; cases h
        | ok s1 =>
          rw [hs] at h
          exact ih s1 t (hQ linePos c s s1 hq hs) h
    · rw [← Except.ok.inj h]; exact hq

/-- A property of the tree and the cursor that every execution of the switch keeps is
kept by the loop over the lines. -/
theorem lineStream_invariant (Q : ConfigNode → Option Nat → Prop)
    (hQ : ∀ (linePos : Int) (c : Char) (s t : Scanner), Q s.root s.currentNode →
      switchStep linePos c s = Except.ok t → Q t.root t.currentNode)
    (fuel : Nat) (texts : List (List Char)) :
    ∀ (linePos : Int) (s : Scanner) (r : Int × Scanner), Q s.root s.currentNode →
      lineStream fuel texts linePos s = Except.ok r → Q r.2.root r.2.currentNode := by
  induction texts with
  | nil =>
    intro linePos s r hq h
    rw [lineStream] at h
    rw [← Except.ok.inj h]
    exact hq
  | cons text texts ih =>
    intro linePos s r hq h
    cases hl : lineLoop (toInt (linePos + 1)) (toInt (trimLeft text).length) fuel
        { s with line := trimLeft text, chrPos := 1 } with
    | error e =>
      rw [lineStream] at h
      rw [hl] at h
      cases h
    | ok s1 =>
      rw [lineStream_cons_ok fuel text texts linePos s s1 hl] at h
      exact ih (toInt (linePos + 1)) s1 r
        (lineLoop_invariant Q hQ _ _ fuel { s with line := trimLeft text, chrPos := 1 } s1 hq hl)
        h

/-- A property of the tree and the cursor that every execution of the switch keeps
holds, with the cursor at the root, for the tree that `load` returns. -/
theorem load_invariant (Q : ConfigNode → Option Nat → Prop)
    (hQ : ∀ (linePos : Int) (c : Char) (s t : Scanner), Q s.root s.currentNode →
      switchStep linePos c s = Except.ok t → Q t.root t.currentNode)
    (fuel : Nat) (c c' : Configuration) (filename content : String)
    (hq : Q c.configRoot (some 0))
    (h : Configuration.load fuel c filename content = Except.ok c') :
    Q c'.configRoot (some 0) := by
  unfold Configuration.load at h
  cases hs : lineStream fuel (splitChar '\n' content.data) 0
      { line := [], chrPos := 0, root := c.configRoot, currentNode := some 0,
        filename := filename } with
  | error e => rw [hs] at h; cases h
  | ok r =>
    rw [hs] at h
    have hr := lineStream_invariant Q hQ fuel _ 0 _ r hq hs
    obtain ⟨linePos, s⟩ := r
    simp only at h hr
    by_cases hc : s.currentNode ≠ some 0
    · rw [if_pos hc] at h; cases h
    · rw [if_neg hc] at h
      rw [← Except.ok.inj h]
      rw [not_not.mp hc] at hr
      exact hr

/-- A change at the cursor that attaches a child keeps the fields of the root. -/
theorem atCursor_adopt_shell (child r : ConfigNode) (d : Nat) :
    (atCursor d (fun n => n.adopt child) r).getName = r.getName ∧
    (atCursor d (fun n => n.adopt child) r).getValue = r.getValue ∧
    (atCursor d (fun n => n.adopt child) r).getDepth = r.getDepth ∧
    (atCursor d (fun n => n.adopt child) r).getType = r.getType := by
  cases d <;> exact ⟨rfl, rfl, rfl, rfl⟩

/-- The root keeps its name, value, depth and kind in `load`. -/
theorem load_root_shell (fuel : Nat) (c c' : Configuration) (filename content : String)
    (h : Configuration.load fuel c filename content = Except.ok c') :
    c'.configRoot.getName = c.configRoot.getName ∧
    c'.configRoot.getValue = c.configRoot.getValue ∧
    c'.configRoot.getDepth = c.configRoot.getDepth ∧
    c'.configRoot.getType = c.configRoot.getType := by
  refine load_invariant
    (fun r _ => r.getName = c.configRoot.getName ∧ r.getValue = c.configRoot.getValue ∧
      r.getDepth = c.configRoot.getDepth ∧ r.getType = c.configRoot.getType)
    ?_ fuel c c' filename content ⟨rfl, rfl, rfl, rfl⟩ h
  intro linePos ch s t hq hstep
  rcases switchStep_root linePos ch s t hstep with ⟨hroot, _⟩ | ⟨d, child, _, hroot, _⟩
  · rw [hroot]; exact hq
  · rw [hroot]
    obtain ⟨h1, h2, h3, h4⟩ := atCursor_adopt_shell child s.root d
    exact ⟨h1.trans hq.1, h2.trans hq.2.1, h3.trans hq.2.2.1, h4.trans hq.2.2.2⟩

/-- Loading into a root that holds the nodes `pre`: `load` does what it does on the
root without them, and the nodes `pre` stay in front. -/
theorem load_shift (pre : List ConfigNode) (fuel : Nat) (c cB : Configuration)
    (f0 filename content : String)
    (h : Configuration.load fuel c filename content = Except.ok cB) :
    Configuration.load fuel { filename := f0, configRoot := withEarlier pre c.configRoot }
        filename content
      = Except.ok { filename := filename, configRoot := withEarlier pre cB.configRoot } := by
  unfold Configuration.load at h ⊢
  cases hs : lineStream fuel (splitChar '\n' content.data) 0
      { line := [], chrPos := 0, root := c.configRoot, currentNode := some 0,
        filename := filename } with
  | error e => rw [hs] at h; cases h
  | ok r =>
    rw [hs] at h
    have hopen : Scanner.Open
        { line := [], chrPos := 0, root := c.configRoot, currentNode := some 0,
          filename := filename } := by
      intro d hd
      cases hd
    have h1 : lineStream fuel (splitChar '\n' content.data) 0
        { line := [], chrPos := 0, root := withEarlier pre c.configRoot,
          currentNode := some 0, filename := filename }
        = Except.ok (r.1, r.2.shift pre) :=
      (lineStream_shift pre fuel _ 0 _ r hopen hs).1
    rw [h1]
    obtain ⟨linePos, s⟩ := r
    simp only at h ⊢
    have hcur : (s.shift pre).currentNode = s.currentNode := rfl
    rw [hcur]
    by_cases hc : s.currentNode ≠ some 0
    · rw [if_pos hc] at h; cases h
    · rw [if_neg hc] at h ⊢
      rw [← Except.ok.inj h]
      rfl

/-- C20, as stated, fails: `load` never clears the tree. Loading the text `[a]`,
`[!a]` into a configuration loaded from the same text gives a root with two sections
`a`, while a fresh configuration gets one. -/
theorem load_twice_keeps_first :
    Configuration.load 1 Configuration.new "" sectionText
      = Except.ok { filename := "", configRoot := sectionTree } ∧
    Configuration.load 1 { filename := "", configRoot := sectionTree } "" sectionText
      = Except.ok { filename := "", configRoot := sectionTwiceTree } ∧
    Configuration.load 1 { filename := "", configRoot := sectionTree } "" sectionText
      ≠ Configuration.load 1 Configuration.new "" sectionText := by
  refine ⟨by decide!, by decide!, by decide!⟩

/-- C20, amended: for all texts `A` and `B` that load into a fresh configuration,
loading `B` into the configuration loaded from `A` succeeds and yields the root with
the children of `A` followed by the children that `B` gives a fresh configuration:
the prior content is kept and the new nodes are appended behind it. -/
theorem load_appends_to_prior_content (fuelA fuelB : Nat) (fnA fnB A B : String)
    (cA cB : Configuration)
    (hA : Configuration.load fuelA Configuration.new fnA A = Except.ok cA)
    (hB : Configuration.load fuelB Configuration.new fnB B = Except.ok cB) :
    Configuration.load fuelB cA fnB B
      = Except.ok
        { filename := fnB,
          configRoot := ConfigNode.mk "root" BoostAny.empty
            (cA.configRoot.getChildren ++ cB.configRoot.getChildren) 0 NodeType.Node } := by
  have hshift := load_shift cA.configRoot.getChildren fuelB Configuration.new cB cA.filename
    fnB B hB
  obtain ⟨a1, a2, a3, a4⟩ := load_root_shell fuelA Configuration.new cA fnA A hA
  obtain ⟨b1, b2, b3, b4⟩ := load_root_shell fuelB Configuration.new cB fnB B hB
  have hcA : cA = Configuration.mk cA.filename
      (withEarlier cA.configRoot.getChildren (ConfigNode.newNode "root")) := by
    obtain ⟨fa, ra⟩ := cA
    obtain ⟨n, v, ch, dp, ty⟩ := ra
    simp only [ConfigNode.getName, ConfigNode.getValue, ConfigNode.getDepth,
      ConfigNode.getType] at a1 a2 a3 a4
    subst a1 a2 a3 a4
    simp [withEarlier, Configuration.new, ConfigNode.newNode, ConfigNode.getName,
      ConfigNode.getValue, ConfigNode.getChildren, ConfigNode.getDepth, ConfigNode.getType]
  have hcB : withEarlier cA.configRoot.getChildren cB.configRoot
      = ConfigNode.mk "root" BoostAny.empty
        (cA.configRoot.getChildren ++ cB.configRoot.getChildren) 0 NodeType.Node := by
    unfold withEarlier
    rw [b1, b2, b3, b4]
    rfl
  rw [hcB] at hshift
  have hload : Configuration.load fuelB cA fnB B
      = Configuration.load fuelB (Configuration.mk cA.filename
        (withEarlier cA.configRoot.getChildren (ConfigNode.newNode "root"))) fnB B :=
    congrArg (fun c => Configuration.load fuelB c fnB B) hcA
  rw [hload]
  exact hshift

/-- C20, amended, on the texts `[a]`, `[!a]` and `[a]`, `# note`, `x = 1`, `[!a]`. -/
theorem load_appends_to_prior_content_witness :
    Configuration.load 1 Configuration.new "" sectionText
      = Except.ok { filename := "", configRoot := sectionTree } ∧
    Configuration.load 1 Configuration.new "" renderText
      = Except.ok { filename := "", configRoot := renderTree } ∧
    Configuration.load 1 { filename := "", configRoot := sectionTree } "" renderText
      = Except.ok
        { filename := "",
          configRoot := ConfigNode.mk "root" BoostAny.empty
            ((Configuration.mk "" sectionTree).configRoot.getChildren
              ++ (Configuration.mk "" renderTree).configRoot.getChildren) 0 NodeType.Node } :=
  ⟨by decide!, by decide!,
    load_appends_to_prior_content 1 1 "" "" sectionText renderText
      { filename := "", configRoot := sectionTree } { filename := "", configRoot := renderTree }
      (by decide!) (by decide!)⟩

/-! ## `load` builds well-formed trees -/

/-- Well-formed children, on a concatenation. -/
theorem wellFormedChildren_append (k : Nat) (xs ys : List ConfigNode) :
    wellFormedChildren k (xs ++ ys) = (wellFormedChildren k xs && wellFormedChildren k ys) := by
  induction xs with
  | nil => simp [wellFormedChildren]
  | cons x xs ih => simp [wellFormedChildren, ih, Bool.and_assoc]

/-- Changing the last child by a function that keeps it well-formed. -/
theorem wellFormedChildren_modifyLast (k : Nat) (g : ConfigNode → ConfigNode) :
    ∀ (cs : List ConfigNode), wellFormedChildren k cs = true →
      (∀ c, cs.getLast? = some c → wellFormedFrom k c = true → wellFormedFrom k (g c) = true) →
      wellFormedChildren k (modifyLast g cs) = true := by
  intro cs
  induction cs with
  | nil => intro h _; exact h
  | cons a l ih =>
    intro h hg
    cases l with
    | nil =>
      simp only [wellFormedChildren, Bool.and_true] at h
      simp only [modifyLast, wellFormedChildren, Bool.and_true]
      exact hg a rfl h
    | cons b l =>
      rw [wellFormedChildren] at h
      simp only [Bool.and_eq_true] at h
      rw [modifyLast, wellFormedChildren]
      simp only [Bool.and_eq_true]
      refine ⟨h.1, ih h.2 ?_⟩
      intro c hc
      exact hg c (by rw [List.getLast?_cons_cons]; exact hc)

/-- The last element after changing the last element. -/
theorem getLast?_modifyLast (g : ConfigNode → ConfigNode) :
    ∀ (cs : List ConfigNode), (modifyLast g cs).getLast? = cs.getLast?.map g := by
  intro cs
  induction cs with
  | nil => rfl
  | cons a l ih =>
    cases l with
    | nil => rfl
    | cons b l =>
      rw [modifyLast, List.getLast?_cons_cons]
      cases hm : modifyLast g (b :: l) with
      | nil => exact absurd hm (modifyLast_ne_nil g (b :: l) (List.cons_ne_nil _ _))
      | cons y ys =>
        rw [List.getLast?_cons_cons, ← hm]
        exact ih

/-- A new node without children, attached below a section of depth `k`, is
well-formed. -/
theorem wellFormedFrom_setParent (k : Nat) (child parent : ConfigNode)
    (hdepth : parent.getDepth = k) (hch : child.getChildren = [])
    (hleaf : child.getType = NodeType.Leaf → ∃ v, child.getValue = BoostAny.str v) :
    wellFormedFrom (k + 1) (child.setParent parent) = true := by
  obtain ⟨n, v, ch, dp, ty⟩ := child
  simp only [ConfigNode.getChildren] at hch
  subst hch
  simp only [ConfigNode.getType, ConfigNode.getValue] at hleaf
  unfold ConfigNode.setParent
  unfold wellFormedFrom
  simp only [ConfigNode.getName, ConfigNode.getValue, ConfigNode.getChildren,
    ConfigNode.getType, hdepth, decide_True, Bool.true_and]
  cases ty with
  | Node => rfl
  | Leaf =>
    obtain ⟨s, hs⟩ := hleaf rfl
    rw [hs]
    rfl
  | Comment => rfl

/-- Attaching a new node at the cursor keeps the tree well-formed. -/
theorem wellFormedFrom_atCursor (child : ConfigNode) (hch : child.getChildren = [])
    (hleaf : child.getType = NodeType.Leaf → ∃ v, child.getValue = BoostAny.str v) (d : Nat) :
    ∀ (k : Nat) (r : ConfigNode), wellFormedFrom k r = true → sectionPath d r →
      wellFormedFrom k (atCursor d (fun n => n.adopt child) r) = true := by
  induction d with
  | zero =>
    intro k r hwf hsec
    have hnew := wellFormedFrom_setParent k child r
    obtain ⟨n, v, ch, dp, ty⟩ := r
    simp only [sectionPath, ConfigNode.getType] at hsec
    subst hsec
    unfold wellFormedFrom at hwf
    simp only [Bool.and_eq_true, decide_eq_true_eq] at hwf
    simp only [atCursor, ConfigNode.adopt, ConfigNode.getName, ConfigNode.getValue,
      ConfigNode.getChildren, ConfigNode.getDepth, ConfigNode.getType]
    unfold wellFormedFrom
    simp only [Bool.and_eq_true, decide_eq_true_eq]
    refine ⟨hwf.1, ?_⟩
    rw [wellFormedChildren_append, hwf.2, Bool.true_and, wellFormedChildren,
      wellFormedChildren, Bool.and_true]
    exact hnew hwf.1 hch hleaf
  | succ d ih =>
    intro k r hwf hsec
    obtain ⟨n, v, ch, dp, ty⟩ := r
    simp only [sectionPath, ConfigNode.getType, ConfigNode.getChildren] at hsec
    obtain ⟨hty, hlast⟩ := hsec
    subst hty
    unfold wellFormedFrom at hwf
    simp only [Bool.and_eq_true, decide_eq_true_eq] at hwf
    simp only [atCursor, ConfigNode.getName, ConfigNode.getValue,
      ConfigNode.getChildren, ConfigNode.getDepth, ConfigNode.getType]
    unfold wellFormedFrom
    simp only [Bool.and_eq_true, decide_eq_true_eq]
    refine ⟨hwf.1, wellFormedChildren_modifyLast (k + 1) _ ch hwf.2 ?_⟩
    intro c hc hcwf
    exact ih (k + 1) c hcwf (hlast c hc)

/-- The way to the cursor after a new node is attached there. -/
theorem sectionPath_atCursor (child : ConfigNode) (d : Nat) :
    ∀ (r : ConfigNode), sectionPath d r →
      sectionPath d (atCursor d (fun n => n.adopt child) r) := by
  induction d with
  | zero =>
    intro r h
    exact h
  | succ d ih =>
    intro r h
    refine ⟨h.1, ?_⟩
    intro c hc
    have hc' : (modifyLast (atCursor d (fun n => n.adopt child)) r.getChildren).getLast?
        = some c := hc
    rw [getLast?_modifyLast] at hc'
    cases hl : r.getChildren.getLast? with
    | none => rw [hl] at hc'; cases hc'
    | some c0 =>
      rw [hl] at hc'
      rw [← Option.some.inj hc']
      exact ih c0 (h.2 c0 hl)

/-- The way to the new section after it is attached at the cursor. -/
theorem sectionPath_atCursor_open (child : ConfigNode) (hty : child.getType = NodeType.Node)
    (d : Nat) :
    ∀ (r : ConfigNode), sectionPath d r →
      sectionPath (d + 1) (atCursor d (fun n => n.adopt child) r) := by
  induction d with
  | zero =>
    intro r h
    refine ⟨h, ?_⟩
    intro c hc
    have hc' : (r.getChildren ++ [child.setParent r]).getLast? = some c := hc
    rw [List.getLast?_append_of_ne_nil _ (List.cons_ne_nil _ _)] at hc'
    rw [← Option.some.inj hc']
    exact hty
  | succ d ih =>
    intro r h
    refine ⟨h.1, ?_⟩
    intro c hc
    have hc' : (modifyLast (atCursor d (fun n => n.adopt child)) r.getChildren).getLast?
        = some c := hc
    rw [getLast?_modifyLast] at hc'
    cases hl : r.getChildren.getLast? with
    | none => rw [hl] at hc'; cases hc'
    | some c0 =>
      rw [hl] at hc'
      rw [← Option.some.inj hc']
      exact ih c0 (h.2 c0 hl)

/-- The way to the parent of the cursor. -/
theorem sectionPath_parent (d : Nat) :
    ∀ (r : ConfigNode), sectionPath (d + 1) r → sectionPath d r := by
  induction d with
  | zero => intro r h; exact h.1
  | succ d ih =>
    intro r h
    exact ⟨h.1, fun c hc => ih c (h.2 c hc)⟩

/-- Every tree that `load` returns is well-formed when the tree it started from is: the
depth counter of every node is its distance from the root, every leaf holds a string,
and leaves and comments have no children. -/
theorem load_wellFormed (fuel : Nat) (c c' : Configuration) (filename content : String)
    (hwf : wellFormedFrom 0 c.configRoot = true) (hroot : c.configRoot.getType = NodeType.Node)
    (h : Configuration.load fuel c filename content = Except.ok c') :
    wellFormedFrom 0 c'.configRoot = true := by
  refine (load_invariant
    (fun r cur => wellFormedFrom 0 r = true ∧ ∀ d, cur = some d → sectionPath d r)
    ?_ fuel c c' filename content ⟨hwf, ?_⟩ h).1
  · intro linePos ch s t hq hstep
    obtain ⟨hq1, hq2⟩ := hq
    rcases switchStep_root linePos ch s t hstep with
      ⟨hr, hcur⟩ | ⟨d, child, hs, hr, hchildren, hleaf, hcur⟩
    · rw [hr]
      refine ⟨hq1, ?_⟩
      rcases hcur with hcur | ⟨d, hs, hcur⟩
      · rw [hcur]; exact hq2
      · intro e he
        rw [hcur] at he
        cases d with
        | zero => cases he
        | succ d =>
          have : d = e := Option.some.inj he
          rw [← this]
          exact sectionPath_parent d s.root (hq2 (d + 1) hs)
    · rw [hr]
      have hsec := hq2 d hs
      refine ⟨wellFormedFrom_atCursor child hchildren hleaf d 0 s.root hq1 hsec, ?_⟩
      intro e he
      rcases hcur with hcur | ⟨hcur, hty⟩
      · rw [hcur] at he
        rw [← Option.some.inj he]
        exact sectionPath_atCursor child d s.root hsec
      · rw [hcur] at he
        rw [← Option.some.inj he]
        exact sectionPath_atCursor_open child hty d s.root hsec
  · intro d hd
    rw [← Option.some.inj hd]
    exact hroot

/-- Every tree that `load` builds from the fresh configuration is well-formed. -/
theorem load_new_wellFormed (fuel : Nat) (c' : Configuration) (filename content : String)
    (h : Configuration.load fuel Configuration.new filename content = Except.ok c') :
    wellFormedFrom 0 c'.configRoot = true :=
  load_wellFormed fuel Configuration.new c' filename content (by decide) rfl h

/-! ## The frame of `set` -/

/-- The body of the loop of `set` changes the value only. -/
theorem eraseValues_setLeaf (v : BoostAny) (r : ConfigNode) :
    eraseValues (setLeaf v r) = eraseValues r := by
  obtain ⟨n, val, ch, d, t⟩ := r
  unfold setLeaf
  split
  · simp [ConfigNode.setValue, eraseValues, ConfigNode.getName, ConfigNode.getChildren,
      ConfigNode.getDepth, ConfigNode.getType]
  · rfl

/-- Changing one child by a function that changes values only. -/
theorem eraseValuesList_modifyNth (g : ConfigNode → ConfigNode)
    (hg : ∀ c, eraseValues (g c) = eraseValues c) :
    ∀ (cs : List ConfigNode) (i : Nat),
      eraseValuesList (modifyNth g i cs) = eraseValuesList cs := by
  intro cs
  induction cs with
  | nil => intro i; cases i <;> rfl
  | cons c cs ih =>
    intro i
    cases i with
    | zero => rw [modifyNth, eraseValuesList, eraseValuesList, hg]
    | succ i => rw [modifyNth, eraseValuesList, eraseValuesList, ih]

/-- The body of the loop of `set`, applied at a position, changes values only. -/
theorem eraseValues_modifyAt (v : BoostAny) (p : List Nat) :
    ∀ (r : ConfigNode), eraseValues (modifyAt p (setLeaf v) r) = eraseValues r := by
  induction p with
  | nil => intro r; exact eraseValues_setLeaf v r
  | cons i p ih =>
    intro r
    obtain ⟨n, val, ch, d, t⟩ := r
    simp only [modifyAt, ConfigNode.getName, ConfigNode.getValue, ConfigNode.getChildren,
      ConfigNode.getDepth, ConfigNode.getType]
    rw [eraseValues, eraseValues, eraseValuesList_modifyNth _ ih]

/-- The loop of `set` changes values only. -/
theorem eraseValues_foldl (v : BoostAny) (ps : List (List Nat)) :
    ∀ (r : ConfigNode),
      eraseValues (ps.foldl (fun root p => modifyAt p (setLeaf v) root) r) = eraseValues r := by
  induction ps with
  | nil => intro r; rfl
  | cons p ps ih =>
    intro r
    rw [List.foldl_cons, ih, eraseValues_modifyAt]

mutual
/-- The number of nodes of a kind does not depend on the values. -/
theorem countType_eraseValues (t : NodeType) :
    ∀ (r : ConfigNode), countType t (eraseValues r) = countType t r
  | ConfigNode.mk n val ch d ty => by
    rw [eraseValues, countType, countType, countTypeList_eraseValues t ch]
/-- The number of nodes of a kind in a list of trees does not depend on the values. -/
theorem countTypeList_eraseValues (t : NodeType) :
    ∀ (cs : List ConfigNode), countTypeList t (eraseValuesList cs) = countTypeList t cs
  | [] => rfl
  | c :: cs => by
    rw [eraseValuesList, countTypeList, countTypeList, countType_eraseValues t c,
      countTypeList_eraseValues t cs]
end

/-- The elements of a list with one element changed. -/
theorem getElem?_modifyNth (g : ConfigNode → ConfigNode) :
    ∀ (cs : List ConfigNode) (i j : Nat),
      (modifyNth g i cs)[j]? = if j = i then cs[j]?.map g else cs[j]? := by
  intro cs
  induction cs with
  | nil => intro i j; cases i <;> simp [modifyNth]
  | cons c cs ih =>
    intro i j
    cases i with
    | zero =>
      cases j with
      | zero => simp [modifyNth]
      | succ j => simp [modifyNth]
    | succ i =>
      cases j with
      | zero => simp [modifyNth]
      | succ j => simp [modifyNth, ih]

/-- The node at a position after the body of the loop of `set` ran at the position
`p`: it keeps its kind, and its value is changed only when the position is `p` and
the node is a leaf. -/
theorem nodeAt_modifyAt (v : BoostAny) (p : List Nat) :
    ∀ (r : ConfigNode) (q : List Nat) (n : ConfigNode), nodeAt r q = some n →
      ∃ m, nodeAt (modifyAt p (setLeaf v) r) q = some m ∧ m.getType = n.getType ∧
        m.getValue = if q = p ∧ n.getType = NodeType.Leaf then v else n.getValue := by
  induction p with
  | nil =>
    intro r q n h
    cases q with
    | nil =>
      have hn : r = n := Option.some.inj h
      subst hn
      refine ⟨setLeaf v r, rfl, ?_, ?_⟩
      · unfold setLeaf; split <;> rfl
      · unfold setLeaf
        by_cases ht : r.getType = NodeType.Leaf
        · rw [if_pos ht, if_pos ⟨rfl, ht⟩]; rfl
        · rw [if_neg ht, if_neg (fun hh => ht hh.2)]
    | cons j q =>
      have hch : (modifyAt [] (setLeaf v) r).getChildren = r.getChildren := by
        show (setLeaf v r).getChildren = r.getChildren
        unfold setLeaf; split <;> rfl
      refine ⟨n, ?_, rfl, ?_⟩
      · rw [nodeAt, hch]
        rw [nodeAt] at h
        exact h
      · rw [if_neg (fun hh => by cases hh.1)]
  | cons i p ih =>
    intro r q n h
    cases q with
    | nil =>
      have hn : r = n := Option.some.inj h
      subst hn
      exact ⟨_, rfl, rfl, by rw [if_neg (fun hh => by cases hh.1)]; rfl⟩
    | cons j q =>
      rw [nodeAt] at h
      have hch : (modifyAt (i :: p) (setLeaf v) r).getChildren
          = modifyNth (modifyAt p (setLeaf v)) i r.getChildren := rfl
      rw [nodeAt, hch, getElem?_modifyNth]
      cases hc : r.getChildren[j]? with
      | none => rw [hc] at h; cases h
      | some c =>
        rw [hc] at h
        simp only [] at h
        by_cases hji : j = i
        · rw [if_pos hji, Option.map_some']
          obtain ⟨m, hm, hty, hval⟩ := ih c q n h
          refine ⟨m, hm, hty, ?_⟩
          rw [hval]
          by_cases hqp : q = p
          · by_cases hl : n.getType = NodeType.Leaf
            · rw [if_pos ⟨hqp, hl⟩, if_pos ⟨by rw [hji, hqp], hl⟩]
            · rw [if_neg (fun hh => hl hh.2), if_neg (fun hh => hl hh.2)]
          · rw [if_neg (fun hh => hqp hh.1),
              if_neg (fun hh => hqp (List.cons.inj hh.1).2)]
        · rw [if_neg hji]
          refine ⟨n, h, rfl, ?_⟩
          rw [if_neg (fun hh => hji (List.cons.inj hh.1).1)]

/-- The node at a position after the loop of `set` ran over the positions `ps`: it
keeps its kind, and its value is changed only when the position is among `ps` and the
node is a leaf. -/
theorem nodeAt_foldl (v : BoostAny) (ps : List (List Nat)) :
    ∀ (r : ConfigNode) (q : List Nat) (n : ConfigNode), nodeAt r q = some n →
      ∃ m, nodeAt (ps.foldl (fun root p => modifyAt p (setLeaf v) root) r) q = some m ∧
        m.getType = n.getType ∧
        m.getValue = if q ∈ ps ∧ n.getType = NodeType.Leaf then v else n.getValue := by
  induction ps with
  | nil =>
    intro r q n h
    exact ⟨n, h, rfl, by rw [if_neg (fun hh => by cases hh.1)]⟩
  | cons p ps ih =>
    intro r q n h
    obtain ⟨n1, h1, hty1, hval1⟩ := nodeAt_modifyAt v p r q n h
    obtain ⟨m, hm, hty, hval⟩ := ih (modifyAt p (setLeaf v) r) q n1 h1
    refine ⟨m, hm, hty.trans hty1, ?_⟩
    rw [hval, hval1, hty1]
    by_cases hl : n.getType = NodeType.Leaf
    · by_cases hq : q ∈ ps
      · rw [if_pos ⟨hq, hl⟩, if_pos ⟨List.mem_cons_of_mem _ hq, hl⟩]
      · rw [if_neg (fun hh => hq hh.1)]
        by_cases hqp : q = p
        · rw [if_pos ⟨hqp, hl⟩, if_pos ⟨by rw [hqp]; exact List.mem_cons_self _ _, hl⟩]
        · rw [if_neg (fun hh => hqp hh.1), if_neg]
          intro hh
          rcases List.mem_cons.mp hh.1 with h2 | h2
          · exact hqp h2
          · exact hq h2
    · rw [if_neg (fun hh => hl hh.2), if_neg (fun hh => hl hh.2), if_neg (fun hh => hl hh.2)]

/-- The frame of `set`: for every tree, value `v` and path, `set(v, path)` changes the
tree in exactly one way: every leaf collected by the path gets the `boost::any` `v`
as it is passed. The value of every other node is unchanged, and so are the names,
kinds, depth counters and ordered child lists of all nodes (the tree without its
values is the same), hence the number of nodes of every kind; with no match the
configuration is unchanged. -/
theorem set_changes_collected_leaf_values_only (c : Configuration) (v : BoostAny)
    (path : List String) :
    eraseValues (c.set v path).configRoot = eraseValues c.configRoot ∧
    (∀ t, countType t (c.set v path).configRoot = countType t c.configRoot) ∧
    (∀ q n, nodeAt c.configRoot q = some n →
      ∃ m, nodeAt (c.set v path).configRoot q = some m ∧ m.getType = n.getType ∧
        m.getValue
          = if q ∈ collectAt c.configRoot (consumeParams path) 0 ∧ n.getType = NodeType.Leaf
            then v else n.getValue) ∧
    (collectAt c.configRoot (consumeParams path) 0 = [] → c.set v path = c) ∧
    (c.set v path).filename = c.filename := by
  have herase : eraseValues (c.set v path).configRoot = eraseValues c.configRoot :=
    eraseValues_foldl v _ c.configRoot
  refine ⟨herase, ?_, ?_, ?_, rfl⟩
  · intro t
    rw [← countType_eraseValues t (c.set v path).configRoot, herase, countType_eraseValues]
  · intro q n h
    exact nodeAt_foldl v _ c.configRoot q n h
  · intro hnil
    unfold Configuration.set
    simp only [hnil, List.foldl_nil]

end castor
